import Mathlib

/-!
Shallow embedding of `torch/csrc/jit/passes/quantization.cpp`.

The host IR (graphs, blocks, nodes, values) is modelled as an arena of
blocks addressed by stable ids.  A `Nd` is a node: id, operator identity
(qualified name + overload signature, as one string), ordered input and
output value ids, an optional constant payload (for `prim::Constant`
nodes) and the list of ids of its nested blocks.  A `Blk` is an ordered
list of nodes plus its declared output values.  A `Graph` owns the graph
inputs, the block arena (the root block has id `rootB`), a table giving
every value its unique name and whether it is tensor-typed, and a fresh
counter for newly created ids.
-/

namespace Quantization

/-- Constant payloads: strings (observer value names), floats (scales,
modelled as rationals since the pass only stores them), ints (zero
points). -/
inductive CVal where
  | vstr : String → CVal
  | vflt : Rat → CVal
  | vint : Int → CVal
  | vnone : CVal
deriving DecidableEq, Repr

/-- The calibration triple `(kind-tag, scale, zero_point)` of
`std::tuple<std::string, float, int>`. -/
structure QParam where
  tag : String
  scale : Rat
  zp : Int
deriving DecidableEq, Repr

/-- A node of the IR. -/
structure Nd where
  nid : Nat
  op : String
  ins : List Nat
  outs : List Nat
  cval : CVal
  subs : List Nat
deriving DecidableEq, Repr

/-- A block: ordered nodes plus declared output values. -/
structure Blk where
  nodes : List Nd
  bouts : List Nat
deriving DecidableEq, Repr

/-- Metadata of a value: its unique name and whether its static type is
a subtype of `TensorType`. -/
structure VInfo where
  vname : String
  tensor : Bool
deriving DecidableEq, Repr

/-- A graph: inputs, block arena, root block id, value table, fresh id
counter. -/
structure Graph where
  gins : List Nat
  blks : List (Nat × Blk)
  rootB : Nat
  vals : List (Nat × VInfo)
  fresh : Nat
deriving DecidableEq, Repr

def nameOf (g : Graph) (v : Nat) : String :=
  ((List.lookup v g.vals).map VInfo.vname).getD ""

def tensorOf (g : Graph) (v : Nat) : Bool :=
  ((List.lookup v g.vals).map VInfo.tensor).getD false

/-- All nodes of the graph, in arena order. -/
def allNds (g : Graph) : List Nd := (g.blks.map (fun ib => ib.2.nodes)).flatten

def allNids (g : Graph) : List Nat := (allNds g).map Nd.nid

def rootNodes (g : Graph) : List Nd :=
  ((List.lookup g.rootB g.blks).map Blk.nodes).getD []

def rootBouts (g : Graph) : List Nat :=
  ((List.lookup g.rootB g.blks).map Blk.bouts).getD []

/-- `v->node()`: the producing node of a value (none for graph inputs). -/
def findProducerB (v : Nat) (b : Blk) : Option Nd :=
  b.nodes.find? (fun n => n.outs.contains v)

def findProducer (g : Graph) (v : Nat) : Option Nd :=
  g.blks.findSome? (fun ib => findProducerB v ib.2)

/-- Find a node by id. -/
def findNd (g : Graph) (i : Nat) : Option Nd :=
  g.blks.findSome? (fun ib => ib.2.nodes.find? (fun n => n.nid = i))

/-! ### Structural edits (the graph-mutation primitives of the host IR) -/

def onBlks (f : Blk → Blk) (g : Graph) : Graph :=
  { g with blks := g.blks.map (fun ib => (ib.1, f ib.2)) }

/-- Insert the nodes `ns` immediately before the node with id `a`. -/
def insBefL (a : Nat) (ns : List Nd) : List Nd → List Nd
  | [] => []
  | n :: rest => if n.nid = a then ns ++ n :: rest else n :: insBefL a ns rest

/-- Insert the nodes `ns` immediately after the node with id `a`. -/
def insAftL (a : Nat) (ns : List Nd) : List Nd → List Nd
  | [] => []
  | n :: rest => if n.nid = a then n :: ns ++ rest else n :: insAftL a ns rest

def insBeforeG (g : Graph) (a : Nat) (ns : List Nd) : Graph :=
  onBlks (fun b => ⟨insBefL a ns b.nodes, b.bouts⟩) g

def insAfterG (g : Graph) (a : Nat) (ns : List Nd) : Graph :=
  onBlks (fun b => ⟨insAftL a ns b.nodes, b.bouts⟩) g

/-- Append nodes at the end of the root block (insertion before the
return node of a block with no other nodes). -/
def appendRootG (g : Graph) (ns : List Nd) : Graph :=
  { g with blks := g.blks.map (fun ib =>
      if ib.1 = g.rootB then (ib.1, ⟨ib.2.nodes ++ ns, ib.2.bouts⟩) else ib) }

def subst (v v' : Nat) (u : Nat) : Nat := if u = v then v' else u

/-- `v->replaceAllUsesWith(v')`: every node input and every block output
equal to `v` becomes `v'`. -/
def replUses (g : Graph) (v v' : Nat) : Graph :=
  onBlks (fun b =>
    ⟨b.nodes.map (fun n => { n with ins := n.ins.map (subst v v') }),
     b.bouts.map (subst v v')⟩) g

/-- `n->replaceInputWith(v, v')` for the node with id `i`: every
occurrence of `v` among that node's inputs becomes `v'`. -/
def replInputOf (g : Graph) (i : Nat) (v v' : Nat) : Graph :=
  onBlks (fun b =>
    ⟨b.nodes.map (fun n =>
        if n.nid = i then { n with ins := n.ins.map (subst v v') } else n),
     b.bouts⟩) g

/-- `n->addInput(v)` for the node with id `i`. -/
def addInputG (g : Graph) (i : Nat) (v : Nat) : Graph :=
  onBlks (fun b =>
    ⟨b.nodes.map (fun n => if n.nid = i then { n with ins := n.ins ++ [v] } else n),
     b.bouts⟩) g

/-- `n->destroy()` for the node with id `i`: unlink it from its block. -/
def destroyG (g : Graph) (i : Nat) : Graph :=
  onBlks (fun b => ⟨b.nodes.filter (fun n => n.nid ≠ i), b.bouts⟩) g

/-! ### The quantizable-operator matcher (`checkIfNodeQuantizable`) -/

def conv2dSig : String :=
  "aten::conv2d(Tensor input, Tensor weight, Tensor? bias=None, int[2] stride=1, int[2] padding=0, int[2] dilation=1, int groups=1) -> Tensor"

def reluSig : String := "aten::relu(Tensor self) -> Tensor"

def convolutionSig : String :=
  "aten::_convolution(Tensor input, Tensor weight, Tensor? bias, int[] stride, int[] padding, int[] dilation, bool transposed, int[] output_padding, int groups, bool benchmark, bool deterministic, bool cudnn_enabled) -> Tensor"

/-- The static `OperatorSet quantnodeLookup`. -/
def quantnodeLookup : List String := [conv2dSig, reluSig, convolutionSig]

/-- `checkIfNodeQuantizable`: exact membership of the node's operator
identity in the registered set. -/
def checkIfNodeQuantizable (n : Nd) : Bool := quantnodeLookup.contains n.op

def producerQuantizable (g : Graph) (v : Nat) : Bool :=
  match findProducer g v with
  | some n => checkIfNodeQuantizable n
  | none => false

/-! ### The block traversal engine

Both passes keep an explicit stack of blocks seeded with the root;
visiting a block processes its nodes in stored order and pushes the
subblocks of (selected) nodes onto the stack.  `sel` is the per-pass
gate deciding whether a node's subblocks get scheduled:
`InsertQuantDequantNodes` schedules every node's subblocks, while
`InsertObserverNodes` skips the whole body (including scheduling) for
nodes failing `outputsNeedToBeObserved`. -/

def outputsNeedToBeObserved (n : Nd) : Bool :=
  n.op ≠ "prim::Constant" && n.op ≠ "prim::PythonOp"

/-- Block ids pushed while processing block `b`, in pop (stack) order:
subblocks are pushed node by node, in each node's stored order, so they
pop in reverse. -/
def pushRefs (sel : Nd → Bool) (b : Blk) : List Nat :=
  (((b.nodes.filter sel).map Nd.subs).flatten).reverse

def totalRefs (g : Graph) : Nat := ((allNds g).map (fun n => n.subs.length)).sum

/-- The worklist loop, fuelled (the fuel is ample for every well-nested
graph; C++ block trees cannot be cyclic). -/
def travGo (g : Graph) (sel : Nd → Bool) : Nat → List Nat → List Nat
  | 0, _ => []
  | _ + 1, [] => []
  | f + 1, i :: st =>
      match List.lookup i g.blks with
      | none => travGo g sel f st
      | some b => i :: travGo g sel f (pushRefs sel b ++ st)

def traverseIds (sel : Nd → Bool) (g : Graph) : List Nat :=
  travGo g sel (g.blks.length + totalRefs g + 2) [g.rootB]

def traverseBlks (sel : Nd → Bool) (g : Graph) : List Blk :=
  (traverseIds sel g).filterMap (fun i => List.lookup i g.blks)

def qdSel : Nd → Bool := fun _ => true

/-- The node sequence a pass visits. -/
def visitNds (sel : Nd → Bool) (g : Graph) : List Nd :=
  ((traverseBlks sel g).map Blk.nodes).flatten

/-- All subblock references made by the nodes of one block. -/
def refsOfBlk (b : Blk) : List Nat := (b.nodes.map Nd.subs).flatten

/-- Every block reference in the graph: the root designation plus every
node's subblock list.  In the C++ IR each block is owned by exactly one
node (or is the root), so this list has no duplicates. -/
def blockRefs (g : Graph) : List Nat :=
  g.rootB :: (g.blks.map (fun ib => refsOfBlk ib.2)).flatten

/-- A block id is reachable when it is the root or is a subblock of a
node of a reachable block. -/
inductive Reach (g : Graph) : Nat → Prop where
  | root : Reach g g.rootB
  | step {i : Nat} {b : Blk} {n : Nd} {j : Nat} :
      Reach g i → List.lookup i g.blks = some b → n ∈ b.nodes →
      j ∈ n.subs → Reach g j

/-! ### Quant/Dequant node synthesis -/

/-- `insertQuantNodeParams` + the `addInput` calls of the two helpers,
fused into building the final shape: with the quant node (id `qN`)
already placed, insert the scale and zero-point constants immediately
before it (`WithInsertPoint ins(quant)`) and attach them as its second
and third inputs. -/
def insertQuantNodeParams (g : Graph) (qN : Nat) (scN scV zpN zpV : Nat)
    (qp : QParam) : Graph :=
  let scNode : Nd := ⟨scN, "prim::Constant", [], [scV], .vflt qp.scale, []⟩
  let zpNode : Nd := ⟨zpN, "prim::Constant", [], [zpV], .vint qp.zp, []⟩
  let g1 := insBeforeG g qN [scNode]
  let g2 := insBeforeG g1 qN [zpNode]
  addInputG (addInputG g2 qN scV) qN zpV

/-- `addQuantDeQuantNodes(v, qparam)`: quant/dequant pair at `v`'s
definition site.  Fresh ids: quant node `fresh`, its output `fresh+1`,
dequant node `fresh+2`, its output `fresh+3`, scale constant node
`fresh+4` / value `fresh+5`, zero-point constant node `fresh+6` / value
`fresh+7`. -/
def addQuantDeQuantNodes (g : Graph) (v : Nat) (qp : QParam) : Graph :=
  match findProducer g v with
  | none => g
  | some n =>
    let qN := g.fresh; let qV := g.fresh + 1
    let dN := g.fresh + 2; let dV := g.fresh + 3
    let quant : Nd := ⟨qN, "aten::quantize_linear", [], [qV], .vnone, []⟩
    let dequant : Nd := ⟨dN, "aten::dequantize", [], [dV], .vnone, []⟩
    let g1 := insAfterG g n.nid [quant, dequant]
    let g2 := replUses g1 v dV
    let g3 := addInputG g2 qN v
    let g4 := insertQuantNodeParams g3 qN (g.fresh + 4) (g.fresh + 5)
                (g.fresh + 6) (g.fresh + 7) qp
    let g5 := addInputG g4 dN qV
    { g5 with
      vals := g5.vals ++
        [(qV, ⟨nameOf g v ++ ".quant", true⟩),
         (dV, ⟨nameOf g v ++ ".dequant", true⟩),
         (g.fresh + 5, ⟨"c" ++ toString (g.fresh + 5), false⟩),
         (g.fresh + 7, ⟨"c" ++ toString (g.fresh + 7), false⟩)],
      fresh := g.fresh + 8 }

/-- `addQuantDeQuantNodesForInput(v, n, qparam)`: quant/dequant pair
immediately before the consuming node `i`, redirecting only that node's
references to `v`. -/
def addQuantDeQuantNodesForInput (g : Graph) (v : Nat) (i : Nat)
    (qp : QParam) : Graph :=
  match findNd g i with
  | none => g
  | some _ =>
    let qN := g.fresh; let qV := g.fresh + 1
    let dN := g.fresh + 2; let dV := g.fresh + 3
    let quant : Nd := ⟨qN, "aten::quantize_linear", [], [qV], .vnone, []⟩
    let dequant : Nd := ⟨dN, "aten::dequantize", [], [dV], .vnone, []⟩
    let g1 := insBeforeG g i [quant, dequant]
    let g2 := replInputOf g1 i v dV
    let g3 := addInputG g2 qN v
    let g4 := insertQuantNodeParams g3 qN (g.fresh + 4) (g.fresh + 5)
                (g.fresh + 6) (g.fresh + 7) qp
    let g5 := addInputG g4 dN qV
    { g5 with
      vals := g5.vals ++
        [(qV, ⟨nameOf g v ++ ".quant", true⟩),
         (dV, ⟨nameOf g v ++ ".dequant", true⟩),
         (g.fresh + 5, ⟨"c" ++ toString (g.fresh + 5), false⟩),
         (g.fresh + 7, ⟨"c" ++ toString (g.fresh + 7), false⟩)],
      fresh := g.fresh + 8 }

/-! ### The collect phase of `InsertQuantDequantNodes`

The pass first walks the whole graph, building: `qIns` — the
(value, consuming node) input-rewrite list; `qOuts` — the list of
values output from quantizable nodes (with `seen` the dedup set used by
the input scan); `toRemove` — matched observer nodes and their
name-constant nodes; `qvd` — the Value→parameter map.  The walk itself
mutates nothing; a failure (`none`) models the unchecked
`inputs()[1]` access / `toIValue(vname).value()` / `toStringRef()`
inside `matchQParamDictKeytoObserver` on a malformed `prim::PythonOp`. -/

structure CState where
  qIns : List (Nat × Nat)
  qOuts : List Nat
  seen : List Nat
  toRemove : List Nat
  qvd : List (Nat × QParam)
deriving DecidableEq, Repr

def initCState : CState := ⟨[], [], [], [], []⟩

/-- The per-input classification of the input scan loop. -/
def scanVal (g : Graph) (n : Nd) (st : CState) (v : Nat) : CState :=
  if !(tensorOf g v) then st
  else if producerQuantizable g v then
    if st.seen.contains v then st
    else { st with seen := st.seen ++ [v], qOuts := st.qOuts ++ [v] }
  else if checkIfNodeQuantizable n then { st with qIns := st.qIns ++ [(v, n.nid)] }
  else st

def scanNode (g : Graph) (st : CState) (n : Nd) : CState :=
  n.ins.foldl (scanVal g n) st

/-- `matchQParamDictKeytoObserver` fused with the per-node body of the
traversal loop: a matched observer is marked for removal (with its
name-constant node) and binds its observed value in `qvd`
(`emplace`: first binding wins); an unmatched node falls through to the
input scan. -/
def nodeStep (g : Graph) (dict : List (String × QParam)) (st : CState)
    (n : Nd) : Option CState :=
  if n.op = "prim::PythonOp" then
    match n.ins.get? 1 with
    | none => none
    | some i1 =>
      match findProducer g i1 with
      | none => none
      | some cn =>
        if cn.op = "prim::Constant" then
          match cn.cval with
          | .vstr s =>
            match n.ins.get? 0 with
            | none => none
            | some v =>
              match List.lookup s dict with
              | none => some (scanNode g st n)
              | some qp =>
                some { st with
                  toRemove := st.toRemove ++ [n.nid, cn.nid],
                  qvd := if (List.lookup v st.qvd).isSome then st.qvd
                         else st.qvd ++ [(v, qp)] }
          | _ => none
        else none
  else some (scanNode g st n)

/-- Processing one block: its nodes in stored order, then its declared
outputs (pushed to `qOuts` when their producer is quantizable — with no
`seen` check). -/
def blockCollect (g : Graph) (dict : List (String × QParam)) (st : CState)
    (b : Blk) : Option CState := do
  let st1 ← b.nodes.foldlM (nodeStep g dict) st
  some (b.bouts.foldl (fun st v =>
    if producerQuantizable g v && tensorOf g v then
      { st with qOuts := st.qOuts ++ [v] }
    else st) st1)

def collectQD (g : Graph) (dict : List (String × QParam)) : Option CState :=
  (traverseBlks qdSel g).foldlM (blockCollect g dict) initCState

/-- The Value→parameter map the pass builds (empty if the collect walk
faults). -/
def paramMap (g : Graph) (dict : List (String × QParam)) : List (Nat × QParam) :=
  ((collectQD g dict).map CState.qvd).getD []

/-- `InsertQuantDequantNodes(graph, qparam_dict)`. -/
def InsertQuantDequantNodes (g : Graph) (dict : List (String × QParam)) :
    Option Graph := do
  let st ← collectQD g dict
  let g1 := st.toRemove.foldl destroyG g
  let g2 := st.qOuts.foldl (fun ga v =>
      match List.lookup v st.qvd with
      | some qp => addQuantDeQuantNodes ga v qp
      | none => ga) g1
  let g3 := st.qIns.foldl (fun ga e =>
      match List.lookup e.1 st.qvd with
      | some qp => addQuantDeQuantNodesForInput ga e.1 e.2 qp
      | none => ga) g2
  some g3

/-! ### Observer insertion (`InsertObserverNodes`) -/

/-- An externally supplied observer template `Node*`: its operator
identity, its own input values (carried verbatim into every clone by
`createClone`'s identity value map) and the metadata of its own outputs
(copied onto fresh clone outputs). -/
structure ObsTemplate where
  op : String
  tins : List Nat
  touts : List VInfo
deriving DecidableEq, Repr

/-- Insertion-anchor selection: `some a` inserts relative to node `a`;
`none` (a block with no nodes) appends at the end of the root block
(insertion before its return node). -/
def insertAtAnchor (g : Graph) (anchor : Option Nat) (after : Bool)
    (ns : List Nd) : Graph :=
  match anchor with
  | some a => if after then insAfterG g a ns else insBeforeG g a ns
  | none => appendRootG g ns

/-- `addObserverFor(v, original_observer_node, insert_info)`:
a constant holding `v`'s unique name is inserted at the anchor
(`WithInsertPoint ins(def)`, i.e. before it), then the template is
cloned (`createClone` with the identity value map and no blocks: the
clone keeps the template's inputs and gets a fresh copy of each template
output), the clone is placed before/after the anchor, given one new
output named `<name>.observed` with `v`'s type, and finally the inputs
`v` and the name constant are appended.  Fresh ids: constant node
`fresh`, its output `fresh+1`, clone `fresh+2`, copied outputs
`fresh+3 ...`, new output last. -/
def addObserverFor (g : Graph) (v : Nat) (t : ObsTemplate)
    (anchor : Option Nat) (after : Bool) : Graph :=
  let cN := g.fresh; let cV := g.fresh + 1; let oN := g.fresh + 2
  let k := t.touts.length
  let cOuts := (List.range k).map (fun j => g.fresh + 3 + j)
  let oV := g.fresh + 3 + k
  let cNode : Nd := ⟨cN, "prim::Constant", [], [cV], .vstr (nameOf g v), []⟩
  let oNode : Nd := ⟨oN, t.op, t.tins ++ [v, cV], cOuts ++ [oV], .vnone, []⟩
  let g1 := insertAtAnchor g anchor false [cNode]
  let g2 := insertAtAnchor g1 anchor after [oNode]
  { g2 with
    vals := g2.vals ++ [(cV, ⟨"c" ++ toString cV, false⟩)] ++ cOuts.zip t.touts
            ++ [(oV, ⟨nameOf g v ++ ".observed", tensorOf g v⟩)],
    fresh := g.fresh + 4 + k }

def obsSel : Nd → Bool := outputsNeedToBeObserved

/-- The activation-collection walk: outputs of every visited node that
passes `outputsNeedToBeObserved`, collected only when an "activation"
observer was supplied at all. -/
def collectObs (g : Graph) (hasAct : Bool) : List Nat :=
  (traverseBlks obsSel g).foldl (fun acc b =>
    b.nodes.foldl (fun a n =>
      if outputsNeedToBeObserved n then (if hasAct then a ++ n.outs else a) else a)
      acc) []

/-- One step of the graph-input instrumentation loop: input `iv.1` is
the input's index, `iv.2` the value; the observer template is chosen by
the parameter boundary `psi` and a missing template skips the input. -/
def obsInputStep (psi : Nat) (actT parT : Option ObsTemplate)
    (anchor0 : Option Nat) (ga : Graph) (iv : Nat × Nat) : Graph :=
  match (if iv.1 < psi then actT else parT) with
  | none => ga
  | some t => if tensorOf ga iv.2 then addObserverFor ga iv.2 t anchor0 false
              else ga

/-- One step of the activation-observer insertion loop: clone the
activation template immediately after the producing node of `v`. -/
def obsActStep (actT : Option ObsTemplate) (ga : Graph) (v : Nat) : Graph :=
  if tensorOf ga v then
    match actT, findProducer ga v with
    | some t, some p => addObserverFor ga v t (some p.nid) true
    | _, _ => ga
  else ga

/-- `InsertObserverNodes(method, observerNodeDict)`; `numParams` is
`method->initial_ivalues().size()` (module params are the trailing
graph inputs).  `none` models the `AT_ASSERT(param_start_index >= 0)`
precondition. -/
def InsertObserverNodes (g : Graph) (numParams : Nat)
    (dict : List (String × ObsTemplate)) : Option Graph :=
  if g.gins.length < numParams then none else
  let actT := List.lookup "activation" dict
  let parT := List.lookup "param" dict
  let psi := g.gins.length - numParams
  let anchor0 := (rootNodes g).head?.map Nd.nid
  let g1 := g.gins.enum.foldl (obsInputStep psi actT parT anchor0) g
  let vs := collectObs g1 actT.isSome
  let g2 := vs.foldl (obsActStep actT) g1
  some g2

/-! ### Bookkeeping predicates and spec-side characterizations -/

/-- Every id occurring in the graph is below the fresh counter. -/
def idsBound (g : Graph) : Bool :=
  (g.gins.all (· < g.fresh)) &&
  ((g.vals.map Prod.fst).all (· < g.fresh)) &&
  ((allNds g).all (fun n => decide (n.nid < g.fresh) &&
     n.ins.all (· < g.fresh) && n.outs.all (· < g.fresh))) &&
  (g.blks.all (fun ib => ib.2.bouts.all (· < g.fresh)))

/-- Spec-side description of which graph inputs receive an input
observer (claim C5): an entry per tensor-typed input whose side of the
parameter boundary `psi` has a template supplied, in input order. -/
def eligFrom (g : Graph) (psi : Nat) (actT parT : Option ObsTemplate)
    (l : List (Nat × Nat)) : List (Nat × ObsTemplate) :=
  l.filterMap (fun iv =>
    match (if iv.1 < psi then actT else parT) with
    | none => none
    | some t => if tensorOf g iv.2 then some (iv.2, t) else none)

/-- The constant/observer pair `addObserverFor` creates for value `v`
from template `t` when the fresh counter stands at `f`. -/
def mkPair (g : Graph) (f : Nat) (v : Nat) (t : ObsTemplate) : List Nd :=
  [⟨f, "prim::Constant", [], [f + 1], .vstr (nameOf g v), []⟩,
   ⟨f + 2, t.op, t.tins ++ [v, f + 1],
    ((List.range t.touts.length).map (fun j => f + 3 + j)) ++ [f + 3 + t.touts.length],
    .vnone, []⟩]

/-- The full prefix of constant/observer pairs the input phase lays
down, one pair per eligible input. -/
def pairsFrom (g : Graph) (f : Nat) : List (Nat × ObsTemplate) → List Nd
  | [] => []
  | (v, t) :: rest => mkPair g f v t ++ pairsFrom g (f + 4 + t.touts.length) rest

/-! ### Reserved, unimplemented entry points -/

def PropagateQuantInfo (_g : Graph) : Except String Graph :=
  .error "Pass not implemented yet!"

def QuantLinting (_g : Graph) : Except String Graph :=
  .error "Pass not implemented yet!"

def FoldQuantNodesIntoInputsOutputs (_g : Graph) : Except String Graph :=
  .error "Pass not implemented yet!"

/-! ### Concrete graphs used as failing inputs / counterexamples / witnesses -/

/-- C1 failing input, root block `[relu, name-constant, observer, relu]`:
`relu`(node 1) produces `v`(value 2); node 3 is the constant holding the
string `"v"`; node 5 is the observer `PythonOp(v, "v")`; node 7 consumes
`v`; and `v` is also the root block's declared output. -/
def gC1 : Graph :=
  { gins := [0]
    blks := [(0, ⟨[⟨1, reluSig, [0], [2], .vnone, []⟩,
                   ⟨3, "prim::Constant", [], [4], .vstr "v", []⟩,
                   ⟨5, "prim::PythonOp", [2, 4], [6], .vnone, []⟩,
                   ⟨7, reluSig, [2], [8], .vnone, []⟩], [2]⟩)]
    rootB := 0
    vals := [(0, ⟨"x", true⟩), (2, ⟨"v", true⟩), (4, ⟨"c4", false⟩),
             (6, ⟨"v.observed", true⟩), (8, ⟨"w", true⟩)]
    fresh := 9 }

def dC1 : List (String × QParam) := [("v", ⟨"t", 1, 0⟩)]

/-- C2 counterexample input: the conv2d node 5 lists the same value `x`
(value 0, a graph input, so its producer is not quantizable) in two
input positions; node 1/2 are `x`'s observer and its name constant. -/
def gC2 : Graph :=
  { gins := [0]
    blks := [(0, ⟨[⟨2, "prim::Constant", [], [3], .vstr "x", []⟩,
                   ⟨1, "prim::PythonOp", [0, 3], [4], .vnone, []⟩,
                   ⟨5, conv2dSig, [0, 0], [6], .vnone, []⟩], [6]⟩)]
    rootB := 0
    vals := [(0, ⟨"x", true⟩), (3, ⟨"c3", false⟩), (4, ⟨"x.observed", true⟩),
             (6, ⟨"y", true⟩)]
    fresh := 7 }

def dC2 : List (String × QParam) := [("x", ⟨"t", 1, 0⟩)]

/-- A well-formed observer template: a `prim::PythonOp` node with no
inputs and no outputs of its own. -/
def tmplPlain : ObsTemplate := ⟨"prim::PythonOp", [], []⟩

/-- An observer template that has an input of its own (value 77). -/
def tmplWithInput : ObsTemplate := ⟨"prim::PythonOp", [77], []⟩

/-- The two-input graph of the C5 scenario: `a` (value 0, external
data) and `p` (value 9, module parameter) feeding a conv2d. -/
def gC5 : Graph :=
  { gins := [0, 9]
    blks := [(0, ⟨[⟨1, conv2dSig, [0, 9], [2], .vnone, []⟩], [2]⟩)]
    rootB := 0
    vals := [(0, ⟨"a", true⟩), (9, ⟨"p", true⟩), (2, ⟨"y", true⟩)]
    fresh := 10 }

/-- C4 witness graph: an `If` node in the root block with two branch
blocks, the second of which contains a `Loop` node with one more nested
block. -/
def gC4 : Graph :=
  { gins := [0]
    blks := [(0, ⟨[⟨1, "prim::If", [0], [], .vnone, [1, 2]⟩], []⟩),
             (1, ⟨[⟨2, reluSig, [0], [3], .vnone, []⟩], [3]⟩),
             (2, ⟨[⟨4, reluSig, [0], [5], .vnone, []⟩,
                   ⟨6, "prim::Loop", [], [], .vnone, [3]⟩], [5]⟩),
             (3, ⟨[⟨7, reluSig, [0], [8], .vnone, []⟩], [8]⟩)]
    rootB := 0
    vals := [(0, ⟨"x", true⟩), (3, ⟨"a", true⟩), (5, ⟨"b", true⟩),
             (8, ⟨"c", true⟩)]
    fresh := 9 }

/-- C10 failing input (a): a `prim::PythonOp` with a single input — the
unchecked `inputs()[1]` access is out of range. -/
def gBad1 : Graph :=
  { gins := [0]
    blks := [(0, ⟨[⟨1, "prim::PythonOp", [0], [2], .vnone, []⟩], [2]⟩)]
    rootB := 0
    vals := [(0, ⟨"x", true⟩), (2, ⟨"y", true⟩)]
    fresh := 3 }

/-- C10 failing input (b): a `prim::PythonOp` whose second input is
produced by a (non-constant) relu node — `toIValue(vname)` is empty and
`.value()` throws. -/
def gBad2 : Graph :=
  { gins := [0]
    blks := [(0, ⟨[⟨1, reluSig, [0], [2], .vnone, []⟩,
                   ⟨3, "prim::PythonOp", [0, 2], [4], .vnone, []⟩], [4]⟩)]
    rootB := 0
    vals := [(0, ⟨"x", true⟩), (2, ⟨"r", true⟩), (4, ⟨"y", true⟩)]
    fresh := 5 }

/-! ### Structural-preservation predicates (claim C8) -/

/-- `x` is the node `y` with everything but its inputs untouched, and
with the value `vP` consumed at exactly the same input positions. -/
def NodeSim (vP : Nat) (y x : Nd) : Prop :=
  x.nid = y.nid ∧ x.op = y.op ∧ x.outs = y.outs ∧
  x.ins.length = y.ins.length ∧
  ∀ k, x.ins.get? k = some vP ↔ y.ins.get? k = some vP

/-- The rewrite phase's frame relative to the pre-pass graph `g0`:
old-id nodes of `ga` are `NodeSim`-images of `g0` nodes, every `g0`
node not marked for removal survives as a `NodeSim`-image, fresh nodes
never consume `vP` and only produce fresh values, and all ids stay
below the fresh counter. -/
def GraphSim (vP f0 : Nat) (R : List Nat) (g0 ga : Graph) : Prop :=
  (∀ x ∈ allNds ga, x.nid < f0 → ∃ y ∈ allNds g0, NodeSim vP y x) ∧
  (∀ y ∈ allNds g0, y.nid ∉ R → ∃ x ∈ allNds ga, NodeSim vP y x) ∧
  (∀ x ∈ allNds ga, f0 ≤ x.nid → vP ∉ x.ins ∧ ∀ o ∈ x.outs, f0 ≤ o) ∧
  (∀ x ∈ allNds ga, x.nid < ga.fresh) ∧
  f0 ≤ ga.fresh

end Quantization

/-! # Theorems -/

namespace Quantization

/-- Claim C9: each of the three reserved entry points
(`PropagateQuantInfo`, `QuantLinting`, `FoldQuantNodesIntoInputsOutputs`)
raises the explicit "not implemented" failure on every invocation and
never returns successfully (in particular it never mutates or returns a
graph). -/
theorem c9_unimplemented_entry_points :
    ∀ g : Graph,
      PropagateQuantInfo g = Except.error "Pass not implemented yet!" ∧
      QuantLinting g = Except.error "Pass not implemented yet!" ∧
      FoldQuantNodesIntoInputsOutputs g = Except.error "Pass not implemented yet!" :=
  fun _ => ⟨rfl, rfl, rfl⟩

/-- Claim C7: `checkIfNodeQuantizable` returns true iff the node's
operator identity is exactly one of the three registered signatures; it
depends on nothing but the operator identity (hence repeated calls on
the same node agree); and the bare qualified names — proper prefixes of
the registered signatures — do not match. -/
theorem c7_matcher_exact_and_pure :
    (∀ n : Nd, checkIfNodeQuantizable n = true ↔
        (n.op = conv2dSig ∨ n.op = reluSig ∨ n.op = convolutionSig)) ∧
    (∀ n m : Nd, n.op = m.op →
        checkIfNodeQuantizable n = checkIfNodeQuantizable m) ∧
    (∀ n : Nd,
        (n.op = "aten::conv2d" ∨ n.op = "aten::relu" ∨ n.op = "aten::_convolution") →
        checkIfNodeQuantizable n = false) := by
  refine ⟨fun n => ?_, fun n m h => ?_, fun n h => ?_⟩
  · simp [checkIfNodeQuantizable, quantnodeLookup, List.elem_iff]
  · simp [checkIfNodeQuantizable, h]
  · rcases h with h | h | h <;>
      simp [checkIfNodeQuantizable, quantnodeLookup, List.elem_iff, h,
        conv2dSig, reluSig, convolutionSig]

theorem c7_matcher_exact_and_pure_witness :
    checkIfNodeQuantizable ⟨0, reluSig, [], [], .vnone, []⟩ = true ∧
    checkIfNodeQuantizable ⟨1, "aten::relu", [], [], .vnone, []⟩ = false :=
  ⟨(c7_matcher_exact_and_pure.1 _).mpr (Or.inr (Or.inl rfl)),
   c7_matcher_exact_and_pure.2.2 _ (Or.inr (Or.inl rfl))⟩

/-- Claim C1 (refuted — code bug): on `gC1` the value `v` (id 2) is
tensor-typed, its producer is quantizable, it is bound in the
Value→parameter map, it has a consumer, and it is also a declared block
output.  The claim (and the source's own comments: "we use set so that
we insert quant-dequant node pairs for value only once", "we push to
quantOutputs set") demand exactly ONE quant/dequant pair; the code
pushes block outputs into `quantOutputs` without consulting the
`valueLookup` dedup set, so `v` appears twice and the pass inserts TWO
pairs (the second pair rerouting the first quant node's input through
the second dequant output). -/
theorem c1_output_set_double_insertion_bug :
    tensorOf gC1 2 = true ∧
    producerQuantizable gC1 2 = true ∧
    (List.lookup 2 (paramMap gC1 dC1)).isSome = true ∧
    rootBouts gC1 = [2] ∧
    (InsertQuantDequantNodes gC1 dC1).map (fun g' =>
      (((allNds g').filter (fun n => n.op = "aten::quantize_linear")).length,
       ((allNds g').filter (fun n => n.op = "aten::dequantize")).length))
      = some (2, 2) := by
  decide

/-- Claim C2, counterexample: in `gC2` the tensor value `x` (id 0) has a
non-quantizable producer (it is a graph input), a resolved calibration
parameter, and exactly ONE distinct quantizable consumer (the conv2d
node listing `x` in two input positions).  The claim promises exactly
one quant/dequant pair for that edge; the code records the edge once per
input position and inserts TWO pairs (the first pair's insertion
redirects both positions, the second pair is left unconsumed, and the
first pair's dequant node is no longer directly before the consumer). -/
theorem c2_per_edge_counterexample :
    tensorOf gC2 0 = true ∧
    producerQuantizable gC2 0 = false ∧
    (List.lookup 0 (paramMap gC2 dC2)).isSome = true ∧
    ((rootNodes gC2).filter (fun n =>
        checkIfNodeQuantizable n && n.ins.contains 0)).length = 1 ∧
    (InsertQuantDequantNodes gC2 dC2).map (fun g' =>
      ((allNds g').filter (fun n =>
          n.op = "aten::quantize_linear" && n.ins.contains 0)).length)
      = some 2 := by
  decide

/-- If an `Option`-valued left fold over a list succeeds, every list
element was accepted by the folded function at some state. -/
theorem foldlM_opt_isSome {α σ : Type} (f : σ → α → Option σ) :
    ∀ (l : List α) (init : σ), (l.foldlM f init).isSome = true →
      ∀ a ∈ l, ∃ st, (f st a).isSome = true := by
  intro l
  induction l with
  | nil => intro _ _ a ha; cases ha
  | cons b t ih =>
    intro init h a ha
    rw [List.foldlM_cons] at h
    cases hf : f init b with
    | none =>
      rw [hf] at h
      simp only [Option.bind_eq_bind, Option.none_bind, Option.isSome_none] at h
      cases h
    | some s1 =>
      rw [hf] at h
      simp only [Option.bind_eq_bind, Option.some_bind] at h
      cases ha with
      | head => exact ⟨init, by rw [hf]; rfl⟩
      | tail _ hm => exact ih s1 h a hm

/-- A `nodeStep` that does not fault certifies the PythonOp shape: the
fault condition of `matchQParamDictKeytoObserver` depends only on the
node and the graph, never on the accumulated state. -/
theorem nodeStep_isSome_pythonOpShape (g : Graph) (dict : List (String × QParam))
    (st : CState) (n : Nd) (h : (nodeStep g dict st n).isSome = true)
    (hop : n.op = "prim::PythonOp") :
    2 ≤ n.ins.length ∧
    ∃ i1 cn, n.ins.get? 1 = some i1 ∧ findProducer g i1 = some cn ∧
      cn.op = "prim::Constant" := by
  obtain ⟨stO, hx⟩ := Option.isSome_iff_exists.mp h
  unfold nodeStep at hx
  rw [if_pos hop] at hx
  split at hx
  · cases hx
  · rename_i i1 h1
    split at hx
    · cases hx
    · rename_i cn h2
      split at hx
      · rename_i hc
        refine ⟨?_, i1, cn, h1, h2, hc⟩
        obtain ⟨hlt, -⟩ := List.get?_eq_some.mp h1
        omega
      · cases hx

/-- Claim C10: the pass unconditionally reads every visited
`prim::PythonOp` node's second input and unwraps it as a constant;
whenever `InsertQuantDequantNodes` completes, every visited PythonOp
node therefore has at least two inputs with the second produced by a
`prim::Constant` node; and for PythonOps violating this precondition
both failure branches are reachable: `gBad1` (single input — the
out-of-range `inputs()[1]`) and `gBad2` (second input from a
non-constant — unwrapping an absent constant) make the pass fail even
with an empty calibration dictionary. -/
theorem c10_pythonop_precondition :
    (∀ (g : Graph) (dict : List (String × QParam)),
      (InsertQuantDequantNodes g dict).isSome = true →
      ∀ n ∈ visitNds qdSel g, n.op = "prim::PythonOp" →
        2 ≤ n.ins.length ∧
        ∃ i1 cn, n.ins.get? 1 = some i1 ∧ findProducer g i1 = some cn ∧
          cn.op = "prim::Constant") ∧
    InsertQuantDequantNodes gBad1 [] = none ∧
    InsertQuantDequantNodes gBad2 [] = none := by
  refine ⟨?_, by decide, by decide⟩
  intro g dict hs n hn hop
  have hcol : (collectQD g dict).isSome = true := by
    unfold InsertQuantDequantNodes at hs
    cases h : collectQD g dict with
    | none => rw [h] at hs; simp at hs
    | some st => rfl
  unfold collectQD at hcol
  rw [visitNds, List.mem_flatten] at hn
  obtain ⟨ns, hns, hnn⟩ := hn
  rw [List.mem_map] at hns
  obtain ⟨b, hb, rfl⟩ := hns
  obtain ⟨st, hstep⟩ := foldlM_opt_isSome _ _ _ hcol b hb
  have hin : (b.nodes.foldlM (nodeStep g dict) st).isSome = true := by
    unfold blockCollect at hstep
    cases h : b.nodes.foldlM (nodeStep g dict) st with
    | none => rw [h] at hstep; simp at hstep
    | some st1 => rfl
  obtain ⟨st', h'⟩ := foldlM_opt_isSome _ _ _ hin n hnn
  exact nodeStep_isSome_pythonOpShape g dict st' n h' hop

theorem c10_pythonop_precondition_witness :
    2 ≤ (Nd.mk 1 "prim::PythonOp" [0, 3] [4] .vnone []).ins.length ∧
    ∃ i1 cn, (Nd.mk 1 "prim::PythonOp" [0, 3] [4] .vnone []).ins.get? 1 = some i1 ∧
      findProducer gC2 i1 = some cn ∧ cn.op = "prim::Constant" :=
  c10_pythonop_precondition.1 gC2 dC2 (by decide)
    (Nd.mk 1 "prim::PythonOp" [0, 3] [4] .vnone []) (by decide) rfl

/-- Claim C6, counterexample: running `insertObservers` with a template
node that has an input of its own (value 77), the inserted observer
clone carries THREE inputs — the template's own input followed by the
observed value and the name constant — because `createClone` is invoked
with the identity value map, so the template's original input wiring IS
preserved on the clone. -/
theorem c6_clone_wiring_counterexample :
    tmplWithInput.tins = [77] ∧
    (InsertObserverNodes gC5 1 [("param", tmplWithInput)]).map (fun g' =>
      (findNd g' 12).map Nd.ins) = some (some [77, 9, 11]) := by
  decide

/-! ### Correctness of the worklist block traversal (claim C4) -/

theorem lookup_mem_pairs {α β : Type} [BEq α] [LawfulBEq α]
    {l : List (α × β)} {a : α} {b : β}
    (h : List.lookup a l = some b) : (a, b) ∈ l := by
  induction l with
  | nil => cases h
  | cons p t ih =>
    rw [List.lookup] at h
    split at h
    · rename_i heq
      cases h
      simp [beq_iff_eq.mp heq]
    · exact List.mem_cons_of_mem _ (ih h)

theorem lookup_isSome_of_key {β : Type} {l : List (Nat × β)} {a : Nat}
    (h : a ∈ l.map Prod.fst) : (List.lookup a l).isSome = true := by
  induction l with
  | nil => cases h
  | cons p t ih =>
    rw [List.lookup]
    split
    · rfl
    · rename_i heq
      apply ih
      rcases List.mem_map.mp h with ⟨q, hq, he⟩
      cases hq with
      | head => exact absurd (beq_iff_eq.mpr he.symm) (by simp [heq])
      | tail _ hm => exact List.mem_map.mpr ⟨q, hm, he⟩

theorem mem_refsOfBlk {b : Blk} {x : Nat} :
    x ∈ refsOfBlk b ↔ ∃ n ∈ b.nodes, x ∈ n.subs := by
  simp [refsOfBlk, List.mem_flatten]

theorem pushRefs_qdSel (b : Blk) : pushRefs qdSel b = (refsOfBlk b).reverse := by
  unfold pushRefs qdSel refsOfBlk
  rw [List.filter_true]

/-- Entries of a flattened map with disjoint images: two distinct list
members have disjoint image lists when the flattened map is
duplicate-free. -/
theorem flatten_map_disjoint {A γ : Type} [DecidableEq γ] (F : A → List γ)
    {L : List A} (h : ((L.map F).flatten).Nodup) {a b : A}
    (ha : a ∈ L) (hb : b ∈ L) (hab : a ≠ b) {x : γ}
    (hxa : x ∈ F a) (hxb : x ∈ F b) : False := by
  obtain ⟨s, t, rfl⟩ := List.append_of_mem ha
  rw [List.map_append, List.flatten_append, List.map_cons, List.flatten_cons]
    at h
  rw [List.nodup_append] at h
  obtain ⟨-, h2, hdisj⟩ := h
  rw [List.nodup_append] at h2
  obtain ⟨-, -, hdisj2⟩ := h2
  rcases List.mem_append.mp hb with hbs | hbt
  · exact hdisj (List.mem_flatten.mpr ⟨F b, List.mem_map_of_mem F hbs, hxb⟩)
      (List.mem_append.mpr (Or.inl hxa))
  · cases hbt with
    | head => exact hab rfl
    | tail _ hm =>
      exact hdisj2 hxa (List.mem_flatten.mpr ⟨F b, List.mem_map_of_mem F hm, hxb⟩)

/-- Each block's own reference list is duplicate-free. -/
theorem entry_refs_nodup {g : Graph} (hrefs : (blockRefs g).Nodup)
    {i : Nat} {b : Blk} (hib : (i, b) ∈ g.blks) : (refsOfBlk b).Nodup := by
  have h := (List.nodup_cons.mp hrefs).2
  obtain ⟨s, t, he⟩ := List.append_of_mem hib
  rw [he, List.map_append, List.flatten_append, List.map_cons,
    List.flatten_cons] at h
  rw [List.nodup_append] at h
  exact (List.nodup_append.mp h.2.1).1

/-- The root block is never a subblock. -/
theorem root_not_ref {g : Graph} (hrefs : (blockRefs g).Nodup)
    {i : Nat} {b : Blk} (hib : (i, b) ∈ g.blks) : g.rootB ∉ refsOfBlk b := by
  intro hx
  exact (List.nodup_cons.mp hrefs).1
    (List.mem_flatten.mpr ⟨refsOfBlk b,
      List.mem_map.mpr ⟨(i, b), hib, rfl⟩, hx⟩)

/-- Correctness of the worklist loop: when each block is referenced at
most once (as in the C++ IR, where every block is owned by one node or
is the root), the loop pops every pending block exactly once, emits
only reachable blocks, and its output is closed under subblock
references.  `acc` is the list of block ids already emitted. -/
theorem travGo_spec (g : Graph)
    (hkeys : (g.blks.map Prod.fst).Nodup)
    (hrefs : (blockRefs g).Nodup)
    (hvalid : ∀ r ∈ blockRefs g, r ∈ g.blks.map Prod.fst) :
    ∀ (fuel : Nat) (sk acc : List Nat),
      g.blks.length - acc.length < fuel →
      (∀ r ∈ sk, r ∈ g.blks.map Prod.fst) →
      (∀ r ∈ acc, r ∈ g.blks.map Prod.fst) →
      (acc ++ sk).Nodup →
      (∀ x ∈ acc ++ sk, x = g.rootB ∨ ∃ i' ∈ acc, ∃ b',
        List.lookup i' g.blks = some b' ∧ x ∈ refsOfBlk b') →
      (∀ r ∈ acc ++ sk, Reach g r) →
      (∀ r ∈ acc, ∀ b, List.lookup r g.blks = some b →
        ∀ x ∈ refsOfBlk b, x ∈ acc ++ sk) →
      (travGo g qdSel fuel sk).Nodup ∧
      (∀ r ∈ travGo g qdSel fuel sk, r ∉ acc) ∧
      (∀ r ∈ travGo g qdSel fuel sk, Reach g r) ∧
      (∀ r ∈ sk, r ∈ travGo g qdSel fuel sk) ∧
      (∀ r ∈ acc ++ travGo g qdSel fuel sk, ∀ b,
        List.lookup r g.blks = some b →
        ∀ x ∈ refsOfBlk b, x ∈ acc ++ travGo g qdSel fuel sk) := by
  intro fuel
  induction fuel with
  | zero => intro sk acc hfuel; exact absurd hfuel (Nat.not_lt_zero _)
  | succ f ih =>
    intro sk acc hfuel hskdom haccdom hnd hsrc hreach hclo
    cases sk with
    | nil =>
      simp only [travGo]
      refine ⟨List.nodup_nil, by simp, by simp, by simp, ?_⟩
      simpa using hclo
    | cons i rest =>
      have hidom : i ∈ g.blks.map Prod.fst :=
        hskdom i (List.mem_cons_self _ _)
      obtain ⟨b, hb⟩ := Option.isSome_iff_exists.mp (lookup_isSome_of_key hidom)
      have hstep : travGo g qdSel (f + 1) (i :: rest)
          = i :: travGo g qdSel f ((refsOfBlk b).reverse ++ rest) := by
        simp only [travGo, hb, pushRefs_qdSel]
      have hib : (i, b) ∈ g.blks := lookup_mem_pairs hb
      have hrefsub : ∀ x ∈ refsOfBlk b, x ∈ blockRefs g := fun x hx =>
        List.mem_cons_of_mem _ (List.mem_flatten.mpr ⟨refsOfBlk b,
          List.mem_map.mpr ⟨(i, b), hib, rfl⟩, hx⟩)
      have hrnd : (refsOfBlk b).Nodup := entry_refs_nodup hrefs hib
      obtain ⟨hndacc, hndir⟩ := List.nodup_append.mp hnd
      obtain ⟨hndirest, hdj1⟩ := hndir
      obtain ⟨hirest, hndrest⟩ := List.nodup_cons.mp hndirest
      have hinacc : i ∉ acc := fun h => hdj1 h (List.mem_cons_self _ _)
      -- anything this block references has never been scheduled before
      have hfresh : ∀ x ∈ refsOfBlk b, x ∉ acc ++ i :: rest := by
        intro x hx hmem
        rcases hsrc x hmem with hroot | ⟨i', hi', b', hb', hx'⟩
        · exact root_not_ref hrefs hib (hroot ▸ hx)
        · have hib' : (i', b') ∈ g.blks := lookup_mem_pairs hb'
          have hii : (i, b) ≠ (i', b') := by
            intro he
            have : i = i' := congrArg Prod.fst he
            exact hinacc (this ▸ hi')
          exact flatten_map_disjoint (fun ib => refsOfBlk ib.2)
            (List.nodup_cons.mp hrefs).2 hib hib' hii hx hx'
      -- invariants for the tail run
      have hskdom' : ∀ r ∈ (refsOfBlk b).reverse ++ rest,
          r ∈ g.blks.map Prod.fst := by
        intro r hr
        rcases List.mem_append.mp hr with h | h
        · exact hvalid r (hrefsub r (List.mem_reverse.mp h))
        · exact hskdom r (List.mem_cons_of_mem _ h)
      have haccdom' : ∀ r ∈ acc ++ [i], r ∈ g.blks.map Prod.fst := by
        intro r hr
        rcases List.mem_append.mp hr with h | h
        · exact haccdom r h
        · rw [List.mem_singleton] at h; exact h ▸ hidom
      have hnd' : ((acc ++ [i]) ++ ((refsOfBlk b).reverse ++ rest)).Nodup := by
        rw [List.nodup_append]
        refine ⟨?_, ?_, ?_⟩
        · rw [List.nodup_append]
          refine ⟨hndacc, List.nodup_singleton i, ?_⟩
          intro a ha hai
          rw [List.mem_singleton] at hai
          exact hdj1 ha (hai ▸ List.mem_cons_self _ _)
        · rw [List.nodup_append]
          refine ⟨List.nodup_reverse.mpr hrnd, hndrest, ?_⟩
          intro a ha har
          exact hfresh a (List.mem_reverse.mp ha)
            (List.mem_append.mpr (Or.inr (List.mem_cons_of_mem _ har)))
        · intro a ha har
          rcases List.mem_append.mp ha with hacc | hai
          · rcases List.mem_append.mp har with h | h
            · exact hfresh a (List.mem_reverse.mp h)
                (List.mem_append.mpr (Or.inl hacc))
            · exact hdj1 hacc (List.mem_cons_of_mem _ h)
          · rw [List.mem_singleton] at hai
            subst hai
            rcases List.mem_append.mp har with h | h
            · exact hfresh a (List.mem_reverse.mp h)
                (List.mem_append.mpr (Or.inr (List.mem_cons_self _ _)))
            · exact hirest h
      have hmem_lift : ∀ x, x ∈ acc ++ i :: rest →
          x ∈ (acc ++ [i]) ++ ((refsOfBlk b).reverse ++ rest) := by
        intro x hx
        rcases List.mem_append.mp hx with h | h
        · exact List.mem_append.mpr (Or.inl (List.mem_append.mpr (Or.inl h)))
        · rcases List.mem_cons.mp h with h | h
          · exact List.mem_append.mpr
              (Or.inl (List.mem_append.mpr (Or.inr (h ▸ List.mem_singleton_self i))))
          · exact List.mem_append.mpr (Or.inr (List.mem_append.mpr (Or.inr h)))
      have hsrc' : ∀ x ∈ (acc ++ [i]) ++ ((refsOfBlk b).reverse ++ rest),
          x = g.rootB ∨ ∃ i' ∈ acc ++ [i], ∃ b',
            List.lookup i' g.blks = some b' ∧ x ∈ refsOfBlk b' := by
        intro x hx
        have hold : ∀ y, y ∈ acc ++ i :: rest →
            y = g.rootB ∨ ∃ i' ∈ acc ++ [i], ∃ b',
              List.lookup i' g.blks = some b' ∧ y ∈ refsOfBlk b' := by
          intro y hy
          rcases hsrc y hy with h | ⟨i', hi', b', hb', hy'⟩
          · exact Or.inl h
          · exact Or.inr ⟨i', List.mem_append.mpr (Or.inl hi'), b', hb', hy'⟩
        rcases List.mem_append.mp hx with h | h
        · rcases List.mem_append.mp h with h | h
          · exact hold x (List.mem_append.mpr (Or.inl h))
          · rw [List.mem_singleton] at h
            exact hold x (List.mem_append.mpr (Or.inr (h ▸ List.mem_cons_self _ _)))
        · rcases List.mem_append.mp h with h | h
          · exact Or.inr ⟨i, List.mem_append.mpr (Or.inr (List.mem_singleton_self i)),
              b, hb, List.mem_reverse.mp h⟩
          · exact hold x (List.mem_append.mpr (Or.inr (List.mem_cons_of_mem _ h)))
      have hreach' : ∀ r ∈ (acc ++ [i]) ++ ((refsOfBlk b).reverse ++ rest),
          Reach g r := by
        intro r hr
        rcases List.mem_append.mp hr with h | h
        · rcases List.mem_append.mp h with h | h
          · exact hreach r (List.mem_append.mpr (Or.inl h))
          · rw [List.mem_singleton] at h
            exact hreach r (List.mem_append.mpr (Or.inr (h ▸ List.mem_cons_self _ _)))
        · rcases List.mem_append.mp h with h | h
          · obtain ⟨n, hn, hrn⟩ := mem_refsOfBlk.mp (List.mem_reverse.mp h)
            exact Reach.step
              (hreach i (List.mem_append.mpr (Or.inr (List.mem_cons_self _ _))))
              hb hn hrn
          · exact hreach r (List.mem_append.mpr (Or.inr (List.mem_cons_of_mem _ h)))
      have hclo' : ∀ r ∈ acc ++ [i], ∀ b',
          List.lookup r g.blks = some b' →
          ∀ x ∈ refsOfBlk b', x ∈ (acc ++ [i]) ++ ((refsOfBlk b).reverse ++ rest) := by
        intro r hr b' hb' x hx
        rcases List.mem_append.mp hr with h | h
        · exact hmem_lift x (hclo r h b' hb' x hx)
        · rw [List.mem_singleton] at h
          subst h
          have : b' = b := by rw [hb] at hb'; cases hb'; rfl
          subst this
          exact List.mem_append.mpr (Or.inr (List.mem_append.mpr
            (Or.inl (List.mem_reverse.mpr hx))))
      have hfuel' : g.blks.length - (acc ++ [i]).length < f := by
        have hndacci : (acc ++ [i]).Nodup := (List.nodup_append.mp hnd').1
        have hsub : acc ++ [i] ⊆ g.blks.map Prod.fst := fun r hr => haccdom' r hr
        have hle : (acc ++ [i]).length ≤ g.blks.length := by
          have := (List.subperm_of_subset hndacci hsub).length_le
          simpa using this
        have hlen : (acc ++ [i]).length = acc.length + 1 := by simp
        omega
      obtain ⟨ihnd, ihdisj, ihreach, ihsub, ihclo⟩ :=
        ih ((refsOfBlk b).reverse ++ rest) (acc ++ [i]) hfuel'
          hskdom' haccdom' hnd' hsrc' hreach' hclo'
      rw [hstep]
      have hout_sets : ∀ x, x ∈ (acc ++ [i]) ++ travGo g qdSel f ((refsOfBlk b).reverse ++ rest) ↔
          x ∈ acc ++ i :: travGo g qdSel f ((refsOfBlk b).reverse ++ rest) := by
        intro x
        simp only [List.mem_append, List.mem_cons, List.mem_singleton]
        tauto
      refine ⟨?_, ?_, ?_, ?_, ?_⟩
      · rw [List.nodup_cons]
        refine ⟨?_, ihnd⟩
        intro h
        exact ihdisj _ h (List.mem_append.mpr (Or.inr (List.mem_singleton_self i)))
      · intro r hr
        rcases List.mem_cons.mp hr with h | h
        · exact h ▸ hinacc
        · intro hracc
          exact ihdisj r h (List.mem_append.mpr (Or.inl hracc))
      · intro r hr
        rcases List.mem_cons.mp hr with h | h
        · exact h ▸ hreach i (List.mem_append.mpr (Or.inr (List.mem_cons_self _ _)))
        · exact ihreach r h
      · intro r hr
        rcases List.mem_cons.mp hr with h | h
        · exact h ▸ List.mem_cons_self _ _
        · exact List.mem_cons_of_mem _
            (ihsub r (List.mem_append.mpr (Or.inr h)))
      · intro r hr b' hb' x hx
        rw [← hout_sets]
        exact ihclo r ((hout_sets r).mpr hr) b' hb' x hx

/-- Reachable block ids are arena keys. -/
theorem reach_valid {g : Graph}
    (hvalid : ∀ r ∈ blockRefs g, r ∈ g.blks.map Prod.fst) {j : Nat}
    (h : Reach g j) : j ∈ g.blks.map Prod.fst := by
  induction h with
  | root => exact hvalid _ (List.mem_cons_self _ _)
  | @step i b n j' _ hb hn hj _ =>
    exact hvalid _ (List.mem_cons_of_mem _ (List.mem_flatten.mpr
      ⟨refsOfBlk b, List.mem_map.mpr ⟨(i, b), lookup_mem_pairs hb, rfl⟩,
       mem_refsOfBlk.mpr ⟨n, hn, hj⟩⟩))

/-- The `InsertQuantDequantNodes` traversal emits exactly the reachable
blocks, each exactly once. -/
theorem traverseIds_spec (g : Graph)
    (hkeys : (g.blks.map Prod.fst).Nodup)
    (hrefs : (blockRefs g).Nodup)
    (hvalid : ∀ r ∈ blockRefs g, r ∈ g.blks.map Prod.fst) :
    (∀ i, i ∈ traverseIds qdSel g ↔ Reach g i) ∧
    (traverseIds qdSel g).Nodup := by
  have hroot : g.rootB ∈ g.blks.map Prod.fst :=
    hvalid _ (List.mem_cons_self _ _)
  obtain ⟨hnd, hdisj, hreach, hsub, hclo⟩ :=
    travGo_spec g hkeys hrefs hvalid (g.blks.length + totalRefs g + 2)
      [g.rootB] []
      (by omega)
      (by intro r hr; rw [List.mem_singleton] at hr; exact hr ▸ hroot)
      (by intro r hr; cases hr)
      (by simp)
      (by intro x hx; simp at hx; exact Or.inl hx)
      (by intro r hr; simp at hr; exact hr ▸ Reach.root)
      (by intro r hr; cases hr)
  refine ⟨fun i => ⟨fun h => hreach i h, fun h => ?_⟩, hnd⟩
  induction h with
  | root => exact hsub _ (List.mem_singleton_self _)
  | @step i' b n j hri hb hn hj iih =>
    have := hclo i' (by simpa using iih) b hb j (mem_refsOfBlk.mpr ⟨n, hn, hj⟩)
    simpa using this

/-- When every node carrying subblocks passes the observer pass's
per-node gate (true of all control-flow nodes), the two passes pop the
same block sequence. -/
theorem travGo_sel_congr (g : Graph)
    (hctrl : ∀ n ∈ allNds g, n.subs ≠ [] → outputsNeedToBeObserved n = true) :
    ∀ (fuel : Nat) (sk : List Nat),
      travGo g obsSel fuel sk = travGo g qdSel fuel sk := by
  have hpush : ∀ i b, (i, b) ∈ g.blks → pushRefs obsSel b = pushRefs qdSel b := by
    intro i b hib
    rw [pushRefs_qdSel, pushRefs]
    have : ∀ ns : List Nd, (∀ n ∈ ns, n ∈ allNds g) →
        ((ns.filter obsSel).map Nd.subs).flatten = (ns.map Nd.subs).flatten := by
      intro ns
      induction ns with
      | nil => intro _; rfl
      | cons n t iht =>
        intro hall
        rw [List.filter_cons]
        by_cases hsel : obsSel n = true
        · rw [if_pos hsel, List.map_cons, List.flatten_cons, List.map_cons,
            List.flatten_cons, iht (fun m hm => hall m (List.mem_cons_of_mem _ hm))]
        · have hsubs : n.subs = [] := by
            by_contra hne
            exact hsel (hctrl n (hall n (List.mem_cons_self _ _)) hne)
          rw [if_neg hsel, List.map_cons, List.flatten_cons, hsubs,
            List.nil_append, iht (fun m hm => hall m (List.mem_cons_of_mem _ hm))]
    rw [this b.nodes (fun n hn => List.mem_flatten.mpr
      ⟨b.nodes, List.mem_map.mpr ⟨(i, b), hib, rfl⟩, hn⟩), refsOfBlk]
  intro fuel
  induction fuel with
  | zero => intro sk; rfl
  | succ f ihf =>
    intro sk
    cases sk with
    | nil => rfl
    | cons i rest =>
      cases hb : List.lookup i g.blks with
      | none => simp only [travGo, hb]; exact ihf rest
      | some b =>
        simp only [travGo, hb]
        rw [hpush i b (lookup_mem_pairs hb), ihf]

/-- Generic form of `entry_refs_nodup`: each entry's image in a
duplicate-free flattened map is itself duplicate-free. -/
theorem flatten_map_entry_nodup {A γ : Type} (F : A → List γ) {L : List A}
    (h : ((L.map F).flatten).Nodup) {a : A} (ha : a ∈ L) : (F a).Nodup := by
  obtain ⟨s, t, rfl⟩ := List.append_of_mem ha
  rw [List.map_append, List.flatten_append, List.map_cons, List.flatten_cons,
    List.nodup_append] at h
  exact (List.nodup_append.mp h.2.1).1

theorem allNids_eq (g : Graph) :
    allNids g = ((g.blks.map (fun ib => ib.2.nodes.map Nd.nid)).flatten) := by
  rw [allNids, allNds, List.map_flatten, List.map_map]
  rfl

/-- Node ids in the visit sequence of a duplicate-free id list are
duplicate-free. -/
theorem visit_nid_nodup (g : Graph) (hnids : (allNids g).Nodup) :
    ∀ ids : List Nat, ids.Nodup →
      ((((ids.filterMap (fun i => List.lookup i g.blks)).map
          (fun b => b.nodes.map Nd.nid)).flatten)).Nodup := by
  have hflat := (allNids_eq g) ▸ hnids
  intro ids
  induction ids with
  | nil => intro _; exact List.nodup_nil
  | cons i t iht =>
    intro hnd
    obtain ⟨hit, hndt⟩ := List.nodup_cons.mp hnd
    rw [List.filterMap_cons]
    cases hb : List.lookup i g.blks with
    | none => exact iht hndt
    | some b =>
      rw [List.map_cons, List.flatten_cons, List.nodup_append]
      refine ⟨?_, iht hndt, ?_⟩
      · exact flatten_map_entry_nodup (fun ib => ib.2.nodes.map Nd.nid) hflat
          (lookup_mem_pairs hb)
      · intro x hx hxr
        rw [List.mem_flatten] at hxr
        obtain ⟨l, hl, hxl⟩ := hxr
        rw [List.mem_map] at hl
        obtain ⟨b', hb', rfl⟩ := hl
        rw [List.mem_filterMap] at hb'
        obtain ⟨j, hj, hjb⟩ := hb'
        have hij : (i, b) ≠ (j, b') := by
          intro he
          have : i = j := congrArg Prod.fst he
          exact hit (this ▸ hj)
        exact flatten_map_disjoint (fun ib => ib.2.nodes.map Nd.nid) hflat
          (lookup_mem_pairs hb) (lookup_mem_pairs hjb) hij hx hxl

/-- Claim C4: both passes visit every node reachable from the root
block exactly once, including nodes nested in control-flow subblocks at
any depth, with each block's own nodes visited in stored order.
Clauses: (1) a block id is popped iff it is reachable; (2) no block
popped twice; (3) a node is visited iff it belongs to a reachable
block; (4) no node visited twice; (5) each reachable block's nodes
appear in the visit sequence contiguously, in stored order; (6) the
`InsertObserverNodes` traversal pops the same block sequence as the
`InsertQuantDequantNodes` traversal (its per-node gate only skips
scheduling for `prim::Constant`/`prim::PythonOp` nodes, which carry no
blocks). -/
theorem c4_traversal_visits_once (g : Graph)
    (hkeys : (g.blks.map Prod.fst).Nodup)
    (hrefs : (blockRefs g).Nodup)
    (hvalid : ∀ r ∈ blockRefs g, r ∈ g.blks.map Prod.fst)
    (hnids : (allNids g).Nodup)
    (hctrl : ∀ n ∈ allNds g, n.subs ≠ [] → outputsNeedToBeObserved n = true) :
    (∀ i, i ∈ traverseIds qdSel g ↔ Reach g i) ∧
    (traverseIds qdSel g).Nodup ∧
    (∀ n, n ∈ visitNds qdSel g ↔
      ∃ i b, Reach g i ∧ List.lookup i g.blks = some b ∧ n ∈ b.nodes) ∧
    ((visitNds qdSel g).map Nd.nid).Nodup ∧
    (∀ i b, Reach g i → List.lookup i g.blks = some b →
      ∃ pre post, visitNds qdSel g = pre ++ b.nodes ++ post) ∧
    traverseIds obsSel g = traverseIds qdSel g := by
  obtain ⟨hiff, hnd⟩ := traverseIds_spec g hkeys hrefs hvalid
  refine ⟨hiff, hnd, ?_, ?_, ?_, ?_⟩
  · intro n
    constructor
    · intro hn
      rw [visitNds, List.mem_flatten] at hn
      obtain ⟨ns, hns, hnn⟩ := hn
      rw [List.mem_map] at hns
      obtain ⟨b, hb, rfl⟩ := hns
      rw [traverseBlks, List.mem_filterMap] at hb
      obtain ⟨i, hi, hib⟩ := hb
      exact ⟨i, b, (hiff i).mp hi, hib, hnn⟩
    · intro ⟨i, b, hri, hib, hnb⟩
      rw [visitNds, List.mem_flatten]
      refine ⟨b.nodes, List.mem_map.mpr ⟨b, ?_, rfl⟩, hnb⟩
      rw [traverseBlks, List.mem_filterMap]
      exact ⟨i, (hiff i).mpr hri, hib⟩
  · have := visit_nid_nodup g hnids (traverseIds qdSel g) hnd
    rw [visitNds, List.map_flatten, List.map_map]
    exact this
  · intro i b hri hib
    have hi : i ∈ traverseIds qdSel g := (hiff i).mpr hri
    obtain ⟨s, t, he⟩ := List.append_of_mem hi
    refine ⟨(((s.filterMap (fun j => List.lookup j g.blks)).map Blk.nodes).flatten),
      (((t.filterMap (fun j => List.lookup j g.blks)).map Blk.nodes).flatten), ?_⟩
    simp only [visitNds, traverseBlks, he, List.filterMap_append,
      List.filterMap_cons, hib, List.map_append, List.map_cons,
      List.flatten_append, List.flatten_cons]
    rw [List.append_assoc]
  · rw [traverseIds, traverseIds, travGo_sel_congr g hctrl]

theorem c4_traversal_visits_once_witness :
    ((visitNds qdSel gC4).map Nd.nid).Nodup ∧
    traverseIds obsSel gC4 = traverseIds qdSel gC4 :=
  ⟨(c4_traversal_visits_once gC4 (by decide) (by decide) (by decide)
      (by decide) (by decide)).2.2.2.1,
   (c4_traversal_visits_once gC4 (by decide) (by decide) (by decide)
      (by decide) (by decide)).2.2.2.2.2⟩

/-! ### Structural lemmas about the edit primitives -/

theorem insBefL_not_mem {a : Nat} {ns l : List Nd}
    (h : a ∉ l.map Nd.nid) : insBefL a ns l = l := by
  induction l with
  | nil => rfl
  | cons n t ih =>
    rw [insBefL, if_neg, ih (fun hm => h (List.mem_cons_of_mem _ hm))]
    intro he
    exact h (he ▸ List.mem_cons_self _ _)

theorem insAftL_not_mem {a : Nat} {ns l : List Nd}
    (h : a ∉ l.map Nd.nid) : insAftL a ns l = l := by
  induction l with
  | nil => rfl
  | cons n t ih =>
    rw [insAftL, if_neg, ih (fun hm => h (List.mem_cons_of_mem _ hm))]
    intro he
    exact h (he ▸ List.mem_cons_self _ _)

theorem insBefL_append_skip {a : Nat} {ns : List Nd} (P : List Nd)
    (l : List Nd) (h : a ∉ P.map Nd.nid) :
    insBefL a ns (P ++ l) = P ++ insBefL a ns l := by
  induction P with
  | nil => rfl
  | cons p t ih =>
    rw [List.cons_append, insBefL, if_neg, List.cons_append,
      ih (fun hm => h (List.mem_cons_of_mem _ hm))]
    intro he
    exact h (he ▸ List.mem_cons_self _ _)

theorem insAftL_append_skip {a : Nat} {ns : List Nd} (P : List Nd)
    (l : List Nd) (h : a ∉ P.map Nd.nid) :
    insAftL a ns (P ++ l) = P ++ insAftL a ns l := by
  induction P with
  | nil => rfl
  | cons p t ih =>
    rw [List.cons_append, insAftL, if_neg, List.cons_append,
      ih (fun hm => h (List.mem_cons_of_mem _ hm))]
    intro he
    exact h (he ▸ List.mem_cons_self _ _)

theorem insBefL_head {a : Nat} {ns : List Nd} {n : Nd} (l : List Nd)
    (h : n.nid = a) : insBefL a ns (n :: l) = ns ++ n :: l := by
  rw [insBefL, if_pos h]

theorem mem_insBefL {a : Nat} {ns l : List Nd} {x : Nd}
    (h : x ∈ insBefL a ns l) : x ∈ l ∨ x ∈ ns := by
  induction l with
  | nil => cases h
  | cons n t ih =>
    rw [insBefL] at h
    split at h
    · rcases List.mem_append.mp h with h | h
      · exact Or.inr h
      · exact Or.inl h
    · rcases List.mem_cons.mp h with h | h
      · exact Or.inl (h ▸ List.mem_cons_self _ _)
      · rcases ih h with h | h
        · exact Or.inl (List.mem_cons_of_mem _ h)
        · exact Or.inr h

theorem mem_insAftL {a : Nat} {ns l : List Nd} {x : Nd}
    (h : x ∈ insAftL a ns l) : x ∈ l ∨ x ∈ ns := by
  induction l with
  | nil => cases h
  | cons n t ih =>
    rw [insAftL] at h
    split at h
    · rcases List.mem_cons.mp h with h | h
      · exact Or.inl (h ▸ List.mem_cons_self _ _)
      · rcases List.mem_append.mp h with h | h
        · exact Or.inr h
        · exact Or.inl (List.mem_cons_of_mem _ h)
    · rcases List.mem_cons.mp h with h | h
      · exact Or.inl (h ▸ List.mem_cons_self _ _)
      · rcases ih h with h | h
        · exact Or.inl (List.mem_cons_of_mem _ h)
        · exact Or.inr h

/-- Lookup through a key-preserving map of an association list. -/
theorem lookup_map_keyed {β γ : Type} (f : Nat → β → γ) (l : List (Nat × β))
    (k : Nat) :
    List.lookup k (l.map (fun p => (p.1, f p.1 p.2))) =
      (List.lookup k l).map (f k) := by
  induction l with
  | nil => rfl
  | cons p t ih =>
    rw [List.map_cons, List.lookup, List.lookup]
    cases hbe : (k == p.1) with
    | true =>
      simp only [hbe]
      rw [beq_iff_eq.mp hbe]
      rfl
    | false =>
      simp only [hbe]
      exact ih

/-- Lookup in an association list with only large keys misses small
keys. -/
theorem lookup_none_of_lt {β : Type} {l : List (Nat × β)} {v f : Nat}
    (hv : v < f) (h : ∀ e ∈ l, f ≤ e.1) : List.lookup v l = none := by
  induction l with
  | nil => rfl
  | cons p t ih =>
    rw [List.lookup]
    cases hbe : (v == p.1) with
    | true =>
      exfalso
      have h1 := h p (List.mem_cons_self _ _)
      have h2 := beq_iff_eq.mp hbe
      omega
    | false =>
      simp only [hbe]
      exact ih (fun e he => h e (List.mem_cons_of_mem _ he))

theorem lookup_append_left {β : Type} {l₁ l₂ : List (Nat × β)} {v : Nat} :
    List.lookup v l₁ = none → List.lookup v (l₁ ++ l₂) = List.lookup v l₂ := by
  induction l₁ with
  | nil => intro _; rfl
  | cons p t ih =>
    intro h
    rw [List.lookup] at h
    rw [List.cons_append, List.lookup]
    cases hbe : (v == p.1) with
    | true => rw [hbe] at h; cases h
    | false =>
      rw [hbe] at h
      simp only [hbe]
      exact ih h

theorem lookup_append_some {β : Type} {l₁ l₂ : List (Nat × β)} {v : Nat}
    {b : β} (h : List.lookup v l₁ = some b) :
    List.lookup v (l₁ ++ l₂) = some b := by
  induction l₁ with
  | nil => cases h
  | cons p t ih =>
    rw [List.lookup] at h
    rw [List.cons_append, List.lookup]
    cases hbe : (v == p.1) with
    | true => rw [hbe] at h; simp only [hbe]; exact h
    | false => rw [hbe] at h; simp only [hbe]; exact ih h

/-- Value metadata of old values survives appending fresh entries. -/
theorem lookup_vals_ext {E : List (Nat × VInfo)} {vals : List (Nat × VInfo)}
    {v f : Nat} (hv : v < f) (hE : ∀ e ∈ E, f ≤ e.1) :
    List.lookup v (vals ++ E) = List.lookup v vals := by
  cases h : List.lookup v vals with
  | none => rw [lookup_append_left h, lookup_none_of_lt hv hE]
  | some i => exact lookup_append_some h

theorem nameOf_ext {g ga : Graph} {E : List (Nat × VInfo)} {v : Nat}
    (hvals : ga.vals = g.vals ++ E) (hE : ∀ e ∈ E, g.fresh ≤ e.1)
    (hv : v < g.fresh) : nameOf ga v = nameOf g v := by
  rw [nameOf, nameOf, hvals, lookup_vals_ext hv hE]

theorem tensorOf_ext {g ga : Graph} {E : List (Nat × VInfo)} {v : Nat}
    (hvals : ga.vals = g.vals ++ E) (hE : ∀ e ∈ E, g.fresh ≤ e.1)
    (hv : v < g.fresh) : tensorOf ga v = tensorOf g v := by
  rw [tensorOf, tensorOf, hvals, lookup_vals_ext hv hE]

theorem lookup_eq_of_mem_nodup {β : Type} {l : List (Nat × β)} {k : Nat}
    {b : β} (hmem : (k, b) ∈ l) (hkeys : (l.map Prod.fst).Nodup) :
    List.lookup k l = some b := by
  induction l with
  | nil => cases hmem
  | cons p t ih =>
    rw [List.map_cons, List.nodup_cons] at hkeys
    cases hmem with
    | head =>
      rw [List.lookup]
      simp
    | tail _ hm =>
      rw [List.lookup]
      cases hbe : (k == p.1) with
      | true =>
        exfalso
        apply hkeys.1
        rw [← beq_iff_eq.mp hbe]
        exact List.mem_map.mpr ⟨(k, b), hm, rfl⟩
      | false => simp only [hbe]; exact ih hm hkeys.2

/-- Distinct blocks have disjoint node-id lists. -/
theorem nid_disjoint_blocks {g : Graph} (hnids : (allNids g).Nodup)
    {i1 i2 : Nat} {b1 b2 : Blk} (h1 : (i1, b1) ∈ g.blks)
    (h2 : (i2, b2) ∈ g.blks) (hne : i1 ≠ i2) {x : Nat}
    (hx1 : x ∈ b1.nodes.map Nd.nid) : x ∉ b2.nodes.map Nd.nid := by
  intro hx2
  exact flatten_map_disjoint (fun ib => ib.2.nodes.map Nd.nid)
    ((allNids_eq g) ▸ hnids) h1 h2
    (fun he => hne (congrArg Prod.fst he)) hx1 hx2

theorem idsBound_spec {g : Graph} (h : idsBound g = true) :
    (∀ v ∈ g.gins, v < g.fresh) ∧
    (∀ e ∈ g.vals, e.1 < g.fresh) ∧
    (∀ n ∈ allNds g, n.nid < g.fresh ∧ (∀ i ∈ n.ins, i < g.fresh) ∧
      (∀ o ∈ n.outs, o < g.fresh)) ∧
    (∀ ib ∈ g.blks, ∀ v ∈ ib.2.bouts, v < g.fresh) := by
  rw [idsBound] at h
  simp only [Bool.and_eq_true, List.all_eq_true, decide_eq_true_eq] at h
  obtain ⟨⟨⟨h1, h2⟩, h3⟩, h4⟩ := h
  refine ⟨h1, ?_, ?_, h4⟩
  · intro e he
    exact h2 e.1 (List.mem_map.mpr ⟨e, he, rfl⟩)
  · intro n hn
    obtain ⟨⟨ha, hb⟩, hc⟩ := h3 n hn
    exact ⟨ha, hb, hc⟩

/-- The nodes of a root-block entry are among the graph's nodes. -/
theorem mem_allNds_of_entry {g : Graph} {i : Nat} {b : Blk}
    (hib : (i, b) ∈ g.blks) {n : Nd} (hn : n ∈ b.nodes) : n ∈ allNds g :=
  List.mem_flatten.mpr ⟨b.nodes, List.mem_map.mpr ⟨(i, b), hib, rfl⟩, hn⟩

theorem pairsFrom_bounds (g : Graph) (f0 : Nat) :
    ∀ (items : List (Nat × ObsTemplate)) (f : Nat), f0 ≤ f →
      ∀ n ∈ pairsFrom g f items, f0 ≤ n.nid ∧ ∀ o ∈ n.outs, f0 ≤ o := by
  intro items
  induction items with
  | nil => intro f _ n hn; cases hn
  | cons vt rest ih =>
    intro f hf n hn
    rw [pairsFrom] at hn
    rcases List.mem_append.mp hn with h | h
    · rw [mkPair] at h
      rcases List.mem_cons.mp h with h | h
      · subst h
        refine ⟨hf, ?_⟩
        intro o ho
        rw [List.mem_singleton] at ho
        omega
      · rw [List.mem_singleton] at h
        subst h
        constructor
        · show f0 ≤ f + 2
          omega
        · intro o ho
          rcases List.mem_append.mp ho with h1 | h1
          · obtain ⟨j, hj, he⟩ := List.mem_map.mp h1
            rw [← he]
            omega
          · rw [List.mem_singleton] at h1
            omega
    · exact ih (f + 4 + vt.2.touts.length) (by omega) n h

/-! ### Frame facts for the edit primitives -/

theorem onBlks_rootB (f : Blk → Blk) (g : Graph) : (onBlks f g).rootB = g.rootB := rfl

theorem onBlks_gins (f : Blk → Blk) (g : Graph) : (onBlks f g).gins = g.gins := rfl

theorem onBlks_vals (f : Blk → Blk) (g : Graph) : (onBlks f g).vals = g.vals := rfl

theorem onBlks_fresh (f : Blk → Blk) (g : Graph) : (onBlks f g).fresh = g.fresh := rfl

theorem appendRootG_frame (g : Graph) (ns : List Nd) :
    (appendRootG g ns).rootB = g.rootB ∧ (appendRootG g ns).gins = g.gins ∧
    (appendRootG g ns).vals = g.vals ∧ (appendRootG g ns).fresh = g.fresh :=
  ⟨rfl, rfl, rfl, rfl⟩

theorem insertAtAnchor_frame (g : Graph) (anchor : Option Nat) (after : Bool)
    (ns : List Nd) :
    (insertAtAnchor g anchor after ns).rootB = g.rootB ∧
    (insertAtAnchor g anchor after ns).gins = g.gins ∧
    (insertAtAnchor g anchor after ns).vals = g.vals ∧
    (insertAtAnchor g anchor after ns).fresh = g.fresh := by
  cases anchor with
  | none => exact ⟨rfl, rfl, rfl, rfl⟩
  | some a => cases after <;> exact ⟨rfl, rfl, rfl, rfl⟩

/-! ### The input-observer phase lays its pairs down at the start of
the root block (claims C5/C6) -/

/-- Inserting fresh nodes at the input-phase anchor (before the
original first node of the root block, or appended when the root block
has no nodes) extends the accumulated prefix `Q`. -/
theorem insertAtAnchor_input_spec (g : Graph)
    (hkeys : (g.blks.map Prod.fst).Nodup) (hnids : (allNids g).Nodup)
    (hbound : idsBound g = true)
    (hroot : (List.lookup g.rootB g.blks).isSome = true)
    (ga : Graph) (Q ns : List Nd)
    (hrb : ga.rootB = g.rootB)
    (hblks : ga.blks = g.blks.map (fun ib =>
      if ib.1 = g.rootB then (ib.1, (⟨Q ++ ib.2.nodes, ib.2.bouts⟩ : Blk)) else ib))
    (hQ : ∀ n ∈ Q, g.fresh ≤ n.nid) :
    (insertAtAnchor ga ((rootNodes g).head?.map Nd.nid) false ns).blks =
      g.blks.map (fun ib =>
        if ib.1 = g.rootB then
          (ib.1, (⟨(Q ++ ns) ++ ib.2.nodes, ib.2.bouts⟩ : Blk)) else ib) := by
  obtain ⟨rb, hrbk⟩ := Option.isSome_iff_exists.mp hroot
  have hrbmem : (g.rootB, rb) ∈ g.blks := lookup_mem_pairs hrbk
  have hRN : rootNodes g = rb.nodes := by rw [rootNodes, hrbk]; rfl
  cases hh : rb.nodes with
  | nil =>
    have hanch : (rootNodes g).head?.map Nd.nid = none := by
      rw [hRN, hh]; rfl
    rw [hanch]
    show (appendRootG ga ns).blks = _
    rw [appendRootG, hblks, hrb, List.map_map]
    apply List.map_congr_left
    intro ib hib
    by_cases h1 : ib.1 = g.rootB
    · have hib2 : ib.2 = rb := by
        have h2 : List.lookup ib.1 g.blks = some ib.2 :=
          lookup_eq_of_mem_nodup (by rw [← Prod.mk.eta (p := ib)] at hib; exact hib) hkeys
        rw [h1, hrbk] at h2
        cases h2; rfl
      simp only [Function.comp_apply, if_pos h1]
      rw [hib2, hh]
      simp
    · simp only [Function.comp_apply, if_neg h1]
  | cons n0 tl =>
    have hanch : (rootNodes g).head?.map Nd.nid = some n0.nid := by
      rw [hRN, hh]; rfl
    rw [hanch]
    have ha : n0.nid < g.fresh :=
      ((idsBound_spec hbound).2.2.1 n0
        (mem_allNds_of_entry hrbmem (by rw [hh]; exact List.mem_cons_self _ _))).1
    show (insBeforeG ga n0.nid ns).blks = _
    rw [insBeforeG, onBlks, hblks, List.map_map]
    apply List.map_congr_left
    intro ib hib
    by_cases h1 : ib.1 = g.rootB
    · have hib2 : ib.2 = rb := by
        have h2 : List.lookup ib.1 g.blks = some ib.2 :=
          lookup_eq_of_mem_nodup (by rw [← Prod.mk.eta (p := ib)] at hib; exact hib) hkeys
        rw [h1, hrbk] at h2
        cases h2; rfl
      simp only [Function.comp_apply, if_pos h1]
      rw [hib2, hh, insBefL_append_skip Q (n0 :: tl) ?hQa, insBefL_head tl rfl,
        List.append_assoc]
      case hQa =>
        intro hmem
        obtain ⟨q, hq, hqe⟩ := List.mem_map.mp hmem
        have := hQ q hq
        omega
    · simp only [Function.comp_apply, if_neg h1]
      have hnotin : n0.nid ∉ ib.2.nodes.map Nd.nid := by
        apply nid_disjoint_blocks hnids hrbmem
          (by rw [← Prod.mk.eta (p := ib)] at hib; exact hib)
        · intro he; exact h1 he.symm
        · exact List.mem_map.mpr ⟨n0, by rw [hh]; exact List.mem_cons_self _ _, rfl⟩
      rw [insBefL_not_mem hnotin]

/-- One input-phase `addObserverFor` call appends exactly the
constant/observer pair of `mkPair` to the accumulated root prefix. -/
theorem addObserverFor_input_spec (g : Graph)
    (hkeys : (g.blks.map Prod.fst).Nodup) (hnids : (allNids g).Nodup)
    (hbound : idsBound g = true)
    (hroot : (List.lookup g.rootB g.blks).isSome = true)
    (ga : Graph) (P : List Nd) (v : Nat) (t : ObsTemplate)
    (hrb : ga.rootB = g.rootB) (hgi : ga.gins = g.gins)
    (hblks : ga.blks = g.blks.map (fun ib =>
      if ib.1 = g.rootB then (ib.1, (⟨P ++ ib.2.nodes, ib.2.bouts⟩ : Blk)) else ib))
    (hvals : ∃ E, ga.vals = g.vals ++ E ∧ ∀ e ∈ E, g.fresh ≤ e.1)
    (hfr : g.fresh ≤ ga.fresh)
    (hP : ∀ n ∈ P, g.fresh ≤ n.nid)
    (hv : v < g.fresh) :
    (addObserverFor ga v t ((rootNodes g).head?.map Nd.nid) false).rootB = g.rootB ∧
    (addObserverFor ga v t ((rootNodes g).head?.map Nd.nid) false).gins = g.gins ∧
    (addObserverFor ga v t ((rootNodes g).head?.map Nd.nid) false).blks =
      g.blks.map (fun ib =>
        if ib.1 = g.rootB then
          (ib.1, (⟨(P ++ mkPair g ga.fresh v t) ++ ib.2.nodes, ib.2.bouts⟩ : Blk))
        else ib) ∧
    (∃ E, (addObserverFor ga v t ((rootNodes g).head?.map Nd.nid) false).vals =
      g.vals ++ E ∧ ∀ e ∈ E, g.fresh ≤ e.1) ∧
    (addObserverFor ga v t ((rootNodes g).head?.map Nd.nid) false).fresh =
      ga.fresh + 4 + t.touts.length := by
  obtain ⟨E, hvE, hEb⟩ := hvals
  have hname : nameOf ga v = nameOf g v := nameOf_ext hvE hEb hv
  set anch := (rootNodes g).head?.map Nd.nid with hanch
  set cNode : Nd :=
    ⟨ga.fresh, "prim::Constant", [], [ga.fresh + 1], .vstr (nameOf ga v), []⟩
    with hcN
  set oNode : Nd :=
    ⟨ga.fresh + 2, t.op, t.tins ++ [v, ga.fresh + 1],
     ((List.range t.touts.length).map (fun j => ga.fresh + 3 + j)) ++
       [ga.fresh + 3 + t.touts.length], .vnone, []⟩ with hoN
  have hg1 := insertAtAnchor_input_spec g hkeys hnids hbound hroot ga P [cNode]
    hrb hblks hP
  have hfr1 := insertAtAnchor_frame ga anch false [cNode]
  have hg2 := insertAtAnchor_input_spec g hkeys hnids hbound hroot
    (insertAtAnchor ga anch false [cNode]) (P ++ [cNode]) [oNode]
    (by rw [hfr1.1, hrb]) hg1
    (by
      intro n hn
      rcases List.mem_append.mp hn with h | h
      · exact hP n h
      · rw [List.mem_singleton] at h
        subst h
        exact hfr)
  have hfr2 := insertAtAnchor_frame (insertAtAnchor ga anch false [cNode])
    anch false [oNode]
  have hpair : (P ++ [cNode]) ++ [oNode] = P ++ mkPair g ga.fresh v t := by
    rw [mkPair, ← hname, List.append_assoc]
    rfl
  refine ⟨?_, ?_, ?_, ?_, ?_⟩
  · show (insertAtAnchor _ anch false [oNode]).rootB = g.rootB
    rw [hfr2.1, hfr1.1, hrb]
  · show (insertAtAnchor _ anch false [oNode]).gins = g.gins
    rw [hfr2.2.1, hfr1.2.1, hgi]
  · show (insertAtAnchor _ anch false [oNode]).blks = _
    rw [hg2, ← hpair]
  · show ∃ E', (insertAtAnchor (insertAtAnchor ga anch false [cNode])
        anch false [oNode]).vals
      ++ [(ga.fresh + 1, ⟨"c" ++ toString (ga.fresh + 1), false⟩)]
      ++ (((List.range t.touts.length).map (fun j => ga.fresh + 3 + j)).zip t.touts)
      ++ [(ga.fresh + 3 + t.touts.length,
           ⟨nameOf ga v ++ ".observed", tensorOf ga v⟩)] = g.vals ++ E' ∧
      ∀ e ∈ E', g.fresh ≤ e.1
    rw [hfr2.2.2.1, hfr1.2.2.1, hvE]
    refine ⟨E ++ [(ga.fresh + 1, ⟨"c" ++ toString (ga.fresh + 1), false⟩)]
      ++ (((List.range t.touts.length).map (fun j => ga.fresh + 3 + j)).zip t.touts)
      ++ [(ga.fresh + 3 + t.touts.length,
           ⟨nameOf ga v ++ ".observed", tensorOf ga v⟩)],
      by simp [List.append_assoc], ?_⟩
    intro e he
    rcases List.mem_append.mp he with h | h
    · rcases List.mem_append.mp h with h | h
      · rcases List.mem_append.mp h with h | h
        · exact hEb e h
        · rw [List.mem_singleton] at h
          subst h
          omega
      · obtain ⟨hk, -⟩ := List.of_mem_zip h
        obtain ⟨j, hj, he⟩ := List.mem_map.mp hk
        show g.fresh ≤ e.1
        omega
    · rw [List.mem_singleton] at h
      subst h
      show g.fresh ≤ ga.fresh + 3 + t.touts.length
      omega
  · rfl

/-- The whole input-instrumentation loop: it lays down exactly the
`pairsFrom`/`eligFrom` prefix at the start of the root block and leaves
everything else alone. -/
theorem inputFold_spec (g : Graph)
    (hkeys : (g.blks.map Prod.fst).Nodup) (hnids : (allNids g).Nodup)
    (hbound : idsBound g = true)
    (hroot : (List.lookup g.rootB g.blks).isSome = true)
    (psi : Nat) (actT parT : Option ObsTemplate) :
    ∀ (l : List (Nat × Nat)) (ga : Graph) (P : List Nd),
      (∀ iv ∈ l, iv.2 ∈ g.gins) →
      ga.rootB = g.rootB → ga.gins = g.gins →
      ga.blks = g.blks.map (fun ib =>
        if ib.1 = g.rootB then (ib.1, (⟨P ++ ib.2.nodes, ib.2.bouts⟩ : Blk)) else ib) →
      (∃ E, ga.vals = g.vals ++ E ∧ ∀ e ∈ E, g.fresh ≤ e.1) →
      g.fresh ≤ ga.fresh →
      (∀ n ∈ P, g.fresh ≤ n.nid) →
      (l.foldl (obsInputStep psi actT parT ((rootNodes g).head?.map Nd.nid)) ga).rootB
        = g.rootB ∧
      (l.foldl (obsInputStep psi actT parT ((rootNodes g).head?.map Nd.nid)) ga).gins
        = g.gins ∧
      (l.foldl (obsInputStep psi actT parT ((rootNodes g).head?.map Nd.nid)) ga).blks
        = g.blks.map (fun ib =>
          if ib.1 = g.rootB then
            (ib.1, (⟨(P ++ pairsFrom g ga.fresh (eligFrom g psi actT parT l))
              ++ ib.2.nodes, ib.2.bouts⟩ : Blk)) else ib) ∧
      (∃ E, (l.foldl (obsInputStep psi actT parT ((rootNodes g).head?.map Nd.nid)) ga).vals
        = g.vals ++ E ∧ ∀ e ∈ E, g.fresh ≤ e.1) ∧
      g.fresh ≤ (l.foldl (obsInputStep psi actT parT ((rootNodes g).head?.map Nd.nid)) ga).fresh := by
  intro l
  induction l with
  | nil =>
    intro ga P _ h1 h2 h3 h4 h5 h6
    refine ⟨h1, h2, ?_, h4, h5⟩
    rw [List.foldl_nil, h3]
    simp [eligFrom, pairsFrom]
  | cons iv rest ih =>
    intro ga P hll h1 h2 h3 h4 h5 h6
    have hvin : iv.2 ∈ g.gins := hll iv (List.mem_cons_self _ _)
    have hvlt : iv.2 < g.fresh := (idsBound_spec hbound).1 iv.2 hvin
    obtain ⟨E, hvE, hEb⟩ := h4
    have htv : tensorOf ga iv.2 = tensorOf g iv.2 := tensorOf_ext hvE hEb hvlt
    rw [List.foldl_cons]
    cases htm : (if iv.1 < psi then actT else parT) with
    | none =>
      have hstep : obsInputStep psi actT parT ((rootNodes g).head?.map Nd.nid) ga iv = ga := by
        rw [obsInputStep, htm]
      have helig : eligFrom g psi actT parT (iv :: rest) = eligFrom g psi actT parT rest := by
        rw [eligFrom, List.filterMap_cons, htm]
        rfl
      rw [hstep, helig]
      exact ih ga P (fun x hx => hll x (List.mem_cons_of_mem _ hx)) h1 h2 h3
        ⟨E, hvE, hEb⟩ h5 h6
    | some t =>
      cases htn : tensorOf g iv.2 with
      | false =>
        have hstep : obsInputStep psi actT parT ((rootNodes g).head?.map Nd.nid) ga iv = ga := by
          rw [obsInputStep, htm, htv, htn]
          rfl
        have helig : eligFrom g psi actT parT (iv :: rest) = eligFrom g psi actT parT rest := by
          rw [eligFrom, List.filterMap_cons, htm, htn]
          rfl
        rw [hstep, helig]
        exact ih ga P (fun x hx => hll x (List.mem_cons_of_mem _ hx)) h1 h2 h3
          ⟨E, hvE, hEb⟩ h5 h6
      | true =>
        have hstep : obsInputStep psi actT parT ((rootNodes g).head?.map Nd.nid) ga iv
            = addObserverFor ga iv.2 t ((rootNodes g).head?.map Nd.nid) false := by
          rw [obsInputStep, htm, htv, htn]
          rfl
        have helig : eligFrom g psi actT parT (iv :: rest)
            = (iv.2, t) :: eligFrom g psi actT parT rest := by
          rw [eligFrom, List.filterMap_cons, htm, htn]
          rfl
        obtain ⟨k1, k2, k3, k4, k5⟩ := addObserverFor_input_spec g hkeys hnids
          hbound hroot ga P iv.2 t h1 h2 h3 ⟨E, hvE, hEb⟩ h5 h6 hvlt
        have hP' : ∀ n ∈ P ++ mkPair g ga.fresh iv.2 t, g.fresh ≤ n.nid := by
          intro n hn
          rcases List.mem_append.mp hn with h | h
          · exact h6 n h
          · have : n ∈ pairsFrom g ga.fresh [(iv.2, t)] := by
              rw [pairsFrom, pairsFrom, List.append_nil]
              exact h
            exact (pairsFrom_bounds g g.fresh [(iv.2, t)] ga.fresh h5 n this).1
        rw [hstep, helig]
        obtain ⟨r1, r2, r3, r4, r5⟩ := ih
          (addObserverFor ga iv.2 t ((rootNodes g).head?.map Nd.nid) false)
          (P ++ mkPair g ga.fresh iv.2 t)
          (fun x hx => hll x (List.mem_cons_of_mem _ hx)) k1 k2 k3 k4
          (by rw [k5]; omega) hP'
        refine ⟨r1, r2, ?_, r4, r5⟩
        rw [r3, k5, pairsFrom]
        simp [List.append_assoc]

/-! ### The activation phase never disturbs the input-observer prefix -/

theorem lookup_onBlksF (F : List Nd → List Nd) :
    ∀ (l : List (Nat × Blk)) (k : Nat),
      List.lookup k (l.map (fun ib =>
        (ib.1, (⟨F ib.2.nodes, ib.2.bouts⟩ : Blk)))) =
        (List.lookup k l).map (fun b => (⟨F b.nodes, b.bouts⟩ : Blk)) := by
  intro l
  induction l with
  | nil => intro k; rfl
  | cons p t ih =>
    intro k
    rw [List.map_cons, List.lookup, List.lookup]
    cases hbe : (k == p.1) with
    | true => simp only [hbe]; rfl
    | false => simp only [hbe]; exact ih k

theorem rootNodes_insBeforeG (g : Graph) (a : Nat) (ns : List Nd) :
    rootNodes (insBeforeG g a ns) = insBefL a ns (rootNodes g) := by
  rw [rootNodes, rootNodes]
  show (Option.map Blk.nodes (List.lookup g.rootB (g.blks.map (fun ib =>
    (ib.1, (⟨insBefL a ns ib.2.nodes, ib.2.bouts⟩ : Blk))))) |>.getD []) = _
  rw [lookup_onBlksF (insBefL a ns)]
  cases List.lookup g.rootB g.blks with
  | none => rfl
  | some b => rfl

theorem rootNodes_insAfterG (g : Graph) (a : Nat) (ns : List Nd) :
    rootNodes (insAfterG g a ns) = insAftL a ns (rootNodes g) := by
  rw [rootNodes, rootNodes]
  show (Option.map Blk.nodes (List.lookup g.rootB (g.blks.map (fun ib =>
    (ib.1, (⟨insAftL a ns ib.2.nodes, ib.2.bouts⟩ : Blk))))) |>.getD []) = _
  rw [lookup_onBlksF (insAftL a ns)]
  cases List.lookup g.rootB g.blks with
  | none => rfl
  | some b => rfl

theorem mem_allNds_onBlksL {g : Graph} {F : List Nd → List Nd}
    {carrier : List Nd} {x : Nd}
    (h : x ∈ allNds (onBlks (fun b => ⟨F b.nodes, b.bouts⟩) g))
    (hF : ∀ l : List Nd, ∀ y ∈ F l, y ∈ l ∨ y ∈ carrier) :
    x ∈ allNds g ∨ x ∈ carrier := by
  rw [allNds, List.mem_flatten] at h
  obtain ⟨ns, hns, hx⟩ := h
  rw [List.mem_map] at hns
  obtain ⟨ib, hib, rfl⟩ := hns
  simp only [onBlks, List.mem_map] at hib
  obtain ⟨ib0, hib0, rfl⟩ := hib
  rcases hF ib0.2.nodes x hx with h | h
  · exact Or.inl (mem_allNds_of_entry
      (by rw [← Prod.mk.eta (p := ib0)] at hib0; exact hib0) h)
  · exact Or.inr h

theorem mem_allNds_insBeforeG {g : Graph} {a : Nat} {ns : List Nd} {x : Nd}
    (h : x ∈ allNds (insBeforeG g a ns)) : x ∈ allNds g ∨ x ∈ ns :=
  mem_allNds_onBlksL h (fun _ y hy => mem_insBefL hy)

theorem mem_allNds_insAfterG {g : Graph} {a : Nat} {ns : List Nd} {x : Nd}
    (h : x ∈ allNds (insAfterG g a ns)) : x ∈ allNds g ∨ x ∈ ns :=
  mem_allNds_onBlksL h (fun _ y hy => mem_insAftL hy)

theorem findProducer_mem {g : Graph} {v : Nat} {p : Nd}
    (h : findProducer g v = some p) : p ∈ allNds g ∧ v ∈ p.outs := by
  rw [findProducer] at h
  obtain ⟨ib, hib, hfp⟩ := List.exists_of_findSome?_eq_some h
  rw [findProducerB] at hfp
  constructor
  · exact mem_allNds_of_entry
      (by rw [← Prod.mk.eta (p := ib)] at hib; exact hib)
      (List.mem_of_find?_eq_some hfp)
  · have := List.find?_some hfp
    simpa using this

/-- The clone placed after an anchor by `addObserverFor`: the root
block gains the name constant before the anchor and the clone after it;
every new node's outputs are fresh. -/
theorem addObserverFor_after_shape (ga : Graph) (v : Nat) (t : ObsTemplate)
    (a : Nat) :
    ∃ c o : Nd,
      c.nid = ga.fresh ∧ o.nid = ga.fresh + 2 ∧
      rootNodes (addObserverFor ga v t (some a) true) =
        insAftL a [o] (insBefL a [c] (rootNodes ga)) ∧
      (∀ n ∈ allNds (addObserverFor ga v t (some a) true),
        n ∈ allNds ga ∨ n = c ∨ n = o) ∧
      (∀ x ∈ c.outs, ga.fresh ≤ x) ∧ (∀ x ∈ o.outs, ga.fresh ≤ x) ∧
      (addObserverFor ga v t (some a) true).fresh = ga.fresh + 4 + t.touts.length := by
  refine ⟨⟨ga.fresh, "prim::Constant", [], [ga.fresh + 1], .vstr (nameOf ga v), []⟩,
    ⟨ga.fresh + 2, t.op, t.tins ++ [v, ga.fresh + 1],
      ((List.range t.touts.length).map (fun j => ga.fresh + 3 + j)) ++
        [ga.fresh + 3 + t.touts.length], .vnone, []⟩, rfl, rfl, ?_, ?_, ?_, ?_, rfl⟩
  · have h0 : rootNodes (addObserverFor ga v t (some a) true) =
        rootNodes (insAfterG (insBeforeG ga a
          [⟨ga.fresh, "prim::Constant", [], [ga.fresh + 1], .vstr (nameOf ga v), []⟩]) a
          [⟨ga.fresh + 2, t.op, t.tins ++ [v, ga.fresh + 1],
            ((List.range t.touts.length).map (fun j => ga.fresh + 3 + j)) ++
              [ga.fresh + 3 + t.touts.length], .vnone, []⟩]) := rfl
    rw [h0, rootNodes_insAfterG, rootNodes_insBeforeG]
  · intro n hn
    have hn' : n ∈ allNds (insAfterG (insBeforeG ga a
        [⟨ga.fresh, "prim::Constant", [], [ga.fresh + 1], .vstr (nameOf ga v), []⟩]) a
        [⟨ga.fresh + 2, t.op, t.tins ++ [v, ga.fresh + 1],
          ((List.range t.touts.length).map (fun j => ga.fresh + 3 + j)) ++
            [ga.fresh + 3 + t.touts.length], .vnone, []⟩]) := hn
    rcases mem_allNds_insAfterG hn' with h | h
    · rcases mem_allNds_insBeforeG h with h | h
      · exact Or.inl h
      · rw [List.mem_singleton] at h
        exact Or.inr (Or.inl h)
    · rw [List.mem_singleton] at h
      exact Or.inr (Or.inr h)
  · intro x hx
    rw [List.mem_singleton] at hx
    omega
  · intro x hx
    rcases List.mem_append.mp hx with h1 | h1
    · obtain ⟨j, hj, he⟩ := List.mem_map.mp h1
      omega
    · rw [List.mem_singleton] at h1
      omega

theorem obsActStep_eq (actT : Option ObsTemplate) (ga : Graph) (v : Nat) :
    obsActStep actT ga v =
      if tensorOf ga v then
        match actT, findProducer ga v with
        | some t, some p => addObserverFor ga v t (some p.nid) true
        | _, _ => ga
      else ga := rfl

/-- One activation-observer step keeps the root prefix intact and
preserves the bookkeeping invariants. -/
theorem obsActStep_prefix (g : Graph) (pref : List Nd)
    (actT : Option ObsTemplate) (ga : Graph) (v : Nat)
    (hv : v < g.fresh)
    (hpre : ∃ rest, rootNodes ga = pref ++ rest)
    (hK : ∀ n ∈ allNds ga, (∃ o ∈ n.outs, o < g.fresh) → n.nid < g.fresh)
    (hfr : g.fresh ≤ ga.fresh)
    (hpref : ∀ n ∈ pref, g.fresh ≤ n.nid) :
    (∃ rest, rootNodes (obsActStep actT ga v) = pref ++ rest) ∧
    (∀ n ∈ allNds (obsActStep actT ga v),
      (∃ o ∈ n.outs, o < g.fresh) → n.nid < g.fresh) ∧
    g.fresh ≤ (obsActStep actT ga v).fresh := by
  by_cases ht : tensorOf ga v = true
  · cases actT with
    | none =>
      have hid : obsActStep none ga v = ga := by
        rw [obsActStep_eq, if_pos ht]
      rw [hid]
      exact ⟨hpre, hK, hfr⟩
    | some t =>
      cases hp : findProducer ga v with
      | none =>
        have hid : obsActStep (some t) ga v = ga := by
          rw [obsActStep_eq, if_pos ht, hp]
        rw [hid]
        exact ⟨hpre, hK, hfr⟩
      | some p =>
        have hstep : obsActStep (some t) ga v =
            addObserverFor ga v t (some p.nid) true := by
          rw [obsActStep_eq, if_pos ht, hp]
        obtain ⟨hpmem, hpouts⟩ := findProducer_mem hp
        have hpa : p.nid < g.fresh := hK p hpmem ⟨v, hpouts, hv⟩
        have hskip : p.nid ∉ pref.map Nd.nid := by
          intro hmem
          obtain ⟨q, hq, hqe⟩ := List.mem_map.mp hmem
          have := hpref q hq
          omega
        obtain ⟨rest, hrest⟩ := hpre
        obtain ⟨c, o, hcn, hon, hroot, hmem, hco, hoo, hfrs⟩ :=
          addObserverFor_after_shape ga v t p.nid
        rw [hstep]
        refine ⟨?_, ?_, ?_⟩
        · rw [hroot, hrest, insBefL_append_skip pref _ hskip,
            insAftL_append_skip pref _ hskip]
          exact ⟨_, rfl⟩
        · intro n hn hno
          rcases hmem n hn with h | h | h
          · exact hK n h hno
          · subst h
            obtain ⟨x, hx, hxlt⟩ := hno
            have := hco x hx
            omega
          · subst h
            obtain ⟨x, hx, hxlt⟩ := hno
            have := hoo x hx
            omega
        · rw [hfrs]
          omega
  · have hid : obsActStep actT ga v = ga := by
      rw [obsActStep_eq, if_neg ht]
    rw [hid]
    exact ⟨hpre, hK, hfr⟩

theorem actFold_prefix (g : Graph) (pref : List Nd)
    (actT : Option ObsTemplate) :
    ∀ (vs : List Nat) (ga : Graph),
      (∀ v ∈ vs, v < g.fresh) →
      (∃ rest, rootNodes ga = pref ++ rest) →
      (∀ n ∈ allNds ga, (∃ o ∈ n.outs, o < g.fresh) → n.nid < g.fresh) →
      g.fresh ≤ ga.fresh →
      (∀ n ∈ pref, g.fresh ≤ n.nid) →
      ∃ rest, rootNodes (vs.foldl (obsActStep actT) ga) = pref ++ rest := by
  intro vs
  induction vs with
  | nil => intro ga _ hpre _ _ _; exact hpre
  | cons v rest ih =>
    intro ga hvs hpre hK hfr hpref
    obtain ⟨h1, h2, h3⟩ := obsActStep_prefix g pref actT ga v
      (hvs v (List.mem_cons_self _ _)) hpre hK hfr hpref
    rw [List.foldl_cons]
    exact ih (obsActStep actT ga v)
      (fun x hx => hvs x (List.mem_cons_of_mem _ hx)) h1 h2 h3 hpref

/-! ### Assembling the full pass: claim C5 -/

theorem lookup_map_if (k0 : Nat) (G : Blk → Blk) :
    ∀ (l : List (Nat × Blk)),
      List.lookup k0 (l.map (fun ib =>
        if ib.1 = k0 then (ib.1, G ib.2) else ib)) =
        (List.lookup k0 l).map G := by
  intro l
  induction l with
  | nil => rfl
  | cons p t ih =>
    rw [List.map_cons]
    by_cases hpk : p.1 = k0
    · rw [if_pos hpk, List.lookup, List.lookup,
        show (k0 == p.1) = true from beq_iff_eq.mpr hpk.symm]
      rfl
    · rw [if_neg hpk, List.lookup, List.lookup,
        show (k0 == p.1) = false from beq_eq_false_iff_ne.mpr (fun h => hpk h.symm)]
      exact ih

theorem mem_allNds_mapIf {g ga : Graph} {P : List Nd} {x : Nd}
    (hblks : ga.blks = g.blks.map (fun ib =>
      if ib.1 = g.rootB then (ib.1, (⟨P ++ ib.2.nodes, ib.2.bouts⟩ : Blk)) else ib))
    (h : x ∈ allNds ga) : x ∈ allNds g ∨ x ∈ P := by
  rw [allNds, hblks, List.mem_flatten] at h
  obtain ⟨ns, hns, hx⟩ := h
  rw [List.map_map, List.mem_map] at hns
  obtain ⟨ib0, hib0, he⟩ := hns
  by_cases h1 : ib0.1 = g.rootB
  · rw [Function.comp_apply, if_pos h1] at he
    rw [← he] at hx
    rcases List.mem_append.mp hx with h2 | h2
    · exact Or.inr h2
    · exact Or.inl (mem_allNds_of_entry
        (by rw [← Prod.mk.eta (p := ib0)] at hib0; exact hib0) h2)
  · rw [Function.comp_apply, if_neg h1] at he
    rw [← he] at hx
    exact Or.inl (mem_allNds_of_entry
      (by rw [← Prod.mk.eta (p := ib0)] at hib0; exact hib0) hx)

theorem rootNodes_mapIf {g ga : Graph} {P : List Nd} {rb : Blk}
    (hrb : ga.rootB = g.rootB)
    (hblks : ga.blks = g.blks.map (fun ib =>
      if ib.1 = g.rootB then (ib.1, (⟨P ++ ib.2.nodes, ib.2.bouts⟩ : Blk)) else ib))
    (hrbk : List.lookup g.rootB g.blks = some rb) :
    rootNodes ga = P ++ rootNodes g := by
  rw [rootNodes, rootNodes, hrb, hblks,
    lookup_map_if g.rootB (fun b => (⟨P ++ b.nodes, b.bouts⟩ : Blk)), hrbk]
  rfl

theorem traverseBlks_mem {sel : Nd → Bool} {g : Graph} {b : Blk}
    (h : b ∈ traverseBlks sel g) : ∃ i, (i, b) ∈ g.blks := by
  rw [traverseBlks, List.mem_filterMap] at h
  obtain ⟨i, _, hl⟩ := h
  exact ⟨i, lookup_mem_pairs hl⟩

theorem obsInnerFold_mem {ha : Bool} {x : Nat} :
    ∀ (ns : List Nd) (acc : List Nat),
      x ∈ ns.foldl (fun a n =>
        if outputsNeedToBeObserved n then (if ha then a ++ n.outs else a) else a) acc →
      x ∈ acc ∨ ∃ n ∈ ns, outputsNeedToBeObserved n = true ∧ x ∈ n.outs := by
  intro ns
  induction ns with
  | nil => intro acc h; exact Or.inl h
  | cons n rest ih =>
    intro acc h
    rw [List.foldl_cons] at h
    rcases ih _ h with h1 | h1
    · by_cases hg : outputsNeedToBeObserved n = true
      · rw [if_pos hg] at h1
        cases ha with
        | false => exact Or.inl h1
        | true =>
          rw [if_pos rfl] at h1
          rcases List.mem_append.mp h1 with h2 | h2
          · exact Or.inl h2
          · exact Or.inr ⟨n, List.mem_cons_self _ _, hg, h2⟩
      · rw [if_neg hg] at h1
        exact Or.inl h1
    · obtain ⟨m, hm, hg, hx⟩ := h1
      exact Or.inr ⟨m, List.mem_cons_of_mem _ hm, hg, hx⟩

theorem collectObs_mem {g : Graph} {ha : Bool} {x : Nat}
    (h : x ∈ collectObs g ha) :
    ∃ n ∈ allNds g, outputsNeedToBeObserved n = true ∧ x ∈ n.outs := by
  rw [collectObs] at h
  suffices hgen : ∀ (bs : List Blk) (acc : List Nat),
      (∀ b ∈ bs, ∃ i, (i, b) ∈ g.blks) →
      x ∈ bs.foldl (fun acc b =>
        b.nodes.foldl (fun a n =>
          if outputsNeedToBeObserved n then (if ha then a ++ n.outs else a) else a)
          acc) acc →
      x ∈ acc ∨ ∃ n ∈ allNds g, outputsNeedToBeObserved n = true ∧ x ∈ n.outs by
    rcases hgen (traverseBlks obsSel g) []
      (fun b hb => traverseBlks_mem hb) h with h1 | h1
    · cases h1
    · exact h1
  intro bs
  induction bs with
  | nil => intro acc _ h; exact Or.inl h
  | cons b rest ih =>
    intro acc hbs h
    rw [List.foldl_cons] at h
    rcases ih _ (fun b hb => hbs b (List.mem_cons_of_mem _ hb)) h with h1 | h1
    · rcases obsInnerFold_mem b.nodes acc h1 with h2 | h2
      · exact Or.inl h2
      · obtain ⟨n, hn, hg, hx⟩ := h2
        obtain ⟨i, hib⟩ := hbs b (List.mem_cons_self _ _)
        exact Or.inr ⟨n, mem_allNds_of_entry hib hn, hg, hx⟩
    · exact Or.inr h1

theorem collectObs_false (g : Graph) : collectObs g false = [] := by
  rw [collectObs]
  suffices hgen : ∀ (bs : List Blk) (acc : List Nat),
      bs.foldl (fun acc b =>
        b.nodes.foldl (fun a n =>
          if outputsNeedToBeObserved n then (if false then a ++ n.outs else a) else a)
          acc) acc = acc by
    exact hgen _ []
  intro bs
  induction bs with
  | nil => intro acc; rfl
  | cons b rest ih =>
    intro acc
    rw [List.foldl_cons]
    have hin : ∀ (ns : List Nd) (a : List Nat),
        ns.foldl (fun a n =>
          if outputsNeedToBeObserved n then (if false then a ++ n.outs else a) else a)
          a = a := by
      intro ns
      induction ns with
      | nil => intro a; rfl
      | cons n rest2 ih2 =>
        intro a
        rw [List.foldl_cons]
        by_cases hg : outputsNeedToBeObserved n = true
        · rw [if_pos hg, if_neg (by simp)]
          exact ih2 a
        · rw [if_neg hg]
          exact ih2 a
    rw [hin]
    exact ih acc

theorem pairsFrom_ops (g : Graph) :
    ∀ (items : List (Nat × ObsTemplate)) (f : Nat) (n : Nd),
      n ∈ pairsFrom g f items →
      n.op = "prim::Constant" ∨ ∃ vt ∈ items, n.op = vt.2.op := by
  intro items
  induction items with
  | nil => intro f n h; cases h
  | cons vt rest ih =>
    intro f n h
    rw [pairsFrom] at h
    rcases List.mem_append.mp h with h1 | h1
    · rw [mkPair] at h1
      rcases List.mem_cons.mp h1 with h2 | h2
      · subst h2; exact Or.inl rfl
      · rw [List.mem_singleton] at h2
        subst h2
        exact Or.inr ⟨vt, List.mem_cons_self _ _, rfl⟩
    · rcases ih _ n h1 with h2 | h2
      · exact Or.inl h2
      · obtain ⟨vt2, hvt2, he⟩ := h2
        exact Or.inr ⟨vt2, List.mem_cons_of_mem _ hvt2, he⟩

theorem eligFrom_templates {g : Graph} {psi : Nat} {actT parT : Option ObsTemplate} :
    ∀ {l : List (Nat × Nat)} {vt : Nat × ObsTemplate},
      vt ∈ eligFrom g psi actT parT l →
      actT = some vt.2 ∨ parT = some vt.2 := by
  intro l vt h
  rw [eligFrom, List.mem_filterMap] at h
  obtain ⟨iv, _, he⟩ := h
  by_cases hb : iv.1 < psi
  · rw [if_pos hb] at he
    cases hc : actT with
    | none => simp only [hc] at he; exact Option.noConfusion he
    | some t =>
      simp only [hc] at he
      by_cases ht : tensorOf g iv.2 = true
      · rw [if_pos ht] at he
        cases he
        exact Or.inl rfl
      · rw [if_neg ht] at he; cases he
  · rw [if_neg hb] at he
    cases hc : parT with
    | none => simp only [hc] at he; exact Option.noConfusion he
    | some t =>
      simp only [hc] at he
      by_cases ht : tensorOf g iv.2 = true
      · rw [if_pos ht] at he
        cases he
        exact Or.inr rfl
      · rw [if_neg ht] at he; cases he


theorem snd_mem_of_mem_enum {l : List Nat} {iv : Nat × Nat}
    (h : iv ∈ l.enum) : iv.2 ∈ l := by
  obtain ⟨i, x⟩ := iv
  obtain ⟨h1, h2⟩ := List.mem_enum h
  rw [show (i, x).2 = x from rfl, h2]
  exact List.getElem_mem h1

/-- Both phases of observer insertion, composed: the final graph's root
block starts with exactly the input-phase constant/observer prefix, and
when no activation template is supplied the graph is exactly the
input-phase result. -/
theorem obsPhases_prefix (g : Graph)
    (hkeys : (g.blks.map Prod.fst).Nodup) (hnids : (allNids g).Nodup)
    (hbound : idsBound g = true)
    (hroot : (List.lookup g.rootB g.blks).isSome = true)
    (psi : Nat) (actT parT : Option ObsTemplate)
    (hopsA : ∀ t, actT = some t → t.op = "prim::PythonOp")
    (hopsP : ∀ t, parT = some t → t.op = "prim::PythonOp") :
    (∃ rest,
      rootNodes ((collectObs (g.gins.enum.foldl (obsInputStep psi actT parT
          ((rootNodes g).head?.map Nd.nid)) g) actT.isSome).foldl (obsActStep actT)
          (g.gins.enum.foldl (obsInputStep psi actT parT
          ((rootNodes g).head?.map Nd.nid)) g)) =
        pairsFrom g g.fresh (eligFrom g psi actT parT g.gins.enum) ++ rest) ∧
    (actT = none →
      rootNodes ((collectObs (g.gins.enum.foldl (obsInputStep psi actT parT
          ((rootNodes g).head?.map Nd.nid)) g) actT.isSome).foldl (obsActStep actT)
          (g.gins.enum.foldl (obsInputStep psi actT parT
          ((rootNodes g).head?.map Nd.nid)) g)) =
        pairsFrom g g.fresh (eligFrom g psi actT parT g.gins.enum) ++ rootNodes g ∧
      ∀ n ∈ allNds ((collectObs (g.gins.enum.foldl (obsInputStep psi actT parT
          ((rootNodes g).head?.map Nd.nid)) g) actT.isSome).foldl (obsActStep actT)
          (g.gins.enum.foldl (obsInputStep psi actT parT
          ((rootNodes g).head?.map Nd.nid)) g)),
        n ∈ allNds g ∨
          n ∈ pairsFrom g g.fresh (eligFrom g psi actT parT g.gins.enum)) := by
  set g1 := g.gins.enum.foldl (obsInputStep psi actT parT
    ((rootNodes g).head?.map Nd.nid)) g with hg1d
  obtain ⟨rb, hrbk⟩ := Option.isSome_iff_exists.mp hroot
  have hmapid : g.blks = g.blks.map (fun ib =>
      if ib.1 = g.rootB then (ib.1, (⟨[] ++ ib.2.nodes, ib.2.bouts⟩ : Blk)) else ib) := by
    conv_lhs => rw [← List.map_id g.blks]
    apply List.map_congr_left
    intro ib _
    by_cases h : ib.1 = g.rootB
    · rw [if_pos h]; rfl
    · rw [if_neg h]; rfl
  have hvals0 : ∃ E, g.vals = g.vals ++ E ∧ ∀ e ∈ E, g.fresh ≤ e.1 :=
    ⟨[], (List.append_nil g.vals).symm, fun e he => absurd he (List.not_mem_nil e)⟩
  obtain ⟨r1, r2, r3, r4, r5⟩ := inputFold_spec g hkeys hnids hbound hroot psi actT parT
    g.gins.enum g [] (fun iv hiv => snd_mem_of_mem_enum hiv) rfl rfl hmapid hvals0
    (le_refl g.fresh) (fun n hn => absurd hn (List.not_mem_nil n))
  rw [← hg1d] at r1 r2 r3 r4 r5
  simp only [List.nil_append] at r3
  have hP := pairsFrom_bounds g g.fresh (eligFrom g psi actT parT g.gins.enum)
    g.fresh (le_refl g.fresh)
  have hroot1 : rootNodes g1 =
      pairsFrom g g.fresh (eligFrom g psi actT parT g.gins.enum) ++ rootNodes g :=
    rootNodes_mapIf r1 r3 hrbk
  have hK1 : ∀ n ∈ allNds g1, (∃ o ∈ n.outs, o < g.fresh) → n.nid < g.fresh := by
    intro n hn hno
    rcases mem_allNds_mapIf r3 hn with h | h
    · exact ((idsBound_spec hbound).2.2.1 n h).1
    · obtain ⟨o, ho, holt⟩ := hno
      have := (hP n h).2 o ho
      omega
  have hgate : ∀ n ∈ pairsFrom g g.fresh (eligFrom g psi actT parT g.gins.enum),
      outputsNeedToBeObserved n = false := by
    intro n hn
    rcases pairsFrom_ops g _ g.fresh n hn with h | h
    · rw [outputsNeedToBeObserved, h]
      decide
    · obtain ⟨vt, hvt, he⟩ := h
      have hop : vt.2.op = "prim::PythonOp" := by
        rcases eligFrom_templates hvt with h2 | h2
        · exact hopsA vt.2 h2
        · exact hopsP vt.2 h2
      rw [outputsNeedToBeObserved, he, hop]
      decide
  have hvs : ∀ v ∈ collectObs g1 actT.isSome, v < g.fresh := by
    intro v hv
    obtain ⟨n, hn, hg, hvo⟩ := collectObs_mem hv
    rcases mem_allNds_mapIf r3 hn with h | h
    · exact ((idsBound_spec hbound).2.2.1 n h).2.2 v hvo
    · rw [hgate n h] at hg
      cases hg
  obtain ⟨rest, hrest⟩ := actFold_prefix g
    (pairsFrom g g.fresh (eligFrom g psi actT parT g.gins.enum)) actT
    (collectObs g1 actT.isSome) g1 hvs ⟨rootNodes g, hroot1⟩ hK1 r5
    (fun n hn => (hP n hn).1)
  refine ⟨⟨rest, hrest⟩, ?_⟩
  intro hact
  have hvs0 : collectObs g1 actT.isSome = [] := by
    rw [hact]
    exact collectObs_false g1
  constructor
  · rw [hvs0, List.foldl_nil]
    exact hroot1
  · intro n hn
    rw [hvs0, List.foldl_nil] at hn
    exact mem_allNds_mapIf r3 hn


/-- **C5**: `insertObservers` partitions the graph inputs at the
boundary `total inputs - numParams`: the pass succeeds whenever
`numParams` does not exceed the input count, and lays down, at the very
start of the root block, exactly one name-constant/observer-clone pair
per tensor-typed input — the "activation" template for inputs before
the boundary, the "param" template for inputs at or after it, in input
order (`eligFrom`/`pairsFrom` spell out this selection) — skipping,
without error, every input whose side of the boundary has no template
in the supplied dictionary.  When no "activation" template is supplied
the result contains no nodes beyond the original graph and that prefix:
no activation observers appear anywhere. -/
theorem c5_insert_observers_input_partition (g : Graph) (numParams : Nat)
    (dict : List (String × ObsTemplate))
    (hkeys : (g.blks.map Prod.fst).Nodup)
    (hnids : (allNids g).Nodup)
    (hbound : idsBound g = true)
    (hroot : (List.lookup g.rootB g.blks).isSome = true)
    (hnum : numParams ≤ g.gins.length)
    (hops : ∀ kt ∈ dict, kt.2.op = "prim::PythonOp") :
    ∃ g', InsertObserverNodes g numParams dict = some g' ∧
      (∃ rest, rootNodes g' = pairsFrom g g.fresh
        (eligFrom g (g.gins.length - numParams)
          (List.lookup "activation" dict) (List.lookup "param" dict)
          g.gins.enum) ++ rest) ∧
      (List.lookup "activation" dict = none →
        rootNodes g' = pairsFrom g g.fresh
          (eligFrom g (g.gins.length - numParams) none
            (List.lookup "param" dict) g.gins.enum) ++ rootNodes g ∧
        ∀ n ∈ allNds g', n ∈ allNds g ∨ n ∈ pairsFrom g g.fresh
          (eligFrom g (g.gins.length - numParams) none
            (List.lookup "param" dict) g.gins.enum)) := by
  have hnn : ¬ (g.gins.length < numParams) := by omega
  have hdef : InsertObserverNodes g numParams dict = some
      ((collectObs (g.gins.enum.foldl (obsInputStep (g.gins.length - numParams)
          (List.lookup "activation" dict) (List.lookup "param" dict)
          ((rootNodes g).head?.map Nd.nid)) g)
        (List.lookup "activation" dict).isSome).foldl
        (obsActStep (List.lookup "activation" dict))
        (g.gins.enum.foldl (obsInputStep (g.gins.length - numParams)
          (List.lookup "activation" dict) (List.lookup "param" dict)
          ((rootNodes g).head?.map Nd.nid)) g)) := by
    rw [InsertObserverNodes, if_neg hnn]
  obtain ⟨h1, h2⟩ := obsPhases_prefix g hkeys hnids hbound hroot
    (g.gins.length - numParams) (List.lookup "activation" dict)
    (List.lookup "param" dict)
    (fun t ht => hops ("activation", t) (lookup_mem_pairs ht))
    (fun t ht => hops ("param", t) (lookup_mem_pairs ht))
  refine ⟨_, hdef, h1, fun hact => ?_⟩
  rw [show eligFrom g (g.gins.length - numParams) none
      (List.lookup "param" dict) g.gins.enum =
    eligFrom g (g.gins.length - numParams) (List.lookup "activation" dict)
      (List.lookup "param" dict) g.gins.enum from by rw [hact]]
  exact h2 hact

/-- Witness for C5: the two-input conv graph with one module parameter
and only a "param" observer template supplied. -/
theorem c5_insert_observers_input_partition_witness :
    (1 ≤ gC5.gins.length ∧ idsBound gC5 = true) ∧
    ∃ g', InsertObserverNodes gC5 1 [("param", tmplPlain)] = some g' ∧
      (∃ rest, rootNodes g' = pairsFrom gC5 gC5.fresh
        (eligFrom gC5 (gC5.gins.length - 1)
          (List.lookup "activation" [("param", tmplPlain)])
          (List.lookup "param" [("param", tmplPlain)])
          gC5.gins.enum) ++ rest) ∧
      (List.lookup "activation" [("param", tmplPlain)] = none →
        rootNodes g' = pairsFrom gC5 gC5.fresh
          (eligFrom gC5 (gC5.gins.length - 1) none
            (List.lookup "param" [("param", tmplPlain)]) gC5.gins.enum)
          ++ rootNodes gC5 ∧
        ∀ n ∈ allNds g', n ∈ allNds gC5 ∨ n ∈ pairsFrom gC5 gC5.fresh
          (eligFrom gC5 (gC5.gins.length - 1) none
            (List.lookup "param" [("param", tmplPlain)]) gC5.gins.enum)) :=
  ⟨⟨by decide, by decide⟩,
   c5_insert_observers_input_partition gC5 1 [("param", tmplPlain)]
     (by decide) (by decide) (by decide) (by decide) (by decide) (by decide)⟩

/-! ### The clone built by addObserverFor (claim C6, amended) -/

theorem lookup_none_of_ge {β : Type} {l : List (Nat × β)} {v f : Nat}
    (hv : f ≤ v) (h : ∀ e ∈ l, e.1 < f) : List.lookup v l = none := by
  induction l with
  | nil => rfl
  | cons p t ih =>
    rw [List.lookup]
    cases hbe : (v == p.1) with
    | true =>
      exfalso
      have h1 := h p (List.mem_cons_self _ _)
      have h2 := beq_iff_eq.mp hbe
      omega
    | false =>
      simp only [hbe]
      exact ih (fun e he => h e (List.mem_cons_of_mem _ he))

theorem lookup_singleton_self {β : Type} (k : Nat) (b : β) :
    List.lookup k [(k, b)] = some b := by
  rw [List.lookup, beq_self_eq_true]

theorem blks_mapIf_nil (g : Graph) : g.blks = g.blks.map (fun ib =>
    if ib.1 = g.rootB then (ib.1, (⟨[] ++ ib.2.nodes, ib.2.bouts⟩ : Blk)) else ib) := by
  conv_lhs => rw [← List.map_id g.blks]
  apply List.map_congr_left
  intro ib _
  by_cases h : ib.1 = g.rootB
  · rw [if_pos h]; rfl
  · rw [if_neg h]; rfl

/-- **C6** (amended): the pair `addObserverFor` lays down at the start
of the root block is a name constant plus a clone of the template; the
clone carries the template node's own inputs followed by exactly two
new inputs — the observed value and the constant's output — and one
fresh copy per template output followed by exactly one new output,
whose unique name is the observed value's name suffixed `".observed"`
and whose type (tensor-ness) equals the observed value's; the clone has
exactly two inputs and one output precisely when the template has no
inputs and no outputs of its own. -/
theorem c6_observer_clone_wiring (g : Graph) (v : Nat) (t : ObsTemplate)
    (hkeys : (g.blks.map Prod.fst).Nodup)
    (hnids : (allNids g).Nodup)
    (hbound : idsBound g = true)
    (hroot : (List.lookup g.rootB g.blks).isSome = true)
    (hv : v < g.fresh) :
    rootNodes (addObserverFor g v t ((rootNodes g).head?.map Nd.nid) false)
      = mkPair g g.fresh v t ++ rootNodes g ∧
    mkPair g g.fresh v t =
      [⟨g.fresh, "prim::Constant", [], [g.fresh + 1], .vstr (nameOf g v), []⟩,
       ⟨g.fresh + 2, t.op, t.tins ++ [v, g.fresh + 1],
        ((List.range t.touts.length).map (fun j => g.fresh + 3 + j)) ++
          [g.fresh + 3 + t.touts.length], .vnone, []⟩] ∧
    ((t.tins ++ [v, g.fresh + 1]).length = 2 ∧
      (((List.range t.touts.length).map (fun j => g.fresh + 3 + j)) ++
        [g.fresh + 3 + t.touts.length]).length = 1 ↔
      t.tins = [] ∧ t.touts = []) ∧
    nameOf (addObserverFor g v t ((rootNodes g).head?.map Nd.nid) false)
      (g.fresh + 3 + t.touts.length) = nameOf g v ++ ".observed" ∧
    tensorOf (addObserverFor g v t ((rootNodes g).head?.map Nd.nid) false)
      (g.fresh + 3 + t.touts.length) = tensorOf g v := by
  obtain ⟨rb, hrbk⟩ := Option.isSome_iff_exists.mp hroot
  obtain ⟨k1, k2, k3, k4, k5⟩ := addObserverFor_input_spec g hkeys hnids hbound hroot
    g [] v t rfl rfl (blks_mapIf_nil g)
    ⟨[], (List.append_nil g.vals).symm, fun e he => absurd he (List.not_mem_nil e)⟩
    (le_refl g.fresh) (fun n hn => absurd hn (List.not_mem_nil n)) hv
  simp only [List.nil_append] at k3
  have hvkey : ∀ e ∈ g.vals, e.1 < g.fresh := (idsBound_spec hbound).2.1
  have h0 : (addObserverFor g v t ((rootNodes g).head?.map Nd.nid) false).vals =
      (insertAtAnchor (insertAtAnchor g ((rootNodes g).head?.map Nd.nid) false
          [⟨g.fresh, "prim::Constant", [], [g.fresh + 1], .vstr (nameOf g v), []⟩])
        ((rootNodes g).head?.map Nd.nid) false
        [⟨g.fresh + 2, t.op, t.tins ++ [v, g.fresh + 1],
          ((List.range t.touts.length).map (fun j => g.fresh + 3 + j)) ++
            [g.fresh + 3 + t.touts.length], .vnone, []⟩]).vals
      ++ [(g.fresh + 1, ⟨"c" ++ toString (g.fresh + 1), false⟩)]
      ++ (((List.range t.touts.length).map (fun j => g.fresh + 3 + j)).zip t.touts)
      ++ [(g.fresh + 3 + t.touts.length,
           ⟨nameOf g v ++ ".observed", tensorOf g v⟩)] := rfl
  rw [(insertAtAnchor_frame _ _ _ _).2.2.1, (insertAtAnchor_frame _ _ _ _).2.2.1]
    at h0
  have hlk : List.lookup (g.fresh + 3 + t.touts.length)
      (addObserverFor g v t ((rootNodes g).head?.map Nd.nid) false).vals =
      some ⟨nameOf g v ++ ".observed", tensorOf g v⟩ := by
    rw [h0]
    simp only [List.append_assoc]
    rw [lookup_append_left (lookup_none_of_ge (by omega) hvkey)]
    rw [lookup_append_left ?hc]
    case hc =>
      rw [List.lookup,
        show ((g.fresh + 3 + t.touts.length) == (g.fresh + 1)) = false from
          beq_eq_false_iff_ne.mpr (by omega)]
      rfl
    rw [lookup_append_left ?hz]
    case hz =>
      apply lookup_none_of_ge (le_refl (g.fresh + 3 + t.touts.length))
      intro e he
      obtain ⟨e1, e2⟩ := e
      obtain ⟨h1, -⟩ := List.of_mem_zip he
      obtain ⟨j, hj, hje⟩ := List.mem_map.mp h1
      rw [List.mem_range] at hj
      show e1 < g.fresh + 3 + t.touts.length
      omega
    exact lookup_singleton_self _ _
  refine ⟨?_, rfl, ?_, ?_, ?_⟩
  · exact rootNodes_mapIf k1 k3 hrbk
  · constructor
    · intro ⟨h1, h2⟩
      simp only [List.length_append, List.length_map, List.length_range,
        List.length_cons, List.length_nil, List.length_singleton] at h1 h2
      exact ⟨List.eq_nil_of_length_eq_zero (by omega),
        List.eq_nil_of_length_eq_zero (by omega)⟩
    · intro ⟨h1, h2⟩
      rw [h1, h2]
      exact ⟨rfl, rfl⟩
  · rw [nameOf, hlk]
    rfl
  · rw [tensorOf, hlk]
    rfl

/-- Witness for the amended C6: the two-input conv graph, observing
value 0 with a template that has one input of its own (value 77): the
clone keeps that input in front of the two new ones. -/
theorem c6_observer_clone_wiring_witness :
    (0 < gC5.fresh ∧ idsBound gC5 = true) ∧
    (rootNodes (addObserverFor gC5 0 tmplWithInput
        ((rootNodes gC5).head?.map Nd.nid) false)
      = mkPair gC5 gC5.fresh 0 tmplWithInput ++ rootNodes gC5 ∧
    mkPair gC5 gC5.fresh 0 tmplWithInput =
      [⟨gC5.fresh, "prim::Constant", [], [gC5.fresh + 1],
        .vstr (nameOf gC5 0), []⟩,
       ⟨gC5.fresh + 2, tmplWithInput.op,
        tmplWithInput.tins ++ [0, gC5.fresh + 1],
        ((List.range tmplWithInput.touts.length).map
          (fun j => gC5.fresh + 3 + j)) ++
          [gC5.fresh + 3 + tmplWithInput.touts.length], .vnone, []⟩] ∧
    ((tmplWithInput.tins ++ [0, gC5.fresh + 1]).length = 2 ∧
      (((List.range tmplWithInput.touts.length).map
        (fun j => gC5.fresh + 3 + j)) ++
        [gC5.fresh + 3 + tmplWithInput.touts.length]).length = 1 ↔
      tmplWithInput.tins = [] ∧ tmplWithInput.touts = []) ∧
    nameOf (addObserverFor gC5 0 tmplWithInput
        ((rootNodes gC5).head?.map Nd.nid) false)
      (gC5.fresh + 3 + tmplWithInput.touts.length)
      = nameOf gC5 0 ++ ".observed" ∧
    tensorOf (addObserverFor gC5 0 tmplWithInput
        ((rootNodes gC5).head?.map Nd.nid) false)
      (gC5.fresh + 3 + tmplWithInput.touts.length) = tensorOf gC5 0) :=
  ⟨⟨by decide, by decide⟩,
   c6_observer_clone_wiring gC5 0 tmplWithInput
     (by decide) (by decide) (by decide) (by decide) (by decide)⟩

/-! ### Node-level images of the rewrite primitives -/

theorem flatten_map_map (F : Nd → Nd) :
    ∀ (L : List (List Nd)), (L.map (List.map F)).flatten = L.flatten.map F := by
  intro L
  induction L with
  | nil => rfl
  | cons l t ih =>
    rw [List.map_cons, List.flatten_cons, List.flatten_cons, List.map_append, ih]

theorem flatten_map_filter (p : Nd → Bool) :
    ∀ (L : List (List Nd)), (L.map (List.filter p)).flatten = L.flatten.filter p := by
  intro L
  induction L with
  | nil => rfl
  | cons l t ih =>
    rw [List.map_cons, List.flatten_cons, List.flatten_cons, List.filter_append, ih]

theorem allNds_onBlks_nodesMap (F : Nd → Nd) (bo : Blk → List Nat) (g : Graph) :
    allNds (onBlks (fun b => (⟨b.nodes.map F, bo b⟩ : Blk)) g) = (allNds g).map F := by
  rw [allNds, allNds, onBlks]
  show ((g.blks.map (fun ib => (ib.1, (⟨ib.2.nodes.map F, bo ib.2⟩ : Blk)))).map
    (fun ib => ib.2.nodes)).flatten = _
  rw [List.map_map, ← flatten_map_map F, List.map_map]
  rfl

theorem allNds_replUses (g : Graph) (w w' : Nat) :
    allNds (replUses g w w') =
      (allNds g).map (fun n => { n with ins := n.ins.map (subst w w') }) :=
  allNds_onBlks_nodesMap (fun n => { n with ins := n.ins.map (subst w w') })
    (fun b => b.bouts.map (subst w w')) g

theorem allNds_replInputOf (g : Graph) (i w w' : Nat) :
    allNds (replInputOf g i w w') =
      (allNds g).map (fun n =>
        if n.nid = i then { n with ins := n.ins.map (subst w w') } else n) :=
  allNds_onBlks_nodesMap
    (fun n => if n.nid = i then { n with ins := n.ins.map (subst w w') } else n)
    (fun b => b.bouts) g

theorem allNds_addInputG (g : Graph) (i v : Nat) :
    allNds (addInputG g i v) =
      (allNds g).map (fun n =>
        if n.nid = i then { n with ins := n.ins ++ [v] } else n) :=
  allNds_onBlks_nodesMap
    (fun n => if n.nid = i then { n with ins := n.ins ++ [v] } else n)
    (fun b => b.bouts) g

theorem allNds_destroyG (g : Graph) (i : Nat) :
    allNds (destroyG g i) = (allNds g).filter (fun n => n.nid ≠ i) := by
  rw [allNds, allNds, destroyG, onBlks]
  show ((g.blks.map (fun ib =>
    (ib.1, (⟨ib.2.nodes.filter (fun n => n.nid ≠ i), ib.2.bouts⟩ : Blk)))).map
    (fun ib => ib.2.nodes)).flatten = _
  rw [List.map_map, ← flatten_map_filter (fun n => n.nid ≠ i), List.map_map]
  rfl

theorem subset_insBefL (a : Nat) (ns : List Nd) :
    ∀ (l : List Nd) (x : Nd), x ∈ l → x ∈ insBefL a ns l := by
  intro l
  induction l with
  | nil => intro x h; cases h
  | cons n rest ih =>
    intro x h
    rw [insBefL]
    by_cases hn : n.nid = a
    · rw [if_pos hn]
      exact List.mem_append_right _ h
    · rw [if_neg hn]
      rcases List.mem_cons.mp h with h1 | h1
      · exact List.mem_cons.mpr (Or.inl h1)
      · exact List.mem_cons.mpr (Or.inr (ih x h1))

theorem subset_insAftL (a : Nat) (ns : List Nd) :
    ∀ (l : List Nd) (x : Nd), x ∈ l → x ∈ insAftL a ns l := by
  intro l
  induction l with
  | nil => intro x h; cases h
  | cons n rest ih =>
    intro x h
    rw [insAftL]
    by_cases hn : n.nid = a
    · rw [if_pos hn]
      rcases List.mem_cons.mp h with h1 | h1
      · exact List.mem_cons.mpr (Or.inl h1)
      · exact List.mem_cons.mpr (Or.inr (List.mem_append_right _ h1))
    · rw [if_neg hn]
      rcases List.mem_cons.mp h with h1 | h1
      · exact List.mem_cons.mpr (Or.inl h1)
      · exact List.mem_cons.mpr (Or.inr (ih x h1))

theorem mem_allNds_insBeforeG_orig {g : Graph} {a : Nat} {ns : List Nd} {x : Nd}
    (h : x ∈ allNds g) : x ∈ allNds (insBeforeG g a ns) := by
  rw [allNds, List.mem_flatten] at h
  obtain ⟨l, hl, hx⟩ := h
  rw [List.mem_map] at hl
  obtain ⟨ib, hib, rfl⟩ := hl
  rw [allNds, List.mem_flatten]
  refine ⟨insBefL a ns ib.2.nodes, ?_, subset_insBefL a ns _ x hx⟩
  rw [List.mem_map]
  exact ⟨(ib.1, (⟨insBefL a ns ib.2.nodes, ib.2.bouts⟩ : Blk)),
    by rw [insBeforeG, onBlks]
       exact List.mem_map.mpr ⟨ib, hib, rfl⟩, rfl⟩

theorem mem_allNds_insAfterG_orig {g : Graph} {a : Nat} {ns : List Nd} {x : Nd}
    (h : x ∈ allNds g) : x ∈ allNds (insAfterG g a ns) := by
  rw [allNds, List.mem_flatten] at h
  obtain ⟨l, hl, hx⟩ := h
  rw [List.mem_map] at hl
  obtain ⟨ib, hib, rfl⟩ := hl
  rw [allNds, List.mem_flatten]
  refine ⟨insAftL a ns ib.2.nodes, ?_, subset_insAftL a ns _ x hx⟩
  rw [List.mem_map]
  exact ⟨(ib.1, (⟨insAftL a ns ib.2.nodes, ib.2.bouts⟩ : Blk)),
    by rw [insAfterG, onBlks]
       exact List.mem_map.mpr ⟨ib, hib, rfl⟩, rfl⟩

theorem insertQuantNodeParams_eq (g : Graph) (qN scN scV zpN zpV : Nat)
    (qp : QParam) :
    insertQuantNodeParams g qN scN scV zpN zpV qp =
      addInputG (addInputG (insBeforeG (insBeforeG g qN
          [⟨scN, "prim::Constant", [], [scV], .vflt qp.scale, []⟩]) qN
          [⟨zpN, "prim::Constant", [], [zpV], .vint qp.zp, []⟩]) qN scV) qN zpV := rfl

theorem allNds_addQDN_some {ga : Graph} {w : Nat} {qp : QParam} {n : Nd}
    (hfp : findProducer ga w = some n) :
    allNds (addQuantDeQuantNodes ga w qp) =
      allNds (addInputG (insertQuantNodeParams (addInputG (replUses
        (insAfterG ga n.nid
          [⟨ga.fresh, "aten::quantize_linear", [], [ga.fresh + 1], .vnone, []⟩,
           ⟨ga.fresh + 2, "aten::dequantize", [], [ga.fresh + 3], .vnone, []⟩])
        w (ga.fresh + 3)) ga.fresh w) ga.fresh (ga.fresh + 4) (ga.fresh + 5)
        (ga.fresh + 6) (ga.fresh + 7) qp) (ga.fresh + 2) (ga.fresh + 1)) := by
  simp only [addQuantDeQuantNodes, hfp]
  rfl

theorem fresh_addQDN_some {ga : Graph} {w : Nat} {qp : QParam} {n : Nd}
    (hfp : findProducer ga w = some n) :
    (addQuantDeQuantNodes ga w qp).fresh = ga.fresh + 8 := by
  simp only [addQuantDeQuantNodes, hfp]

theorem allNds_addQDNI_some {ga : Graph} {w i : Nat} {qp : QParam} {m : Nd}
    (hfn : findNd ga i = some m) :
    allNds (addQuantDeQuantNodesForInput ga w i qp) =
      allNds (addInputG (insertQuantNodeParams (addInputG (replInputOf
        (insBeforeG ga i
          [⟨ga.fresh, "aten::quantize_linear", [], [ga.fresh + 1], .vnone, []⟩,
           ⟨ga.fresh + 2, "aten::dequantize", [], [ga.fresh + 3], .vnone, []⟩])
        i w (ga.fresh + 3)) ga.fresh w) ga.fresh (ga.fresh + 4) (ga.fresh + 5)
        (ga.fresh + 6) (ga.fresh + 7) qp) (ga.fresh + 2) (ga.fresh + 1)) := by
  simp only [addQuantDeQuantNodesForInput, hfn]
  rfl

theorem fresh_addQDNI_some {ga : Graph} {w i : Nat} {qp : QParam} {m : Nd}
    (hfn : findNd ga i = some m) :
    (addQuantDeQuantNodesForInput ga w i qp).fresh = ga.fresh + 8 := by
  simp only [addQuantDeQuantNodesForInput, hfn]

/-- Node-level trace of `addQuantDeQuantNodes`: every node of the
result is either an original node with its inputs redirected through
`subst w dV` (and nothing else changed), or one of the four fresh
helper nodes, which consume only `w` and fresh values; every original
node survives in exactly that redirected form. -/
theorem addQDN_trace (ga : Graph) (w : Nat) (qp : QParam)
    (hids : ∀ y ∈ allNds ga, y.nid < ga.fresh) :
    addQuantDeQuantNodes ga w qp = ga ∨
    ((∀ x ∈ allNds (addQuantDeQuantNodes ga w qp),
        (∃ y ∈ allNds ga,
          x = { y with ins := y.ins.map (subst w (ga.fresh + 3)) }) ∨
        (ga.fresh ≤ x.nid ∧ x.nid < ga.fresh + 8 ∧ (∀ o ∈ x.outs, ga.fresh ≤ o) ∧
          ∀ i ∈ x.ins, i = w ∨ ga.fresh ≤ i)) ∧
     (∀ y ∈ allNds ga,
        { y with ins := y.ins.map (subst w (ga.fresh + 3)) } ∈
          allNds (addQuantDeQuantNodes ga w qp)) ∧
     (addQuantDeQuantNodes ga w qp).fresh = ga.fresh + 8) := by
  cases hfp : findProducer ga w with
  | none =>
    left
    simp only [addQuantDeQuantNodes, hfp]
  | some n =>
    right
    have hcomp : ∀ y : Nd, y.nid ≠ ga.fresh → y.nid ≠ ga.fresh + 2 →
        (fun m => if m.nid = ga.fresh + 2 then
            { m with ins := m.ins ++ [ga.fresh + 1] } else m)
          ((fun m => if m.nid = ga.fresh then
              { m with ins := m.ins ++ [ga.fresh + 7] } else m)
            ((fun m => if m.nid = ga.fresh then
                { m with ins := m.ins ++ [ga.fresh + 5] } else m)
              ((fun m => if m.nid = ga.fresh then
                  { m with ins := m.ins ++ [w] } else m)
                ((fun m => { m with ins := m.ins.map (subst w (ga.fresh + 3)) }) y)))) =
        { y with ins := y.ins.map (subst w (ga.fresh + 3)) } := by
      intro y h1 h2
      simp only [if_neg h1, if_neg h2]
    refine ⟨?_, ?_, fresh_addQDN_some hfp⟩
    · intro x hx
      rw [allNds_addQDN_some hfp, allNds_addInputG, List.mem_map] at hx
      obtain ⟨x4, hx4, hxe⟩ := hx
      rw [insertQuantNodeParams_eq, allNds_addInputG, allNds_addInputG,
        List.mem_map] at hx4
      obtain ⟨x4a, hx4a, hx4e⟩ := hx4
      rw [List.mem_map] at hx4a
      obtain ⟨xb, hxb, hxbe⟩ := hx4a
      rcases mem_allNds_insBeforeG hxb with hzb | hz
      rotate_left
      · -- the zero-point constant
        rw [List.mem_singleton] at hz
        subst hz hxbe hx4e hxe
        refine Or.inr ⟨by simp, by simp, ?_, ?_⟩
        · intro o ho
          simp at ho
          omega
        · intro i hi
          simp at hi
      rcases mem_allNds_insBeforeG hzb with h3 | hs
      rotate_left
      · -- the scale constant
        rw [List.mem_singleton] at hs
        subst hs hxbe hx4e hxe
        refine Or.inr ⟨by simp, by simp, ?_, ?_⟩
        · intro o ho
          simp at ho
          omega
        · intro i hi
          simp at hi
      rw [allNds_addInputG, List.mem_map] at h3
      obtain ⟨x2, hx2, hx2e⟩ := h3
      rw [allNds_replUses, List.mem_map] at hx2
      obtain ⟨x1, hx1, hx1e⟩ := hx2
      rcases mem_allNds_insAfterG hx1 with hy | hnew
      · -- an original node
        left
        refine ⟨x1, hy, ?_⟩
        have hlt := hids x1 hy
        subst hxe hx4e hxbe hx2e hx1e
        exact hcomp x1 (by omega) (by omega)
      · rcases List.mem_cons.mp hnew with hq | hd
        · -- the quant node
          subst hq hxe hx4e hxbe hx2e hx1e
          refine Or.inr ⟨by simp, by simp, ?_, ?_⟩
          · intro o ho
            simp at ho
            omega
          · intro i hi
            simp at hi
            rcases hi with hi | hi | hi
            · exact Or.inl hi
            · right; omega
            · right; omega
        · rw [List.mem_singleton] at hd
          -- the dequant node
          subst hd hxe hx4e hxbe hx2e hx1e
          refine Or.inr ⟨by simp, by simp, ?_, ?_⟩
          · intro o ho
            simp at ho
            omega
          · intro i hi
            simp at hi
            right; omega
    · intro y hy
      have hlt := hids y hy
      rw [allNds_addQDN_some hfp, allNds_addInputG,
        insertQuantNodeParams_eq, allNds_addInputG, allNds_addInputG]
      rw [← hcomp y (by omega) (by omega)]
      apply List.mem_map_of_mem
      apply List.mem_map_of_mem
      apply List.mem_map_of_mem
      apply mem_allNds_insBeforeG_orig
      apply mem_allNds_insBeforeG_orig
      rw [allNds_addInputG, List.mem_map]
      refine ⟨_, ?_, rfl⟩
      rw [allNds_replUses]
      apply List.mem_map_of_mem
      exact mem_allNds_insAfterG_orig hy

theorem findNd_mem {g : Graph} {i : Nat} {m : Nd}
    (h : findNd g i = some m) : m ∈ allNds g ∧ m.nid = i := by
  rw [findNd] at h
  obtain ⟨ib, hib, hf⟩ := List.exists_of_findSome?_eq_some h
  constructor
  · exact mem_allNds_of_entry
      (by rw [← Prod.mk.eta (p := ib)] at hib; exact hib)
      (List.mem_of_find?_eq_some hf)
  · have := List.find?_some hf
    simpa using this

/-- Node-level trace of `addQuantDeQuantNodesForInput`: only the
consuming node `i` has its inputs redirected; everything else survives
unchanged, plus the four fresh helper nodes. -/
theorem addQDNI_trace (ga : Graph) (w i : Nat) (qp : QParam)
    (hids : ∀ y ∈ allNds ga, y.nid < ga.fresh) :
    addQuantDeQuantNodesForInput ga w i qp = ga ∨
    ((∀ x ∈ allNds (addQuantDeQuantNodesForInput ga w i qp),
        (∃ y ∈ allNds ga, x = if y.nid = i then
            { y with ins := y.ins.map (subst w (ga.fresh + 3)) } else y) ∨
        (ga.fresh ≤ x.nid ∧ x.nid < ga.fresh + 8 ∧ (∀ o ∈ x.outs, ga.fresh ≤ o) ∧
          ∀ j ∈ x.ins, j = w ∨ ga.fresh ≤ j)) ∧
     (∀ y ∈ allNds ga,
        (if y.nid = i then { y with ins := y.ins.map (subst w (ga.fresh + 3)) }
         else y) ∈ allNds (addQuantDeQuantNodesForInput ga w i qp)) ∧
     (addQuantDeQuantNodesForInput ga w i qp).fresh = ga.fresh + 8) := by
  cases hfn : findNd ga i with
  | none =>
    left
    simp only [addQuantDeQuantNodesForInput, hfn]
  | some m =>
    right
    obtain ⟨hmm, hmi⟩ := findNd_mem hfn
    have hilt : i < ga.fresh := hmi ▸ hids m hmm
    have hcomp : ∀ y : Nd, y.nid ≠ ga.fresh → y.nid ≠ ga.fresh + 2 →
        (fun c => if c.nid = ga.fresh + 2 then
            { c with ins := c.ins ++ [ga.fresh + 1] } else c)
          ((fun c => if c.nid = ga.fresh then
              { c with ins := c.ins ++ [ga.fresh + 7] } else c)
            ((fun c => if c.nid = ga.fresh then
                { c with ins := c.ins ++ [ga.fresh + 5] } else c)
              ((fun c => if c.nid = ga.fresh then
                  { c with ins := c.ins ++ [w] } else c)
                ((fun c => if c.nid = i then
                    { c with ins := c.ins.map (subst w (ga.fresh + 3)) } else c) y)))) =
        (if y.nid = i then
          { y with ins := y.ins.map (subst w (ga.fresh + 3)) } else y) := by
      intro y h1 h2
      by_cases hyi : y.nid = i
      · simp only [if_pos hyi, if_neg h1, if_neg h2]
      · simp only [if_neg hyi, if_neg h1, if_neg h2]
    refine ⟨?_, ?_, fresh_addQDNI_some hfn⟩
    · intro x hx
      rw [allNds_addQDNI_some hfn, allNds_addInputG, List.mem_map] at hx
      obtain ⟨x4, hx4, hxe⟩ := hx
      rw [insertQuantNodeParams_eq, allNds_addInputG, allNds_addInputG,
        List.mem_map] at hx4
      obtain ⟨x4a, hx4a, hx4e⟩ := hx4
      rw [List.mem_map] at hx4a
      obtain ⟨xb, hxb, hxbe⟩ := hx4a
      rcases mem_allNds_insBeforeG hxb with hzb | hz
      rotate_left
      · rw [List.mem_singleton] at hz
        subst hz hxbe hx4e hxe
        refine Or.inr ⟨by simp, by simp, ?_, ?_⟩
        · intro o ho
          simp at ho
          omega
        · intro j hj
          simp at hj
      rcases mem_allNds_insBeforeG hzb with h3 | hs
      rotate_left
      · rw [List.mem_singleton] at hs
        subst hs hxbe hx4e hxe
        refine Or.inr ⟨by simp, by simp, ?_, ?_⟩
        · intro o ho
          simp at ho
          omega
        · intro j hj
          simp at hj
      rw [allNds_addInputG, List.mem_map] at h3
      obtain ⟨x2, hx2, hx2e⟩ := h3
      rw [allNds_replInputOf, List.mem_map] at hx2
      obtain ⟨x1, hx1, hx1e⟩ := hx2
      rcases mem_allNds_insBeforeG hx1 with hy | hnew
      · left
        refine ⟨x1, hy, ?_⟩
        have hlt := hids x1 hy
        subst hxe hx4e hxbe hx2e hx1e
        exact hcomp x1 (by omega) (by omega)
      · rcases List.mem_cons.mp hnew with hq | hd
        · subst hq hxe hx4e hxbe hx2e hx1e
          refine Or.inr ⟨by simp, by simp, ?_, ?_⟩
          · intro o ho
            simp at ho
            omega
          · intro j hj
            simp only [show (ga.fresh = i) = False from
              eq_false (by omega), if_false] at hj
            simp at hj
            rcases hj with hj | hj | hj
            · exact Or.inl hj
            · right; omega
            · right; omega
        · rw [List.mem_singleton] at hd
          subst hd hxe hx4e hxbe hx2e hx1e
          refine Or.inr ⟨by simp, by simp, ?_, ?_⟩
          · intro o ho
            simp at ho
            omega
          · intro j hj
            simp only [show (ga.fresh + 2 = i) = False from
              eq_false (by omega), if_false] at hj
            simp at hj
            right; omega
    · intro y hy
      have hlt := hids y hy
      rw [allNds_addQDNI_some hfn, allNds_addInputG,
        insertQuantNodeParams_eq, allNds_addInputG, allNds_addInputG]
      rw [← hcomp y (by omega) (by omega)]
      apply List.mem_map_of_mem
      apply List.mem_map_of_mem
      apply List.mem_map_of_mem
      apply mem_allNds_insBeforeG_orig
      apply mem_allNds_insBeforeG_orig
      rw [allNds_addInputG, List.mem_map]
      refine ⟨_, ?_, rfl⟩
      rw [allNds_replInputOf]
      apply List.mem_map_of_mem
      exact mem_allNds_insBeforeG_orig hy

/-! ### GraphSim preservation through the rewrite folds (claim C8) -/

theorem nodeSim_refl (vP : Nat) (x : Nd) : NodeSim vP x x :=
  ⟨rfl, rfl, rfl, rfl, fun _ => Iff.rfl⟩

theorem get_map_subst {l : List Nat} {w u vP : Nat} (hw : w ≠ vP)
    (hu : u ≠ vP) (k : Nat) :
    (l.map (subst w u)).get? k = some vP ↔ l.get? k = some vP := by
  rw [List.get?_map]
  cases h : l.get? k with
  | none => simp
  | some a =>
    simp only [Option.map_some']
    constructor
    · intro he
      have hav : subst w u a = vP := by cases he; rfl
      rw [subst] at hav
      by_cases haw : a = w
      · rw [if_pos haw] at hav
        exact absurd hav hu
      · rw [if_neg haw] at hav
        rw [hav]
    · intro he
      have hav : a = vP := by cases he; rfl
      subst hav
      rw [subst, if_neg (fun he2 => hw he2.symm)]

theorem nodeSim_map_subst {vP w u : Nat} (hw : w ≠ vP) (hu : u ≠ vP)
    {y x : Nd} (h : NodeSim vP y x) :
    NodeSim vP y { x with ins := x.ins.map (subst w u) } := by
  obtain ⟨h1, h2, h3, h4, h5⟩ := h
  refine ⟨h1, h2, h3, ?_, ?_⟩
  · show (x.ins.map (subst w u)).length = y.ins.length
    rw [List.length_map, h4]
  · intro k
    show (x.ins.map (subst w u)).get? k = some vP ↔ _
    rw [get_map_subst hw hu]
    exact h5 k

theorem nodeSim_map_subst_if {vP w u i : Nat} (hw : w ≠ vP) (hu : u ≠ vP)
    {y x : Nd} (h : NodeSim vP y x) :
    NodeSim vP y (if x.nid = i then { x with ins := x.ins.map (subst w u) }
      else x) := by
  by_cases hxi : x.nid = i
  · rw [if_pos hxi]
    exact nodeSim_map_subst hw hu h
  · rw [if_neg hxi]
    exact h

theorem graphSim_destroy {vP f0 : Nat} {R : List Nat} {g0 ga : Graph}
    (hs : GraphSim vP f0 R g0 ga) {i : Nat} (hi : i ∈ R) :
    GraphSim vP f0 R g0 (destroyG ga i) := by
  obtain ⟨h1, h2, h3, h4, h5⟩ := hs
  have hsub : ∀ x ∈ allNds (destroyG ga i), x ∈ allNds ga := by
    intro x hx
    rw [allNds_destroyG, List.mem_filter] at hx
    exact hx.1
  refine ⟨fun x hx => h1 x (hsub x hx), ?_, fun x hx => h3 x (hsub x hx),
    fun x hx => h4 x (hsub x hx), h5⟩
  intro y hy hyR
  obtain ⟨x, hx, hsim⟩ := h2 y hy hyR
  refine ⟨x, ?_, hsim⟩
  rw [allNds_destroyG, List.mem_filter]
  refine ⟨hx, ?_⟩
  have : x.nid ≠ i := by
    rw [hsim.1]
    intro he
    exact hyR (he ▸ hi)
  simpa using this

theorem graphSim_addQDN {vP f0 : Nat} {R : List Nat} {g0 ga : Graph}
    (hs : GraphSim vP f0 R g0 ga) {w : Nat} (hw : w ≠ vP) (hvP : vP < f0)
    (qp : QParam) : GraphSim vP f0 R g0 (addQuantDeQuantNodes ga w qp) := by
  obtain ⟨h1, h2, h3, h4, h5⟩ := hs
  rcases addQDN_trace ga w qp h4 with hid | ⟨hfwd, hbwd, hfr⟩
  · rw [hid]
    exact ⟨h1, h2, h3, h4, h5⟩
  have hdv : ga.fresh + 3 ≠ vP := by omega
  refine ⟨?_, ?_, ?_, ?_, by omega⟩
  · intro x hx hxlt
    rcases hfwd x hx with ⟨y, hy, he⟩ | ⟨hge, _, _, _⟩
    · subst he
      obtain ⟨y0, hy0, hsim⟩ := h1 y hy hxlt
      exact ⟨y0, hy0, nodeSim_map_subst hw hdv hsim⟩
    · omega
  · intro y hy hyR
    obtain ⟨x, hx, hsim⟩ := h2 y hy hyR
    exact ⟨_, hbwd x hx, nodeSim_map_subst hw hdv hsim⟩
  · intro x hx hxge
    rcases hfwd x hx with ⟨y, hy, he⟩ | ⟨-, -, ho, hi⟩
    · subst he
      have hyge : f0 ≤ y.nid := hxge
      obtain ⟨hyins, hyouts⟩ := h3 y hy hyge
      constructor
      · intro hmem
        rw [List.mem_map] at hmem
        obtain ⟨a, ha, hae⟩ := hmem
        rw [subst] at hae
        by_cases haw : a = w
        · rw [if_pos haw] at hae
          omega
        · rw [if_neg haw] at hae
          exact hyins (hae ▸ ha)
      · exact hyouts
    · constructor
      · intro hmem
        rcases hi vP hmem with he | he
        · exact hw he.symm
        · omega
      · intro o hoo
        have := ho o hoo
        omega
  · intro x hx
    rcases hfwd x hx with ⟨y, hy, he⟩ | ⟨-, hlt, -, -⟩
    · subst he
      have := h4 y hy
      show y.nid < (addQuantDeQuantNodes ga w qp).fresh
      omega
    · omega

theorem graphSim_addQDNI {vP f0 : Nat} {R : List Nat} {g0 ga : Graph}
    (hs : GraphSim vP f0 R g0 ga) {w i : Nat} (hw : w ≠ vP) (hvP : vP < f0)
    (qp : QParam) :
    GraphSim vP f0 R g0 (addQuantDeQuantNodesForInput ga w i qp) := by
  obtain ⟨h1, h2, h3, h4, h5⟩ := hs
  rcases addQDNI_trace ga w i qp h4 with hid | ⟨hfwd, hbwd, hfr⟩
  · rw [hid]
    exact ⟨h1, h2, h3, h4, h5⟩
  have hdv : ga.fresh + 3 ≠ vP := by omega
  refine ⟨?_, ?_, ?_, ?_, by omega⟩
  · intro x hx hxlt
    rcases hfwd x hx with ⟨y, hy, he⟩ | ⟨hge, _, _, _⟩
    · subst he
      have hylt : y.nid < f0 := by
        by_cases hyi : y.nid = i
        · rw [if_pos hyi] at hxlt
          exact hxlt
        · rw [if_neg hyi] at hxlt
          exact hxlt
      obtain ⟨y0, hy0, hsim⟩ := h1 y hy hylt
      exact ⟨y0, hy0, nodeSim_map_subst_if hw hdv hsim⟩
    · omega
  · intro y hy hyR
    obtain ⟨x, hx, hsim⟩ := h2 y hy hyR
    exact ⟨_, hbwd x hx, nodeSim_map_subst_if hw hdv hsim⟩
  · intro x hx hxge
    rcases hfwd x hx with ⟨y, hy, he⟩ | ⟨-, -, ho, hi2⟩
    · have hyge : f0 ≤ y.nid := by
        by_cases hyi : y.nid = i
        · rw [hyi, ← show x.nid = i from by rw [he, if_pos hyi]; exact hyi]
          exact hxge
        · rw [he, if_neg hyi] at hxge
          exact hxge
      obtain ⟨hyins, hyouts⟩ := h3 y hy hyge
      by_cases hyi : y.nid = i
      · rw [he, if_pos hyi]
        constructor
        · intro hmem
          rw [List.mem_map] at hmem
          obtain ⟨a, ha, hae⟩ := hmem
          rw [subst] at hae
          by_cases haw : a = w
          · rw [if_pos haw] at hae
            omega
          · rw [if_neg haw] at hae
            exact hyins (hae ▸ ha)
        · exact hyouts
      · rw [he, if_neg hyi]
        exact ⟨hyins, hyouts⟩
    · constructor
      · intro hmem
        rcases hi2 vP hmem with he2 | he2
        · exact hw he2.symm
        · omega
      · intro o hoo
        have := ho o hoo
        omega
  · intro x hx
    rcases hfwd x hx with ⟨y, hy, he⟩ | ⟨-, hlt, -, -⟩
    · have := h4 y hy
      have hxy : x.nid = y.nid := by
        by_cases hyi : y.nid = i
        · rw [he, if_pos hyi]
        · rw [he, if_neg hyi]
      show x.nid < (addQuantDeQuantNodesForInput ga w i qp).fresh
      omega
    · omega

theorem graphSim_destroyFold {vP f0 : Nat} {R : List Nat} {g0 : Graph} :
    ∀ (l : List Nat) (ga : Graph), (∀ j ∈ l, j ∈ R) →
      GraphSim vP f0 R g0 ga → GraphSim vP f0 R g0 (l.foldl destroyG ga) := by
  intro l
  induction l with
  | nil => intro ga _ hs; exact hs
  | cons j rest ih =>
    intro ga hl hs
    rw [List.foldl_cons]
    exact ih (destroyG ga j) (fun x hx => hl x (List.mem_cons_of_mem _ hx))
      (graphSim_destroy hs (hl j (List.mem_cons_self _ _)))

theorem graphSim_qOutsFold {vP f0 : Nat} {R : List Nat} {g0 : Graph}
    (qvd : List (Nat × QParam)) (hvq : List.lookup vP qvd = none)
    (hvP : vP < f0) :
    ∀ (l : List Nat) (ga : Graph), GraphSim vP f0 R g0 ga →
      GraphSim vP f0 R g0 (l.foldl (fun ga v =>
        match List.lookup v qvd with
        | some qp => addQuantDeQuantNodes ga v qp
        | none => ga) ga) := by
  intro l
  induction l with
  | nil => intro ga hs; exact hs
  | cons w rest ih =>
    intro ga hs
    rw [List.foldl_cons]
    apply ih
    cases hl : List.lookup w qvd with
    | none => simpa only [hl] using hs
    | some qp =>
      have hw : w ≠ vP := by
        intro he
        rw [he, hvq] at hl
        cases hl
      simpa only [hl] using graphSim_addQDN hs hw hvP qp

theorem graphSim_qInsFold {vP f0 : Nat} {R : List Nat} {g0 : Graph}
    (qvd : List (Nat × QParam)) (hvq : List.lookup vP qvd = none)
    (hvP : vP < f0) :
    ∀ (l : List (Nat × Nat)) (ga : Graph), GraphSim vP f0 R g0 ga →
      GraphSim vP f0 R g0 (l.foldl (fun ga e =>
        match List.lookup e.1 qvd with
        | some qp => addQuantDeQuantNodesForInput ga e.1 e.2 qp
        | none => ga) ga) := by
  intro l
  induction l with
  | nil => intro ga hs; exact hs
  | cons e rest ih =>
    intro ga hs
    rw [List.foldl_cons]
    apply ih
    cases hl : List.lookup e.1 qvd with
    | none => simpa only [hl] using hs
    | some qp =>
      have hw : e.1 ≠ vP := by
        intro he
        rw [he, hvq] at hl
        cases hl
      simpa only [hl] using graphSim_addQDNI hs hw hvP qp

/-- **C8**: uncalibrated passthrough.  A Value that was recorded as a
quantization candidate (in the output-set or the input-rewrite list)
but has no entry in the value-to-parameter map is left structurally
unchanged by the rewrite phase: the pass succeeds (no error), every
node not marked for removal survives with the same id, operator,
outputs and the same input positions referring to `v` (so `v` keeps its
producing node and all its surviving consumers), every old-id node of
the result graph arises from an original node the same way, and no
newly inserted node (in particular no Quant or Dequant node) consumes
`v`. -/
theorem c8_uncalibrated_passthrough (g : Graph) (dict : List (String × QParam))
    (hbound : idsBound g = true) (st : CState)
    (hst : collectQD g dict = some st)
    (v : Nat) (hv : v < g.fresh)
    (hcand : v ∈ st.qOuts ∨ ∃ i, (v, i) ∈ st.qIns)
    (hnc : List.lookup v st.qvd = none) :
    ∃ g', InsertQuantDequantNodes g dict = some g' ∧
      (∀ x ∈ allNds g', x.nid < g.fresh → ∃ y ∈ allNds g, NodeSim v y x) ∧
      (∀ y ∈ allNds g, y.nid ∉ st.toRemove → ∃ x ∈ allNds g', NodeSim v y x) ∧
      (∀ x ∈ allNds g', g.fresh ≤ x.nid → v ∉ x.ins) := by
  have hdef : InsertQuantDequantNodes g dict = some
      (st.qIns.foldl (fun ga e =>
        match List.lookup e.1 st.qvd with
        | some qp => addQuantDeQuantNodesForInput ga e.1 e.2 qp
        | none => ga)
      (st.qOuts.foldl (fun ga w =>
        match List.lookup w st.qvd with
        | some qp => addQuantDeQuantNodes ga w qp
        | none => ga)
      (st.toRemove.foldl destroyG g))) := by
    simp only [InsertQuantDequantNodes, hst, Option.bind_eq_bind, Option.some_bind]
  have hids0 : ∀ x ∈ allNds g, x.nid < g.fresh :=
    fun x hx => ((idsBound_spec hbound).2.2.1 x hx).1
  have hbase : GraphSim v g.fresh st.toRemove g g :=
    ⟨fun x hx _ => ⟨x, hx, nodeSim_refl v x⟩,
     fun y hy _ => ⟨y, hy, nodeSim_refl v y⟩,
     fun x hx hge => absurd (hids0 x hx) (by omega),
     hids0, le_refl g.fresh⟩
  have hsim := graphSim_qInsFold st.qvd hnc hv st.qIns _
    (graphSim_qOutsFold st.qvd hnc hv st.qOuts _
      (graphSim_destroyFold st.toRemove g (fun j hj => hj) hbase))
  obtain ⟨s1, s2, s3, s4, s5⟩ := hsim
  exact ⟨_, hdef, s1, s2, fun x hx hge => (s3 x hx hge).1⟩

/-- Witness for C8: the C1 graph with an empty calibration dictionary:
value 2 is collected into the output-set but has no parameter entry. -/
theorem c8_uncalibrated_passthrough_witness :
    (idsBound gC1 = true ∧
     collectQD gC1 [] = some ⟨[(0, 1)], [2, 2], [2], [], []⟩ ∧
     2 < gC1.fresh ∧
     (2 ∈ (⟨[(0, 1)], [2, 2], [2], [], []⟩ : CState).qOuts ∨
       ∃ i, (2, i) ∈ (⟨[(0, 1)], [2, 2], [2], [], []⟩ : CState).qIns) ∧
     List.lookup 2 (⟨[(0, 1)], [2, 2], [2], [], []⟩ : CState).qvd = none) ∧
    ∃ g', InsertQuantDequantNodes gC1 [] = some g' ∧
      (∀ x ∈ allNds g', x.nid < gC1.fresh → ∃ y ∈ allNds gC1, NodeSim 2 y x) ∧
      (∀ y ∈ allNds gC1,
        y.nid ∉ (⟨[(0, 1)], [2, 2], [2], [], []⟩ : CState).toRemove →
        ∃ x ∈ allNds g', NodeSim 2 y x) ∧
      (∀ x ∈ allNds g', gC1.fresh ≤ x.nid → 2 ∉ x.ins) :=
  ⟨⟨by decide, by decide, by decide, Or.inl (by decide), by decide⟩,
   c8_uncalibrated_passthrough gC1 [] (by decide) ⟨[(0, 1)], [2, 2], [2], [], []⟩
     (by decide) 2 (by decide) (Or.inl (by decide)) (by decide)⟩

/-! ### The calibration-dict bind step (claim C3) -/

theorem scanVal_frame (g : Graph) (n : Nd) (st : CState) (v : Nat) :
    (scanVal g n st v).qvd = st.qvd ∧
    (scanVal g n st v).toRemove = st.toRemove := by
  rw [scanVal]
  split
  · exact ⟨rfl, rfl⟩
  · split
    · split
      · exact ⟨rfl, rfl⟩
      · exact ⟨rfl, rfl⟩
    · split
      · exact ⟨rfl, rfl⟩
      · exact ⟨rfl, rfl⟩

theorem scanNode_frame (g : Graph) (st : CState) (n : Nd) :
    (scanNode g st n).qvd = st.qvd ∧
    (scanNode g st n).toRemove = st.toRemove := by
  rw [scanNode]
  generalize n.ins = l
  induction l generalizing st with
  | nil => exact ⟨rfl, rfl⟩
  | cons a t ih =>
    rw [List.foldl_cons]
    obtain ⟨hq, hr⟩ := ih (scanVal g n st a)
    obtain ⟨hq2, hr2⟩ := scanVal_frame g n st a
    exact ⟨hq.trans hq2, hr.trans hr2⟩

theorem nodeStep_mono {g : Graph} {dict : List (String × QParam)}
    {st : CState} {n : Nd} {st' : CState}
    (h : nodeStep g dict st n = some st') :
    (∀ x qp0, List.lookup x st.qvd = some qp0 →
      List.lookup x st'.qvd = some qp0) ∧
    (∀ j ∈ st.toRemove, j ∈ st'.toRemove) := by
  rw [nodeStep] at h
  split at h
  · split at h
    · cases h
    · split at h
      · cases h
      · split at h
        · split at h
          · split at h
            · cases h
            · split at h
              · cases h
                obtain ⟨hq, hr⟩ := scanNode_frame g st n
                exact ⟨fun x qp0 hx => by rw [hq]; exact hx,
                  fun j hj => by rw [hr]; exact hj⟩
              · cases h
                refine ⟨?_, ?_⟩
                · intro x qp0 hx
                  show List.lookup x (if (List.lookup _ st.qvd).isSome
                    then st.qvd else st.qvd ++ _) = some qp0
                  split
                  · exact hx
                  · exact lookup_append_some hx
                · intro j hj
                  exact List.mem_append_left _ hj
          · cases h
        · cases h
  · cases h
    obtain ⟨hq, hr⟩ := scanNode_frame g st n
    exact ⟨fun x qp0 hx => by rw [hq]; exact hx,
      fun j hj => by rw [hr]; exact hj⟩

theorem nodeFoldM_mono {g : Graph} {dict : List (String × QParam)} :
    ∀ {l : List Nd} {st0 st1 : CState},
      l.foldlM (nodeStep g dict) st0 = some st1 →
      (∀ x qp0, List.lookup x st0.qvd = some qp0 →
        List.lookup x st1.qvd = some qp0) ∧
      (∀ j ∈ st0.toRemove, j ∈ st1.toRemove) := by
  intro l
  induction l with
  | nil =>
    intro st0 st1 h
    cases h
    exact ⟨fun _ _ hx => hx, fun _ hj => hj⟩
  | cons n rest ih =>
    intro st0 st1 h
    rw [List.foldlM_cons] at h
    cases hstep : nodeStep g dict st0 n with
    | none =>
      rw [hstep] at h
      simp only [Option.bind_eq_bind, Option.none_bind] at h
      cases h
    | some s1 =>
      rw [hstep] at h
      simp only [Option.bind_eq_bind, Option.some_bind] at h
      obtain ⟨m1, m2⟩ := nodeStep_mono hstep
      obtain ⟨r1, r2⟩ := ih h
      exact ⟨fun x qp0 hx => r1 x qp0 (m1 x qp0 hx),
        fun j hj => r2 j (m2 j hj)⟩

theorem nodeStep_keeps_none {g : Graph} {dict : List (String × QParam)}
    {st : CState} {n : Nd} {st' : CState} {v : Nat}
    (h : nodeStep g dict st n = some st')
    (hnotv : ¬ (n.op = "prim::PythonOp" ∧ n.ins.get? 0 = some v))
    (hnone : List.lookup v st.qvd = none) :
    List.lookup v st'.qvd = none := by
  by_cases hop : n.op = "prim::PythonOp"
  · rw [nodeStep, if_pos hop] at h
    cases hg1 : n.ins.get? 1 with
    | none => simp only [hg1] at h; exact Option.noConfusion h
    | some i1 =>
      simp only [hg1] at h
      cases hg2 : findProducer g i1 with
      | none => simp only [hg2] at h; exact Option.noConfusion h
      | some cn2 =>
        simp only [hg2] at h
        by_cases hcno : cn2.op = "prim::Constant"
        · rw [if_pos hcno] at h
          cases hcv2 : cn2.cval with
          | vstr s0 =>
            simp only [hcv2] at h
            cases hg0 : n.ins.get? 0 with
            | none => simp only [hg0] at h; exact Option.noConfusion h
            | some v0 =>
              simp only [hg0] at h
              cases hls : List.lookup s0 dict with
              | none =>
                simp only [hls] at h
                cases h
                rw [(scanNode_frame g st n).1]
                exact hnone
              | some qp0 =>
                simp only [hls] at h
                cases h
                have hv0 : v0 ≠ v := fun he => hnotv ⟨hop, he ▸ hg0⟩
                show List.lookup v (if (List.lookup v0 st.qvd).isSome
                  then st.qvd else st.qvd ++ [(v0, qp0)]) = none
                split
                · exact hnone
                · rw [lookup_append_left hnone, List.lookup,
                    show (v == v0) = false from beq_eq_false_iff_ne.mpr
                      (fun he => hv0 he.symm)]
                  rfl
          | vflt q => simp only [hcv2] at h; exact Option.noConfusion h
          | vint z => simp only [hcv2] at h; exact Option.noConfusion h
          | vnone => simp only [hcv2] at h; exact Option.noConfusion h
        · rw [if_neg hcno] at h
          cases h
  · rw [nodeStep, if_neg hop] at h
    cases h
    rw [(scanNode_frame g st n).1]
    exact hnone

theorem nodeStep_obs {g : Graph} {dict : List (String × QParam)}
    {st : CState} {obs cn : Nd} {v cV : Nat} {s : String} {qp : QParam}
    (hop : obs.op = "prim::PythonOp") (h0 : obs.ins.get? 0 = some v)
    (h1 : obs.ins.get? 1 = some cV) (hfp : findProducer g cV = some cn)
    (hcn : cn.op = "prim::Constant") (hcv : cn.cval = CVal.vstr s)
    (hsd : List.lookup s dict = some qp)
    (hnone : List.lookup v st.qvd = none) :
    nodeStep g dict st obs = some
      { st with toRemove := st.toRemove ++ [obs.nid, cn.nid],
                qvd := st.qvd ++ [(v, qp)] } := by
  rw [nodeStep, if_pos hop]
  simp only [h1, hfp, if_pos hcn, hcv, h0, hsd, hnone, Option.isSome_none,
    Bool.false_eq_true, if_false]

/-- The whole node loop binds the observed value to its dictionary
entry and marks the observer and its constant for removal, regardless
of where the observer sits in the block. -/
theorem nodeFold_bind {g : Graph} {dict : List (String × QParam)}
    {obs cn : Nd} {v cV : Nat} {s : String} {qp : QParam}
    (hop : obs.op = "prim::PythonOp") (h0 : obs.ins.get? 0 = some v)
    (h1 : obs.ins.get? 1 = some cV) (hfp : findProducer g cV = some cn)
    (hcn : cn.op = "prim::Constant") (hcv : cn.cval = CVal.vstr s)
    (hsd : List.lookup s dict = some qp) :
    ∀ (l : List Nd) (st0 st1 : CState),
      l.foldlM (nodeStep g dict) st0 = some st1 →
      obs ∈ l →
      (∀ m ∈ l, m.op = "prim::PythonOp" → m.ins.get? 0 = some v → m = obs) →
      List.lookup v st0.qvd = none →
      List.lookup v st1.qvd = some qp ∧
      obs.nid ∈ st1.toRemove ∧ cn.nid ∈ st1.toRemove := by
  intro l
  induction l with
  | nil => intro st0 st1 _ hmem; cases hmem
  | cons m rest ih =>
    intro st0 st1 h hmem huniq hnone
    rw [List.foldlM_cons] at h
    by_cases hm : m = obs
    · subst hm
      rw [nodeStep_obs hop h0 h1 hfp hcn hcv hsd hnone] at h
      simp only [Option.bind_eq_bind, Option.some_bind] at h
      obtain ⟨m1, m2⟩ := nodeFoldM_mono h
      refine ⟨m1 v qp ?_, m2 _ ?_, m2 _ ?_⟩
      · show List.lookup v (st0.qvd ++ [(v, qp)]) = some qp
        rw [lookup_append_left hnone]
        exact lookup_singleton_self v qp
      · show m.nid ∈ st0.toRemove ++ [m.nid, cn.nid]
        exact List.mem_append_right _ (List.mem_cons_self _ _)
      · show cn.nid ∈ st0.toRemove ++ [m.nid, cn.nid]
        exact List.mem_append_right _
          (List.mem_cons_of_mem _ (List.mem_singleton.mpr rfl))
    · cases hstep : nodeStep g dict st0 m with
      | none =>
        rw [hstep] at h
        simp only [Option.bind_eq_bind, Option.none_bind] at h
        cases h
      | some s1 =>
        rw [hstep] at h
        simp only [Option.bind_eq_bind, Option.some_bind] at h
        have hobs2 : obs ∈ rest := by
          rcases List.mem_cons.mp hmem with he | hr
          · exact absurd he.symm hm
          · exact hr
        have hnotv : ¬ (m.op = "prim::PythonOp" ∧ m.ins.get? 0 = some v) := by
          rintro ⟨ho, hv0⟩
          exact hm (huniq m (List.mem_cons_self _ _) ho hv0)
        exact ih s1 st1 h hobs2
          (fun x hx => huniq x (List.mem_cons_of_mem _ hx))
          (nodeStep_keeps_none hstep hnotv hnone)

theorem boutsFold_frame (g : Graph) :
    ∀ (l : List Nat) (st : CState),
      ((l.foldl (fun st v =>
        if producerQuantizable g v && tensorOf g v then
          { st with qOuts := st.qOuts ++ [v] }
        else st) st).qvd = st.qvd ∧
      (l.foldl (fun st v =>
        if producerQuantizable g v && tensorOf g v then
          { st with qOuts := st.qOuts ++ [v] }
        else st) st).toRemove = st.toRemove) := by
  intro l
  induction l with
  | nil => intro st; exact ⟨rfl, rfl⟩
  | cons a t ih =>
    intro st
    rw [List.foldl_cons]
    obtain ⟨hq, hr⟩ := ih (if producerQuantizable g a && tensorOf g a then
      { st with qOuts := st.qOuts ++ [a] } else st)
    constructor
    · rw [hq]
      split <;> rfl
    · rw [hr]
      split <;> rfl

theorem traverseIds_flat (g : Graph) (rb : Blk) (sel : Nd → Bool)
    (hflat : g.blks = [(g.rootB, rb)])
    (hsubs : ∀ n ∈ rb.nodes, n.subs = []) :
    traverseIds sel g = [g.rootB] := by
  have hpush : pushRefs sel rb = [] := by
    rw [pushRefs]
    have : ((rb.nodes.filter sel).map Nd.subs).flatten = [] := by
      rw [List.flatten_eq_nil_iff]
      intro l hl
      obtain ⟨n, hn, he⟩ := List.mem_map.mp hl
      rw [← he]
      exact hsubs n (List.mem_of_mem_filter hn)
    rw [this]
    rfl
  have hlen : g.blks.length = 1 := by rw [hflat]; rfl
  have htot : totalRefs g = 0 := by
    rw [totalRefs]
    apply List.sum_eq_zero
    intro x hx
    obtain ⟨n, hn, he⟩ := List.mem_map.mp hx
    rw [allNds, hflat] at hn
    simp only [List.map_cons, List.map_nil, List.flatten_cons,
      List.flatten_nil, List.append_nil] at hn
    rw [← he, hsubs n hn]
    rfl
  rw [traverseIds, hlen, htot]
  show travGo g sel (2 + 1) [g.rootB] = [g.rootB]
  rw [travGo, hflat, lookup_singleton_self]
  show g.rootB :: travGo g sel (1 + 1) (pushRefs sel rb ++ []) = [g.rootB]
  rw [hpush]
  show g.rootB :: travGo g sel (1 + 1) [] = [g.rootB]
  rw [travGo]

theorem collectQD_flat (g : Graph) (rb : Blk)
    (dict : List (String × QParam))
    (hflat : g.blks = [(g.rootB, rb)])
    (hsubs : ∀ n ∈ rb.nodes, n.subs = []) :
    collectQD g dict = blockCollect g dict initCState rb := by
  rw [collectQD, traverseBlks, traverseIds_flat g rb qdSel hflat hsubs,
    List.filterMap_cons, hflat, lookup_singleton_self]
  show List.foldlM (blockCollect g dict) initCState
    (rb :: List.filterMap (fun i => List.lookup i [(g.rootB, rb)]) []) = _
  rw [List.filterMap_nil, List.foldlM_cons]
  cases hb : blockCollect g dict initCState rb with
  | none => rfl
  | some st => rfl

theorem destroyFold_subset :
    ∀ (l : List Nat) (ga : Graph),
      (∀ x ∈ allNds (l.foldl destroyG ga), x ∈ allNds ga) ∧
      (l.foldl destroyG ga).fresh = ga.fresh := by
  intro l
  induction l with
  | nil => intro ga; exact ⟨fun x hx => hx, rfl⟩
  | cons a t ih =>
    intro ga
    rw [List.foldl_cons]
    obtain ⟨hsub, hfr⟩ := ih (destroyG ga a)
    refine ⟨?_, hfr⟩
    intro x hx
    have := hsub x hx
    rw [allNds_destroyG, List.mem_filter] at this
    exact this.1

theorem destroyFold_removes :
    ∀ (l : List Nat) (ga : Graph) (j : Nat), j ∈ l →
      ∀ x ∈ allNds (l.foldl destroyG ga), x.nid ≠ j := by
  intro l
  induction l with
  | nil => intro ga j hj; cases hj
  | cons a t ih =>
    intro ga j hj x hx
    rw [List.foldl_cons] at hx
    rcases List.mem_cons.mp hj with he | hm
    · subst he
      have := (destroyFold_subset t (destroyG ga j)).1 x hx
      rw [allNds_destroyG, List.mem_filter] at this
      simpa using this.2
    · exact ih (destroyG ga a) j hm x hx

theorem noNid_qOutsFold (qvd : List (Nat × QParam)) (d : Nat) :
    ∀ (l : List Nat) (ga : Graph),
      (∀ x ∈ allNds ga, x.nid < ga.fresh) → d < ga.fresh →
      (∀ x ∈ allNds ga, x.nid ≠ d) →
      ((∀ x ∈ allNds (l.foldl (fun ga w =>
          match List.lookup w qvd with
          | some qp => addQuantDeQuantNodes ga w qp
          | none => ga) ga), x.nid < (l.foldl (fun ga w =>
          match List.lookup w qvd with
          | some qp => addQuantDeQuantNodes ga w qp
          | none => ga) ga).fresh) ∧
       d < (l.foldl (fun ga w =>
          match List.lookup w qvd with
          | some qp => addQuantDeQuantNodes ga w qp
          | none => ga) ga).fresh ∧
       (∀ x ∈ allNds (l.foldl (fun ga w =>
          match List.lookup w qvd with
          | some qp => addQuantDeQuantNodes ga w qp
          | none => ga) ga), x.nid ≠ d)) := by
  intro l
  induction l with
  | nil => intro ga h1 h2 h3; exact ⟨h1, h2, h3⟩
  | cons w rest ih =>
    intro ga h1 h2 h3
    rw [List.foldl_cons]
    cases hl : List.lookup w qvd with
    | none => simpa only [hl] using ih ga h1 h2 h3
    | some qp =>
      simp only [hl]
      rcases addQDN_trace ga w qp h1 with hid | ⟨hfwd, -, hfr⟩
      · rw [hid]
        exact ih ga h1 h2 h3
      apply ih
      · intro x hx
        rw [hfr]
        rcases hfwd x hx with ⟨y, hy, he⟩ | ⟨-, hlt, -, -⟩
        · subst he
          have := h1 y hy
          show y.nid < ga.fresh + 8
          omega
        · omega
      · rw [hfr]
        omega
      · intro x hx
        rcases hfwd x hx with ⟨y, hy, he⟩ | ⟨hge, -, -, -⟩
        · subst he
          exact h3 y hy
        · omega

theorem noNid_qInsFold (qvd : List (Nat × QParam)) (d : Nat) :
    ∀ (l : List (Nat × Nat)) (ga : Graph),
      (∀ x ∈ allNds ga, x.nid < ga.fresh) → d < ga.fresh →
      (∀ x ∈ allNds ga, x.nid ≠ d) →
      ((∀ x ∈ allNds (l.foldl (fun ga e =>
          match List.lookup e.1 qvd with
          | some qp => addQuantDeQuantNodesForInput ga e.1 e.2 qp
          | none => ga) ga), x.nid < (l.foldl (fun ga e =>
          match List.lookup e.1 qvd with
          | some qp => addQuantDeQuantNodesForInput ga e.1 e.2 qp
          | none => ga) ga).fresh) ∧
       d < (l.foldl (fun ga e =>
          match List.lookup e.1 qvd with
          | some qp => addQuantDeQuantNodesForInput ga e.1 e.2 qp
          | none => ga) ga).fresh ∧
       (∀ x ∈ allNds (l.foldl (fun ga e =>
          match List.lookup e.1 qvd with
          | some qp => addQuantDeQuantNodesForInput ga e.1 e.2 qp
          | none => ga) ga), x.nid ≠ d)) := by
  intro l
  induction l with
  | nil => intro ga h1 h2 h3; exact ⟨h1, h2, h3⟩
  | cons e rest ih =>
    intro ga h1 h2 h3
    rw [List.foldl_cons]
    cases hl : List.lookup e.1 qvd with
    | none => simpa only [hl] using ih ga h1 h2 h3
    | some qp =>
      simp only [hl]
      rcases addQDNI_trace ga e.1 e.2 qp h1 with hid | ⟨hfwd, -, hfr⟩
      · rw [hid]
        exact ih ga h1 h2 h3
      apply ih
      · intro x hx
        rw [hfr]
        rcases hfwd x hx with ⟨y, hy, he⟩ | ⟨-, hlt, -, -⟩
        · have := h1 y hy
          have hxy : x.nid = y.nid := by
            by_cases hyi : y.nid = e.2
            · rw [he, if_pos hyi]
            · rw [he, if_neg hyi]
          omega
        · omega
      · rw [hfr]
        omega
      · intro x hx
        rcases hfwd x hx with ⟨y, hy, he⟩ | ⟨hge, -, -, -⟩
        · have hxy : x.nid = y.nid := by
            by_cases hyi : y.nid = e.2
            · rw [he, if_pos hyi]
            · rw [he, if_neg hyi]
          rw [hxy]
          exact h3 y hy
        · omega

/-- **C3**: calibration-dict round trip.  In a flat graph containing an
observer (`prim::PythonOp`) whose name-constant input holds a key of
the calibration dictionary, after the bind step of
`InsertQuantDequantNodes` the value-to-parameter map maps the observed
value (the observer's first input) to that dictionary triple, the
observer and its name-constant node are marked for removal, the pass
applies the destruction fold to the untouched graph only after the full
collect traversal has produced its final state (the displayed fold
factorisation), and both nodes are absent from the result graph. -/
theorem c3_calibration_bind_round_trip (g : Graph) (rb : Blk)
    (dict : List (String × QParam)) (st : CState)
    (hflat : g.blks = [(g.rootB, rb)])
    (hsubs : ∀ n ∈ rb.nodes, n.subs = [])
    (hbound : idsBound g = true)
    (hst : collectQD g dict = some st)
    (obs cn : Nd) (v cV : Nat) (s : String) (qp : QParam)
    (hobs : obs ∈ rb.nodes)
    (hop : obs.op = "prim::PythonOp")
    (h0 : obs.ins.get? 0 = some v)
    (h1 : obs.ins.get? 1 = some cV)
    (hfp : findProducer g cV = some cn)
    (hcn : cn.op = "prim::Constant")
    (hcv : cn.cval = CVal.vstr s)
    (hsd : List.lookup s dict = some qp)
    (huniq : ∀ m ∈ rb.nodes, m.op = "prim::PythonOp" →
      m.ins.get? 0 = some v → m = obs) :
    List.lookup v (paramMap g dict) = some qp ∧
    obs.nid ∈ st.toRemove ∧ cn.nid ∈ st.toRemove ∧
    InsertQuantDequantNodes g dict = some
      (st.qIns.foldl (fun ga e =>
        match List.lookup e.1 st.qvd with
        | some qp0 => addQuantDeQuantNodesForInput ga e.1 e.2 qp0
        | none => ga)
      (st.qOuts.foldl (fun ga w =>
        match List.lookup w st.qvd with
        | some qp0 => addQuantDeQuantNodes ga w qp0
        | none => ga)
      (st.toRemove.foldl destroyG g))) ∧
    ∃ g', InsertQuantDequantNodes g dict = some g' ∧
      ∀ x ∈ allNds g', x.nid ≠ obs.nid ∧ x.nid ≠ cn.nid := by
  have hco := collectQD_flat g rb dict hflat hsubs
  have hst2 : blockCollect g dict initCState rb = some st := hco ▸ hst
  rw [blockCollect] at hst2
  cases hf : rb.nodes.foldlM (nodeStep g dict) initCState with
  | none =>
    rw [hf] at hst2
    simp only [Option.bind_eq_bind, Option.none_bind] at hst2
    exact Option.noConfusion hst2
  | some st1 =>
    rw [hf] at hst2
    simp only [Option.bind_eq_bind, Option.some_bind] at hst2
    obtain ⟨hb1, hb2, hb3⟩ := nodeFold_bind hop h0 h1 hfp hcn hcv hsd
      rb.nodes initCState st1 hf hobs huniq rfl
    obtain ⟨hfq, hfr⟩ := boutsFold_frame g rb.bouts st1
    have hse := Option.some.inj hst2
    have hstq : st.qvd = st1.qvd := by rw [← hse]; exact hfq
    have hstr : st.toRemove = st1.toRemove := by rw [← hse]; exact hfr
    have hdef : InsertQuantDequantNodes g dict = some
        (st.qIns.foldl (fun ga e =>
          match List.lookup e.1 st.qvd with
          | some qp0 => addQuantDeQuantNodesForInput ga e.1 e.2 qp0
          | none => ga)
        (st.qOuts.foldl (fun ga w =>
          match List.lookup w st.qvd with
          | some qp0 => addQuantDeQuantNodes ga w qp0
          | none => ga)
        (st.toRemove.foldl destroyG g))) := by
      simp only [InsertQuantDequantNodes, hst, Option.bind_eq_bind,
        Option.some_bind]
    have hids0 : ∀ x ∈ allNds g, x.nid < g.fresh :=
      fun x hx => ((idsBound_spec hbound).2.2.1 x hx).1
    have hobsg : obs ∈ allNds g :=
      mem_allNds_of_entry (by rw [hflat]; exact List.mem_singleton.mpr rfl) hobs
    have hcng : cn ∈ allNds g := (findProducer_mem hfp).1
    have hobslt : obs.nid < g.fresh := hids0 obs hobsg
    have hcnlt : cn.nid < g.fresh := hids0 cn hcng
    obtain ⟨hDsub, hDfr⟩ := destroyFold_subset st.toRemove g
    have hDids : ∀ x ∈ allNds (st.toRemove.foldl destroyG g),
        x.nid < (st.toRemove.foldl destroyG g).fresh := by
      intro x hx
      rw [hDfr]
      exact hids0 x (hDsub x hx)
    have hDobs := destroyFold_removes st.toRemove g obs.nid
      (by rw [hstr]; exact hb2)
    have hDcn := destroyFold_removes st.toRemove g cn.nid
      (by rw [hstr]; exact hb3)
    obtain ⟨o1, o2, o3⟩ := noNid_qOutsFold st.qvd obs.nid st.qOuts
      (st.toRemove.foldl destroyG g) hDids (by rw [hDfr]; exact hobslt) hDobs
    obtain ⟨-, -, o6⟩ := noNid_qInsFold st.qvd obs.nid st.qIns _ o1 o2 o3
    obtain ⟨c1, c2, c3⟩ := noNid_qOutsFold st.qvd cn.nid st.qOuts
      (st.toRemove.foldl destroyG g) hDids (by rw [hDfr]; exact hcnlt) hDcn
    obtain ⟨-, -, c6⟩ := noNid_qInsFold st.qvd cn.nid st.qIns _ c1 c2 c3
    refine ⟨?_, by rw [hstr]; exact hb2, by rw [hstr]; exact hb3, hdef,
      ⟨_, hdef, fun x hx => ⟨o6 x hx, c6 x hx⟩⟩⟩
    rw [paramMap, hst]
    show st.qvd.lookup v = some qp
    rw [hstq]
    exact hb1

/-- Witness for C3: the C1 graph, whose observer node 5 is named by
the constant node 3 holding the key `"v"` of `dC1`. -/
theorem c3_calibration_bind_round_trip_witness :
    (idsBound gC1 = true ∧
     collectQD gC1 dC1 =
       some ⟨[(0, 1)], [2, 2], [2], [5, 3], [(2, ⟨"t", 1, 0⟩)]⟩) ∧
    (List.lookup 2 (paramMap gC1 dC1) = some ⟨"t", 1, 0⟩ ∧
     (5 : Nat) ∈ (⟨[(0, 1)], [2, 2], [2], [5, 3],
       [(2, ⟨"t", 1, 0⟩)]⟩ : CState).toRemove ∧
     (3 : Nat) ∈ (⟨[(0, 1)], [2, 2], [2], [5, 3],
       [(2, ⟨"t", 1, 0⟩)]⟩ : CState).toRemove ∧
     InsertQuantDequantNodes gC1 dC1 = some
       ((⟨[(0, 1)], [2, 2], [2], [5, 3],
          [(2, ⟨"t", 1, 0⟩)]⟩ : CState).qIns.foldl (fun ga e =>
         match List.lookup e.1 (⟨[(0, 1)], [2, 2], [2], [5, 3],
           [(2, ⟨"t", 1, 0⟩)]⟩ : CState).qvd with
         | some qp0 => addQuantDeQuantNodesForInput ga e.1 e.2 qp0
         | none => ga)
       ((⟨[(0, 1)], [2, 2], [2], [5, 3],
          [(2, ⟨"t", 1, 0⟩)]⟩ : CState).qOuts.foldl (fun ga w =>
         match List.lookup w (⟨[(0, 1)], [2, 2], [2], [5, 3],
           [(2, ⟨"t", 1, 0⟩)]⟩ : CState).qvd with
         | some qp0 => addQuantDeQuantNodes ga w qp0
         | none => ga)
       ((⟨[(0, 1)], [2, 2], [2], [5, 3],
          [(2, ⟨"t", 1, 0⟩)]⟩ : CState).toRemove.foldl destroyG gC1))) ∧
     ∃ g', InsertQuantDequantNodes gC1 dC1 = some g' ∧
       ∀ x ∈ allNds g',
         x.nid ≠ (⟨5, "prim::PythonOp", [2, 4], [6], .vnone, []⟩ : Nd).nid ∧
         x.nid ≠ (⟨3, "prim::Constant", [], [4], .vstr "v", []⟩ : Nd).nid) :=
  ⟨⟨by decide, by decide⟩,
   c3_calibration_bind_round_trip gC1
     ⟨[⟨1, reluSig, [0], [2], .vnone, []⟩,
       ⟨3, "prim::Constant", [], [4], .vstr "v", []⟩,
       ⟨5, "prim::PythonOp", [2, 4], [6], .vnone, []⟩,
       ⟨7, reluSig, [2], [8], .vnone, []⟩], [2]⟩
     dC1 ⟨[(0, 1)], [2, 2], [2], [5, 3], [(2, ⟨"t", 1, 0⟩)]⟩
     (by decide) (by decide) (by decide) (by decide)
     ⟨5, "prim::PythonOp", [2, 4], [6], .vnone, []⟩
     ⟨3, "prim::Constant", [], [4], .vstr "v", []⟩
     2 4 "v" ⟨"t", 1, 0⟩
     (by decide) (by decide) (by decide) (by decide) (by decide)
     (by decide) (by decide) (by decide) (by decide)⟩

/-! ### Per-edge quant/dequant insertion (claim C2, amended) -/

theorem rootNodes_subset_allNds {g : Graph} {x : Nd}
    (h : x ∈ rootNodes g) : x ∈ allNds g := by
  rw [rootNodes] at h
  cases hl : List.lookup g.rootB g.blks with
  | none =>
    rw [hl] at h
    cases h
  | some rb =>
    rw [hl] at h
    exact mem_allNds_of_entry (lookup_mem_pairs hl) h

theorem rootNodes_nodesMap (Fn : Nd → Nd) (g : Graph) :
    rootNodes (onBlks (fun b => (⟨b.nodes.map Fn, b.bouts⟩ : Blk)) g) =
      (rootNodes g).map Fn := by
  rw [rootNodes, rootNodes]
  show (Option.map Blk.nodes (List.lookup g.rootB (g.blks.map (fun ib =>
    (ib.1, (⟨List.map Fn ib.2.nodes, ib.2.bouts⟩ : Blk))))) |>.getD []) = _
  rw [lookup_onBlksF (List.map Fn)]
  cases List.lookup g.rootB g.blks with
  | none => rfl
  | some b => rfl

theorem map_fix {l : List Nd} {Fn : Nd → Nd}
    (h : ∀ x ∈ l, Fn x = x) : l.map Fn = l := by
  rw [List.map_congr_left h]
  exact List.map_id l

theorem rootNodes_addInputG (g : Graph) (i v : Nat) :
    rootNodes (addInputG g i v) = (rootNodes g).map (fun m =>
      if m.nid = i then { m with ins := m.ins ++ [v] } else m) :=
  rootNodes_nodesMap _ g

theorem rootNodes_replInputOf (g : Graph) (i w w' : Nat) :
    rootNodes (replInputOf g i w w') = (rootNodes g).map (fun m =>
      if m.nid = i then { m with ins := m.ins.map (subst w w') } else m) :=
  rootNodes_nodesMap _ g

theorem rootNodes_addQDNI_some {ga : Graph} {w i : Nat} {qp : QParam} {m : Nd}
    (hfn : findNd ga i = some m) :
    rootNodes (addQuantDeQuantNodesForInput ga w i qp) =
      rootNodes (addInputG (insertQuantNodeParams (addInputG (replInputOf
        (insBeforeG ga i
          [⟨ga.fresh, "aten::quantize_linear", [], [ga.fresh + 1], .vnone, []⟩,
           ⟨ga.fresh + 2, "aten::dequantize", [], [ga.fresh + 3], .vnone, []⟩])
        i w (ga.fresh + 3)) ga.fresh w) ga.fresh (ga.fresh + 4) (ga.fresh + 5)
        (ga.fresh + 6) (ga.fresh + 7) qp) (ga.fresh + 2) (ga.fresh + 1)) := by
  simp only [addQuantDeQuantNodesForInput, hfn]
  rfl

/-- **C2** (amended): per-edge insertion for a consumer listed at a
known position of the root block.  Exactly one quant/dequant pair (with
its two parameter constants) is inserted for the edge `(v, n)` — the
dequant directly before `n`, the quant directly before the dequant —
and only `n`'s inputs are rewritten: every occurrence of `v` among
`n`'s inputs is redirected to the dequant output and every other input
of `n` is untouched; the surrounding nodes (`pre` and `post`, in
particular every other consumer of `v`) are left exactly as they were,
still consuming the original `v`. -/
theorem c2_per_edge_quadruple (g : Graph) (v i : Nat) (qp : QParam)
    (n : Nd) (pre post : List Nd)
    (hbound : idsBound g = true)
    (hfn : findNd g i = some n)
    (hroot : rootNodes g = pre ++ n :: post)
    (hni : n.nid = i)
    (hpre : i ∉ pre.map Nd.nid) (hpost : i ∉ post.map Nd.nid)
    (hv : v < g.fresh) :
    rootNodes (addQuantDeQuantNodesForInput g v i qp) =
      pre ++
        (⟨g.fresh + 4, "prim::Constant", [], [g.fresh + 5],
          .vflt qp.scale, []⟩ : Nd) ::
        (⟨g.fresh + 6, "prim::Constant", [], [g.fresh + 7],
          .vint qp.zp, []⟩ : Nd) ::
        (⟨g.fresh, "aten::quantize_linear", [v, g.fresh + 5, g.fresh + 7],
          [g.fresh + 1], .vnone, []⟩ : Nd) ::
        (⟨g.fresh + 2, "aten::dequantize", [g.fresh + 1], [g.fresh + 3],
          .vnone, []⟩ : Nd) ::
        { n with ins := n.ins.map (subst v (g.fresh + 3)) } :: post ∧
    (∀ k, n.ins.get? k = some v →
      (n.ins.map (subst v (g.fresh + 3))).get? k = some (g.fresh + 3)) ∧
    (∀ k u, n.ins.get? k = some u → u ≠ v →
      (n.ins.map (subst v (g.fresh + 3))).get? k = some u) := by
  have hall : ∀ x ∈ rootNodes g, x.nid < g.fresh :=
    fun x hx => ((idsBound_spec hbound).2.2.1 x (rootNodes_subset_allNds hx)).1
  have hpre_lt : ∀ x ∈ pre, x.nid < g.fresh :=
    fun x hx => hall x (by rw [hroot]; exact List.mem_append_left _ hx)
  have hpost_lt : ∀ x ∈ post, x.nid < g.fresh :=
    fun x hx => hall x (by
      rw [hroot]
      exact List.mem_append_right pre (List.mem_cons_of_mem _ hx))
  have hilt : i < g.fresh := by
    rw [← hni]
    refine hall n ?_
    rw [hroot]
    exact List.mem_append_right _ (List.mem_cons_self _ _)
  refine ⟨?_, ?_, ?_⟩
  · set q0 : Nd := ⟨g.fresh, "aten::quantize_linear", [], [g.fresh + 1],
      .vnone, []⟩ with hq0d
    set d0 : Nd := ⟨g.fresh + 2, "aten::dequantize", [], [g.fresh + 3],
      .vnone, []⟩ with hd0d
    set n1 : Nd := { n with ins := n.ins.map (subst v (g.fresh + 3)) }
      with hn1d
    set sc : Nd := ⟨g.fresh + 4, "prim::Constant", [], [g.fresh + 5],
      .vflt qp.scale, []⟩ with hscd
    set zp : Nd := ⟨g.fresh + 6, "prim::Constant", [], [g.fresh + 7],
      .vint qp.zp, []⟩ with hzpd
    have hnlt : n.nid < g.fresh := by rw [hni]; exact hilt
    have e1 : rootNodes (insBeforeG g i [q0, d0]) =
        pre ++ q0 :: d0 :: n :: post := by
      rw [rootNodes_insBeforeG, hroot, insBefL_append_skip pre _ hpre,
        insBefL_head post hni]
      rfl
    have e2 : rootNodes (replInputOf (insBeforeG g i [q0, d0]) i v
        (g.fresh + 3)) = pre ++ q0 :: d0 :: n1 :: post := by
      rw [rootNodes_replInputOf, e1, List.map_append, List.map_cons,
        List.map_cons, List.map_cons]
      rw [map_fix (l := pre) (fun x hx => if_neg
        (fun he => hpre (List.mem_map.mpr ⟨x, hx, he⟩)))]
      rw [map_fix (l := post) (fun x hx => if_neg
        (fun he => hpost (List.mem_map.mpr ⟨x, hx, he⟩)))]
      rw [if_neg (show ¬ q0.nid = i by rw [hq0d]; show ¬ g.fresh = i; omega)]
      rw [if_neg (show ¬ d0.nid = i by
        rw [hd0d]; show ¬ g.fresh + 2 = i; omega)]
      rw [if_pos hni]
    have e3 : rootNodes (addInputG (replInputOf (insBeforeG g i [q0, d0]) i v
        (g.fresh + 3)) g.fresh v) = pre ++
          ({ q0 with ins := [v] } : Nd) :: d0 :: n1 :: post := by
      rw [rootNodes_addInputG, e2, List.map_append, List.map_cons,
        List.map_cons, List.map_cons]
      rw [map_fix (l := pre) (fun x hx => if_neg
        (by have := hpre_lt x hx; omega))]
      rw [map_fix (l := post) (fun x hx => if_neg
        (by have := hpost_lt x hx; omega))]
      rw [if_pos (show q0.nid = g.fresh by rw [hq0d])]
      rw [if_neg (show ¬ d0.nid = g.fresh by
        rw [hd0d]; show ¬ g.fresh + 2 = g.fresh; omega)]
      rw [if_neg (show ¬ n1.nid = g.fresh by
        rw [hn1d]; show ¬ n.nid = g.fresh; omega)]
      rfl
    have e4 : rootNodes (insBeforeG (addInputG (replInputOf (insBeforeG g i
        [q0, d0]) i v (g.fresh + 3)) g.fresh v) g.fresh [sc]) =
        pre ++ sc :: ({ q0 with ins := [v] } : Nd) :: d0 :: n1 :: post := by
      rw [rootNodes_insBeforeG, e3,
        insBefL_append_skip pre _ (by
          intro hmem
          obtain ⟨x, hx, he⟩ := List.mem_map.mp hmem
          have := hpre_lt x hx
          omega),
        insBefL_head _ (show ({ q0 with ins := [v] } : Nd).nid = g.fresh by
          rw [hq0d])]
      rfl
    have e5 : rootNodes (insBeforeG (insBeforeG (addInputG (replInputOf
        (insBeforeG g i [q0, d0]) i v (g.fresh + 3)) g.fresh v) g.fresh [sc])
        g.fresh [zp]) =
        pre ++ sc :: zp :: ({ q0 with ins := [v] } : Nd) :: d0 :: n1 :: post := by
      rw [rootNodes_insBeforeG, e4,
        show pre ++ sc :: ({ q0 with ins := [v] } : Nd) :: d0 :: n1 :: post =
          (pre ++ [sc]) ++ ({ q0 with ins := [v] } : Nd) :: d0 :: n1 :: post
          from by rw [List.append_assoc]; rfl,
        insBefL_append_skip (pre ++ [sc]) _ (by
          intro hmem
          obtain ⟨x, hx, he⟩ := List.mem_map.mp hmem
          rcases List.mem_append.mp hx with h1 | h1
          · have := hpre_lt x h1
            omega
          · rw [List.mem_singleton] at h1
            subst h1
            rw [hscd] at he
            have : g.fresh + 4 = g.fresh := he
            omega),
        insBefL_head _ (show ({ q0 with ins := [v] } : Nd).nid = g.fresh by
          rw [hq0d]), List.append_assoc]
      rfl
    have e6 : rootNodes (addInputG (insBeforeG (insBeforeG (addInputG
        (replInputOf (insBeforeG g i [q0, d0]) i v (g.fresh + 3)) g.fresh v)
        g.fresh [sc]) g.fresh [zp]) g.fresh (g.fresh + 5)) =
        pre ++ sc :: zp :: ({ q0 with ins := [v, g.fresh + 5] } : Nd) ::
          d0 :: n1 :: post := by
      rw [rootNodes_addInputG, e5, List.map_append, List.map_cons,
        List.map_cons, List.map_cons, List.map_cons, List.map_cons]
      rw [map_fix (l := pre) (fun x hx => if_neg
        (by have := hpre_lt x hx; omega))]
      rw [map_fix (l := post) (fun x hx => if_neg
        (by have := hpost_lt x hx; omega))]
      rw [if_neg (show ¬ sc.nid = g.fresh by
        rw [hscd]; show ¬ g.fresh + 4 = g.fresh; omega)]
      rw [if_neg (show ¬ zp.nid = g.fresh by
        rw [hzpd]; show ¬ g.fresh + 6 = g.fresh; omega)]
      rw [if_pos (show ({ q0 with ins := [v] } : Nd).nid = g.fresh by
        rw [hq0d])]
      rw [if_neg (show ¬ d0.nid = g.fresh by
        rw [hd0d]; show ¬ g.fresh + 2 = g.fresh; omega)]
      rw [if_neg (show ¬ n1.nid = g.fresh by
        rw [hn1d]; show ¬ n.nid = g.fresh; omega)]
      rfl
    have e7 : rootNodes (addInputG (addInputG (insBeforeG (insBeforeG
        (addInputG (replInputOf (insBeforeG g i [q0, d0]) i v (g.fresh + 3))
        g.fresh v) g.fresh [sc]) g.fresh [zp]) g.fresh (g.fresh + 5)) g.fresh
        (g.fresh + 7)) = pre ++ sc :: zp ::
          ({ q0 with ins := [v, g.fresh + 5, g.fresh + 7] } : Nd) ::
          d0 :: n1 :: post := by
      rw [rootNodes_addInputG, e6, List.map_append, List.map_cons,
        List.map_cons, List.map_cons, List.map_cons, List.map_cons]
      rw [map_fix (l := pre) (fun x hx => if_neg
        (by have := hpre_lt x hx; omega))]
      rw [map_fix (l := post) (fun x hx => if_neg
        (by have := hpost_lt x hx; omega))]
      rw [if_neg (show ¬ sc.nid = g.fresh by
        rw [hscd]; show ¬ g.fresh + 4 = g.fresh; omega)]
      rw [if_neg (show ¬ zp.nid = g.fresh by
        rw [hzpd]; show ¬ g.fresh + 6 = g.fresh; omega)]
      rw [if_pos (show ({ q0 with ins := [v, g.fresh + 5] } : Nd).nid = g.fresh
        by rw [hq0d])]
      rw [if_neg (show ¬ d0.nid = g.fresh by
        rw [hd0d]; show ¬ g.fresh + 2 = g.fresh; omega)]
      rw [if_neg (show ¬ n1.nid = g.fresh by
        rw [hn1d]; show ¬ n.nid = g.fresh; omega)]
      rfl
    have e8 : rootNodes (addInputG (addInputG (addInputG (insBeforeG
        (insBeforeG (addInputG (replInputOf (insBeforeG g i [q0, d0]) i v
        (g.fresh + 3)) g.fresh v) g.fresh [sc]) g.fresh [zp]) g.fresh
        (g.fresh + 5)) g.fresh (g.fresh + 7)) (g.fresh + 2) (g.fresh + 1)) =
        pre ++ sc :: zp ::
          ({ q0 with ins := [v, g.fresh + 5, g.fresh + 7] } : Nd) ::
          ({ d0 with ins := [g.fresh + 1] } : Nd) :: n1 :: post := by
      rw [rootNodes_addInputG, e7, List.map_append, List.map_cons,
        List.map_cons, List.map_cons, List.map_cons, List.map_cons]
      rw [map_fix (l := pre) (fun x hx => if_neg
        (by have := hpre_lt x hx; omega))]
      rw [map_fix (l := post) (fun x hx => if_neg
        (by have := hpost_lt x hx; omega))]
      rw [if_neg (show ¬ sc.nid = g.fresh + 2 by
        rw [hscd]; show ¬ g.fresh + 4 = g.fresh + 2; omega)]
      rw [if_neg (show ¬ zp.nid = g.fresh + 2 by
        rw [hzpd]; show ¬ g.fresh + 6 = g.fresh + 2; omega)]
      rw [if_neg (show ¬ ({ q0 with
          ins := [v, g.fresh + 5, g.fresh + 7] } : Nd).nid = g.fresh + 2 by
        rw [hq0d]; show ¬ g.fresh = g.fresh + 2; omega)]
      rw [if_pos (show d0.nid = g.fresh + 2 by rw [hd0d])]
      rw [if_neg (show ¬ n1.nid = g.fresh + 2 by
        rw [hn1d]; show ¬ n.nid = g.fresh + 2; omega)]
      rfl
    rw [rootNodes_addQDNI_some hfn, insertQuantNodeParams_eq]
    rw [show (⟨g.fresh, "aten::quantize_linear", [], [g.fresh + 1], .vnone,
      []⟩ : Nd) = q0 from by rw [hq0d]]
    rw [show (⟨g.fresh + 2, "aten::dequantize", [], [g.fresh + 3], .vnone,
      []⟩ : Nd) = d0 from by rw [hd0d]]
    rw [show (⟨g.fresh + 4, "prim::Constant", [], [g.fresh + 5],
      .vflt qp.scale, []⟩ : Nd) = sc from by rw [hscd]]
    rw [show (⟨g.fresh + 6, "prim::Constant", [], [g.fresh + 7],
      .vint qp.zp, []⟩ : Nd) = zp from by rw [hzpd]]
    rw [e8]
  · intro k hk
    rw [List.get?_map, hk]
    show some (subst v (g.fresh + 3) v) = _
    rw [subst, if_pos rfl]
  · intro k u hk hne
    rw [List.get?_map, hk]
    show some (subst v (g.fresh + 3) u) = _
    rw [subst, if_neg hne]

/-- Witness for the amended C2: inserting the edge pair for
`(x, conv2d)` in the C2 graph.  The conv2d node sits last in the root
block; the two constants and the quant/dequant pair land directly
before it and only its inputs are rewritten. -/
theorem c2_per_edge_quadruple_witness :
    (idsBound gC2 = true ∧
     findNd gC2 5 = some ⟨5, conv2dSig, [0, 0], [6], .vnone, []⟩ ∧
     rootNodes gC2 =
       [⟨2, "prim::Constant", [], [3], .vstr "x", []⟩,
        ⟨1, "prim::PythonOp", [0, 3], [4], .vnone, []⟩] ++
       (⟨5, conv2dSig, [0, 0], [6], .vnone, []⟩ : Nd) :: [] ∧
     0 < gC2.fresh) ∧
    (rootNodes (addQuantDeQuantNodesForInput gC2 0 5 ⟨"t", 1, 0⟩) =
      [⟨2, "prim::Constant", [], [3], .vstr "x", []⟩,
       ⟨1, "prim::PythonOp", [0, 3], [4], .vnone, []⟩] ++
        (⟨gC2.fresh + 4, "prim::Constant", [], [gC2.fresh + 5],
          .vflt (⟨"t", 1, 0⟩ : QParam).scale, []⟩ : Nd) ::
        (⟨gC2.fresh + 6, "prim::Constant", [], [gC2.fresh + 7],
          .vint (⟨"t", 1, 0⟩ : QParam).zp, []⟩ : Nd) ::
        (⟨gC2.fresh, "aten::quantize_linear", [0, gC2.fresh + 5, gC2.fresh + 7],
          [gC2.fresh + 1], .vnone, []⟩ : Nd) ::
        (⟨gC2.fresh + 2, "aten::dequantize", [gC2.fresh + 1], [gC2.fresh + 3],
          .vnone, []⟩ : Nd) ::
        { (⟨5, conv2dSig, [0, 0], [6], .vnone, []⟩ : Nd) with
          ins := (⟨5, conv2dSig, [0, 0], [6], .vnone, []⟩ : Nd).ins.map
            (subst 0 (gC2.fresh + 3)) } :: [] ∧
    (∀ k, (⟨5, conv2dSig, [0, 0], [6], .vnone, []⟩ : Nd).ins.get? k = some 0 →
      ((⟨5, conv2dSig, [0, 0], [6], .vnone, []⟩ : Nd).ins.map
        (subst 0 (gC2.fresh + 3))).get? k = some (gC2.fresh + 3)) ∧
    (∀ k u, (⟨5, conv2dSig, [0, 0], [6], .vnone, []⟩ : Nd).ins.get? k = some u →
      u ≠ 0 →
      ((⟨5, conv2dSig, [0, 0], [6], .vnone, []⟩ : Nd).ins.map
        (subst 0 (gC2.fresh + 3))).get? k = some u)) :=
  ⟨⟨by decide, by decide, by decide, by decide⟩,
   c2_per_edge_quadruple gC2 0 5 ⟨"t", 1, 0⟩
     ⟨5, conv2dSig, [0, 0], [6], .vnone, []⟩
     [⟨2, "prim::Constant", [], [3], .vstr "x", []⟩,
      ⟨1, "prim::PythonOp", [0, 3], [4], .vnone, []⟩] []
     (by decide) (by decide) (by decide) (by decide) (by decide) (by decide)
     (by decide)⟩

end Quantization
